import Mathlib

/-!
# Graph traversal and airport network

A shallow embedding of `graph_traversal.cpp` (`next_current_for_shortest_path`,
`distance_at_most_two`, `shortest_path`) and of `airport_network.cpp`
(`AirportNetwork`), together with theorems about them.

Conventions of the embedding:

* `std::vector<T>` is a `List T`; `vec[i]` is `List.getD` and `vec[i] = x` is `List.set`.
  For a graph that satisfies the graph contract every index used is in bounds.
* `int` is an `Int` kept inside the 32-bit range: the one addition of the source,
  `edge_weight + shortest[current_vertex]`, is `add_int`, which wraps modulo `2^32`.
* `throw` and a failed `assert` are `Except.error`.
* The `while` loop of `shortest_path` is run with an iteration budget; running out of the
  budget is the distinct outcome `Error.fuel_exhausted`, which is proved never to occur.
-/

namespace Project04

/-! ## Machine integers and failures -/

/-- Failure outcomes of the embedded code. -/
inductive Error where
  /-- The exception `std::range_error` thrown by the traversal functions. -/
  | range_error
  /-- The exception `std::invalid_argument` thrown by the `AirportNetwork` queries. -/
  | invalid_argument
  /-- The out-of-range failure of `add_edge` on a vertex that is not valid. -/
  | out_of_range
  /-- A failed `assert`. -/
  | assertion_failure
  /-- The iteration budget of a loop of the embedding ran out (not an outcome of the code). -/
  | fuel_exhausted
  deriving DecidableEq, Repr

deriving instance DecidableEq for Except

/-- The value `std::numeric_limits<int>::max()`, used as the "infinite" distance. -/
def INT_MAX : Int := 2147483647

/-- The value `std::numeric_limits<int>::min()`. -/
def INT_MIN : Int := -2147483648

/-- Reduction of a mathematical integer to the 32-bit two's complement range. -/
def wrap_int (x : Int) : Int := (x + 2147483648) % 4294967296 - 2147483648

/-- Addition of two `int` values. -/
def add_int (a b : Int) : Int := wrap_int (a + b)

/-! ## The graph contract -/

/-- The part of the graph contract used by the traversal algorithms: any type with
`vertex_count()`, `out_edges(u)` and `edge_weight(u, v)`. -/
structure Graph where
  /-- The number of vertices. -/
  vertex_count : Nat
  /-- The vertices adjacent to `u`, in the order the representation enumerates them. -/
  out_edges : Nat → List Nat
  /-- The stored weight of the edge from `u` to `v`. -/
  edge_weight : Nat → Nat → Int

/-- The graph contract: every out-edge of a valid vertex leads to a valid vertex and its weight
is an `int`. -/
def Graph.WellFormed (g : Graph) : Prop :=
  ∀ u, u < g.vertex_count → ∀ v ∈ g.out_edges u,
    v < g.vertex_count ∧ INT_MIN ≤ g.edge_weight u v ∧ g.edge_weight u v ≤ INT_MAX

instance (g : Graph) : Decidable g.WellFormed := by
  unfold Graph.WellFormed; infer_instance

/-- Every edge weight is non-negative. -/
def Graph.NonNegative (g : Graph) : Prop :=
  ∀ u, u < g.vertex_count → ∀ v ∈ g.out_edges u, 0 ≤ g.edge_weight u v

instance (g : Graph) : Decidable g.NonNegative := by
  unfold Graph.NonNegative; infer_instance

/-! ## `next_current_for_shortest_path` -/

/-- The test of the first scan: `!visited[v] && distance[v] < max`. -/
def is_candidate (visited : List Bool) (distance : List Int) (v : Nat) : Bool :=
  !(visited.getD v false) && decide (distance.getD v INT_MAX < INT_MAX)

/-- One iteration of the second scan, on the pair `(next_current, next_current_distance)`:
`if (!visited[v] && distance[v] < next_current_distance) { ... }`. -/
def improve (visited : List Bool) (distance : List Int) (best : Nat × Int) (v : Nat) :
    Nat × Int :=
  if !(visited.getD v false) && decide (distance.getD v INT_MAX < best.2) then
    (v, distance.getD v INT_MAX)
  else best

/-- The function `next_current_for_shortest_path(visited, distance, next_current)`: the returned
pair is the `bool` result and the value of the reference parameter `next_current` on return. -/
def next_current_for_shortest_path (visited : List Bool) (distance : List Int)
    (next_current : Nat) : Except Error (Bool × Nat) :=
  if visited.length ≠ distance.length then .error .assertion_failure
  else
    -- first scan: the first unvisited vertex with a finite distance, then `break`
    let first : Nat × Int :=
      match (List.range visited.length).find? (is_candidate visited distance) with
      | some v => (v, distance.getD v INT_MAX)
      | none => (next_current, INT_MAX)
    if first.2 = INT_MAX then .ok (false, first.1)
    else
      -- second scan: replace the candidate on strict improvement only
      .ok (true, ((List.range visited.length).foldl (improve visited distance) first).1)

/-! ## `distance_at_most_two` -/

/-- The inner loop `for (const int j : graph.out_edges(i)) seen[j] = true;`. -/
def mark_all (seen : List Bool) (vertices : List Nat) : List Bool :=
  vertices.foldl (fun seen j => seen.set j true) seen

/-- The body of the outer loop: `seen[i] = true;` followed by the inner loop. -/
def mark_neighbour (g : Graph) (seen : List Bool) (i : Nat) : List Bool :=
  mark_all (seen.set i true) (g.out_edges i)

/-- The function `distance_at_most_two(graph, start)`. -/
def distance_at_most_two (g : Graph) (start : Int) : Except Error (List Bool) :=
  if start ≥ g.vertex_count ∨ start < 0 then .error .range_error
  else
    let seen := (List.replicate g.vertex_count false).set start.toNat true
    .ok ((g.out_edges start.toNat).foldl (mark_neighbour g) seen)

/-! ## `shortest_path` -/

/-- One iteration of the loop over `graph.out_edges(current_vertex)`. -/
def relax_edge (g : Graph) (current_vertex : Nat) (shortest : List Int) (v : Nat) : List Int :=
  let edge_weight := g.edge_weight current_vertex v
  if add_int edge_weight (shortest.getD current_vertex INT_MAX) < shortest.getD v INT_MAX then
    shortest.set v (add_int edge_weight (shortest.getD current_vertex INT_MAX))
  else shortest

/-- The loop `for (const int v : graph.out_edges(current_vertex)) { ... }`. -/
def relax_out_edges (g : Graph) (current_vertex : Nat) (shortest : List Int) : List Int :=
  (g.out_edges current_vertex).foldl (relax_edge g current_vertex) shortest

/-- The `while` loop of `shortest_path`, run for at most `fuel` evaluations of its condition. -/
def shortest_path_loop (g : Graph) :
    Nat → List Bool → List Int → Nat → Except Error (List Int)
  | 0, _, _, _ => .error .fuel_exhausted
  | fuel + 1, seen, shortest, current_vertex =>
    match next_current_for_shortest_path seen shortest current_vertex with
    | .error e => .error e
    | .ok (false, _) => .ok shortest
    | .ok (true, current_vertex) =>
      shortest_path_loop g fuel (seen.set current_vertex true)
        (relax_out_edges g current_vertex shortest) current_vertex

/-- The function `shortest_path(graph, start)`. The loop condition is evaluated at most
`vertex_count + 1` times (`shortest_path_loop_rule`, `shortest_path_returns`), which is the
budget given here. -/
def shortest_path (g : Graph) (start : Int) : Except Error (List Int) :=
  if start ≥ g.vertex_count ∨ start < 0 then .error .range_error
  else
    let seen := List.replicate g.vertex_count false
    let shortest := (List.replicate g.vertex_count INT_MAX).set start.toNat 0
    shortest_path_loop g (g.vertex_count + 1) seen shortest start.toNat

/-! ## The traversal functions with a log of the queries made to the graph -/

/-- A call of `graph.out_edges(u)` or of `graph.edge_weight(u, v)`. -/
inductive Query where
  /-- The call `graph.out_edges(u)`. -/
  | out_edges (u : Nat)
  /-- The call `graph.edge_weight(u, v)`. -/
  | edge_weight (u v : Nat)
  deriving DecidableEq, Repr

/-- The body of the outer loop of `distance_at_most_two`, which calls `graph.out_edges(i)`. -/
def mark_neighbour_traced (g : Graph) (state : List Bool × List Query) (i : Nat) :
    List Bool × List Query :=
  (mark_neighbour g state.1 i, state.2 ++ [Query.out_edges i])

/-- The function `distance_at_most_two(graph, start)` together with the queries it has made to the
graph, in order, when it returns or throws. -/
def distance_at_most_two_traced (g : Graph) (start : Int) :
    Except Error (List Bool) × List Query :=
  if start ≥ g.vertex_count ∨ start < 0 then (.error .range_error, [])
  else
    let seen := (List.replicate g.vertex_count false).set start.toNat true
    let final := (g.out_edges start.toNat).foldl (mark_neighbour_traced g)
      (seen, [Query.out_edges start.toNat])
    (.ok final.1, final.2)

/-- One iteration of the relaxation loop, which calls `graph.edge_weight(current_vertex, v)`. -/
def relax_edge_traced (g : Graph) (current_vertex : Nat) (state : List Int × List Query)
    (v : Nat) : List Int × List Query :=
  (relax_edge g current_vertex state.1 v, state.2 ++ [Query.edge_weight current_vertex v])

/-- The relaxation loop, which first calls `graph.out_edges(current_vertex)`. -/
def relax_out_edges_traced (g : Graph) (current_vertex : Nat) (state : List Int × List Query) :
    List Int × List Query :=
  (g.out_edges current_vertex).foldl (relax_edge_traced g current_vertex)
    (state.1, state.2 ++ [Query.out_edges current_vertex])

/-- The `while` loop of `shortest_path` with the log of queries. -/
def shortest_path_loop_traced (g : Graph) :
    Nat → List Bool → List Int → Nat → List Query → Except Error (List Int) × List Query
  | 0, _, _, _, log => (.error .fuel_exhausted, log)
  | fuel + 1, seen, shortest, current_vertex, log =>
    match next_current_for_shortest_path seen shortest current_vertex with
    | .error e => (.error e, log)
    | .ok (false, _) => (.ok shortest, log)
    | .ok (true, current_vertex) =>
      let state := relax_out_edges_traced g current_vertex (shortest, log)
      shortest_path_loop_traced g fuel (seen.set current_vertex true) state.1 current_vertex
        state.2

/-- The function `shortest_path(graph, start)` together with the queries it has made to the
graph, in order, when it returns or throws. -/
def shortest_path_traced (g : Graph) (start : Int) : Except Error (List Int) × List Query :=
  if start ≥ g.vertex_count ∨ start < 0 then (.error .range_error, [])
  else
    let seen := List.replicate g.vertex_count false
    let shortest := (List.replicate g.vertex_count INT_MAX).set start.toNat 0
    shortest_path_loop_traced g (g.vertex_count + 1) seen shortest start.toNat []

/-! ## Paths -/

/-- The vertex list `p` continues a walk that stands at `u`: each vertex of `p` is an
out-edge neighbour of the vertex before it. -/
def is_path_from (g : Graph) : Nat → List Nat → Bool
  | _, [] => true
  | u, v :: rest => decide (v ∈ g.out_edges u) && is_path_from g v rest

/-- The last vertex of the walk that starts at `u` and continues through `p`. -/
def path_end : Nat → List Nat → Nat
  | u, [] => u
  | _, v :: rest => path_end v rest

/-- The sum of the edge weights along the walk that starts at `u` and continues through `p`. -/
def path_weight (g : Graph) : Nat → List Nat → Int
  | _, [] => 0
  | u, v :: rest => g.edge_weight u v + path_weight g v rest

/-- The list `p` is a path from `start` to `v`. -/
def IsPath (g : Graph) (start v : Nat) (p : List Nat) : Prop :=
  is_path_from g start p = true ∧ path_end start p = v

instance (g : Graph) (start v : Nat) (p : List Nat) : Decidable (IsPath g start v p) := by
  unfold IsPath; infer_instance

/-- The vertex `v` is reachable from `start` by following out-edges. -/
def Reachable (g : Graph) (start v : Nat) : Prop := ∃ p, IsPath g start v p

/-- The integer `d` is the minimum, over all paths from `start` to `v`, of the sum of the edge
weights along the path. -/
def IsMinPathWeight (g : Graph) (start v : Nat) (d : Int) : Prop :=
  (∃ p, IsPath g start v p ∧ path_weight g start p = d) ∧
    ∀ p, IsPath g start v p → d ≤ path_weight g start p

/-- A minimum-weight path from `start` extended by one more out-edge has a weight sum of at most
`bound`. With `bound = INT_MAX` no relaxation sum of `shortest_path` leaves the `int` range. -/
def RelaxationsFit (g : Graph) (start : Nat) (bound : Int) : Prop :=
  ∀ u p, IsPath g start u p →
    (∀ q, IsPath g start u q → path_weight g start p ≤ path_weight g start q) →
    ∀ v ∈ g.out_edges u, path_weight g start p + g.edge_weight u v ≤ bound

/-- The invariant of the main loop of `shortest_path` on the visited vector `seen` and the
tentative distances `D`, for a graph with non-negative weights whose relaxations fit:
distances are non-negative `int` values, a finite distance is the weight of a path, the distance
of a visited vertex is finite and minimal, the out-edges of a visited vertex are relaxed, and
visited vertices are no farther than unvisited ones. -/
structure DijkstraInv (g : Graph) (start : Nat) (seen : List Bool) (D : List Int) : Prop where
  seen_length : seen.length = g.vertex_count
  dist_length : D.length = g.vertex_count
  range : ∀ v, v < g.vertex_count → 0 ≤ D.getD v INT_MAX ∧ D.getD v INT_MAX ≤ INT_MAX
  start_zero : D.getD start INT_MAX = 0
  realised : ∀ v, v < g.vertex_count → D.getD v INT_MAX < INT_MAX →
    ∃ p, IsPath g start v p ∧ path_weight g start p = D.getD v INT_MAX
  settled : ∀ u, u < g.vertex_count → seen.getD u false = true →
    D.getD u INT_MAX < INT_MAX ∧ ∀ p, IsPath g start u p → D.getD u INT_MAX ≤ path_weight g start p
  relaxed : ∀ u, u < g.vertex_count → seen.getD u false = true → ∀ v ∈ g.out_edges u,
    D.getD v INT_MAX ≤ D.getD u INT_MAX + g.edge_weight u v
  ordered : ∀ u v, u < g.vertex_count → v < g.vertex_count → seen.getD u false = true →
    seen.getD v false = false → D.getD u INT_MAX ≤ D.getD v INT_MAX

/-! ## Example graphs -/

/-- Three vertices in a line, `0 - 1 - 2`, with weights 100 and 50 in both directions. -/
def line_graph : Graph where
  vertex_count := 3
  out_edges := fun u => match u with
    | 0 => [1]
    | 1 => [0, 2]
    | 2 => [1]
    | _ => []
  edge_weight := fun u v => match u, v with
    | 0, 1 => 100
    | 1, 0 => 100
    | 1, 2 => 50
    | 2, 1 => 50
    | _, _ => 0

/-- Three vertices with the directed edges `0 → 1` of weight `INT_MAX` and `1 → 2` of weight 1:
the minimum path weight from 0 to 2 is `INT_MAX + 1`. -/
def far_graph : Graph where
  vertex_count := 3
  out_edges := fun u => match u with
    | 0 => [1]
    | 1 => [2]
    | _ => []
  edge_weight := fun u v => match u, v with
    | 0, 1 => 2147483647
    | 1, 2 => 1
    | _, _ => 0

/-- Two vertices joined in both directions by an edge of weight `2^30`. -/
def heavy_graph : Graph where
  vertex_count := 2
  out_edges := fun u => match u with
    | 0 => [1]
    | 1 => [0]
    | _ => []
  edge_weight := fun u v => match u, v with
    | 0, 1 => 1073741824
    | 1, 0 => 1073741824
    | _, _ => 0

/-- Two vertices with the single directed edge `0 → 1` of weight `INT_MAX`. -/
def sentinel_graph : Graph where
  vertex_count := 2
  out_edges := fun u => match u with
    | 0 => [1]
    | _ => []
  edge_weight := fun u v => match u, v with
    | 0, 1 => 2147483647
    | _, _ => 0

/-! ## The adjacency-list representation and the undirected adapter -/

/-- Modelled from the spec: the adjacency-list Graph Representation (`adjacency_list_graph.hpp`
is not among the sources). For every vertex it stores the pairs of a neighbour and the weight of
the edge to it, in insertion order. -/
structure AdjacencyListGraph where
  /-- The list of `(neighbour, weight)` pairs of every vertex. -/
  adjacency : List (List (Nat × Int))
  deriving DecidableEq, Repr

/-- Modelled from the spec: a representation with `n` vertices and no edges. -/
def AdjacencyListGraph.empty (n : Nat) : AdjacencyListGraph := ⟨List.replicate n []⟩

/-- Modelled from the spec: `vertex_count()`. -/
def AdjacencyListGraph.vertex_count (g : AdjacencyListGraph) : Nat := g.adjacency.length

/-- Modelled from the spec: `out_edges(u)`, in insertion order. -/
def AdjacencyListGraph.out_edges (g : AdjacencyListGraph) (u : Nat) : List Nat :=
  (g.adjacency.getD u []).map Prod.fst

/-- Modelled from the spec: `has_edge(u, v)`. -/
def AdjacencyListGraph.has_edge (g : AdjacencyListGraph) (u v : Nat) : Bool :=
  (g.adjacency.getD u []).any (fun e => e.1 == v)

/-- Modelled from the spec: `edge_weight(u, v)`, the stored weight. The traversal functions call
it only for an edge enumerated by `out_edges`; for a pair without an edge the value here is 0. -/
def AdjacencyListGraph.edge_weight (g : AdjacencyListGraph) (u v : Nat) : Int :=
  match (g.adjacency.getD u []).find? (fun e => e.1 == v) with
  | some e => e.2
  | none => 0

/-- Modelled from the spec: insertion of the directed entry `(u, v, weight)`. -/
def AdjacencyListGraph.insert (g : AdjacencyListGraph) (u v : Nat) (weight : Int) :
    AdjacencyListGraph :=
  ⟨g.adjacency.set u (g.adjacency.getD u [] ++ [(v, weight)])⟩

/-- Modelled from the spec: `add_edge(u, v, weight)` of the Undirected Graph Adapter over the
adjacency-list representation. It fails with an out-of-range error if `u` or `v` is not a valid
vertex, does nothing if the edge already exists, and otherwise inserts `(u, v, weight)` and, if
`u ≠ v`, also `(v, u, weight)`. -/
def AdjacencyListGraph.add_edge (g : AdjacencyListGraph) (u v : Int) (weight : Int) :
    Except Error AdjacencyListGraph :=
  if u < 0 ∨ u ≥ g.vertex_count ∨ v < 0 ∨ v ≥ g.vertex_count then .error .out_of_range
  else if g.has_edge u.toNat v.toNat then .ok g
  else
    let g1 := g.insert u.toNat v.toNat weight
    if u ≠ v then .ok (g1.insert v.toNat u.toNat weight) else .ok g1

/-- The representation seen through the graph contract used by the traversal functions. -/
def AdjacencyListGraph.toGraph (g : AdjacencyListGraph) : Graph where
  vertex_count := g.vertex_count
  out_edges := g.out_edges
  edge_weight := g.edge_weight

/-! ## The airport network -/

/-- Modelled from the spec: a flight-route record, which exposes two airport codes. -/
structure FlightRoute where
  /-- The code of the first airport. -/
  code_one : String
  /-- The code of the second airport. -/
  code_two : String
  deriving DecidableEq, Repr

/-- Modelled from the spec: the airport-database collaborator (`airport_database.hpp` is not among
the sources), as the functions `AirportNetwork` calls. -/
structure AirportDatabase where
  /-- The total airport count, `size()`. -/
  size : Nat
  /-- The flight-route records, `routes()`. -/
  routes : List FlightRoute
  /-- The lookup `index(code)`, as the `int` to which the source converts its result
  (`int vertex_number = airport_database_.index(code);`). -/
  index : String → Int
  /-- The inverse lookup `code(index)`. -/
  code : Nat → String
  /-- The value of `airport(code_one).distance_miles(airport(code_two))`, the great-circle
  distance in miles between the airport records of the two codes. -/
  distance_miles : String → String → Int

/-- Modelled from the spec: `code` is known to the database, i.e. it is the code of the airport
at some database index, which `index` returns. -/
def AirportDatabase.Known (db : AirportDatabase) (code : String) : Prop :=
  ∃ i, i < db.size ∧ db.code i = code ∧ db.index code = i

/-- The class `AirportNetwork`: its two private data members. -/
structure AirportNetwork where
  /-- The database of airports. -/
  airport_database_ : AirportDatabase
  /-- The graph `UndirectedGraph<AdjacencyListGraph> airport_graph_`. -/
  airport_graph_ : AdjacencyListGraph

/-- The body of the loop of the constructor, for one flight route. -/
def add_flight_route (airport_database : AirportDatabase)
    (airport_graph : Except Error AdjacencyListGraph) (flight : FlightRoute) :
    Except Error AdjacencyListGraph :=
  match airport_graph with
  | .error e => .error e
  | .ok graph =>
    let from_index := airport_database.index flight.code_one
    let to_index := airport_database.index flight.code_two
    let great_circle := airport_database.distance_miles flight.code_one flight.code_two
    graph.add_edge from_index to_index great_circle

/-- The constructor `AirportNetwork::AirportNetwork(airport_database)`. -/
def AirportNetwork.new (airport_database : AirportDatabase) : Except Error AirportNetwork :=
  match airport_database.routes.foldl (add_flight_route airport_database)
      (.ok (AdjacencyListGraph.empty airport_database.size)) with
  | .error e => .error e
  | .ok graph => .ok ⟨airport_database, graph⟩

/-- The loop of `at_most_one_layover` that translates the marked vertices back to codes. -/
def collect_codes (airport_database : AirportDatabase) (at_most_two : List Bool) : List String :=
  (List.range at_most_two.length).foldl
    (fun codes i => if at_most_two.getD i false then codes ++ [airport_database.code i] else codes)
    []

/-- The method `AirportNetwork::at_most_one_layover(code)`. The test `!index(code)` of the source
holds exactly when the `int` returned by `index` is 0. -/
def AirportNetwork.at_most_one_layover (network : AirportNetwork) (code : String) :
    Except Error (List String) :=
  if network.airport_database_.index code = 0 then .error .invalid_argument
  else
    let vertex_number := network.airport_database_.index code
    match distance_at_most_two network.airport_graph_.toGraph vertex_number with
    | .error e => .error e
    | .ok at_most_two => .ok (collect_codes network.airport_database_ at_most_two)

/-- The method `AirportNetwork::least_distance(code)`. The test `!index(code)` of the source
holds exactly when the `int` returned by `index` is 0. -/
def AirportNetwork.least_distance (network : AirportNetwork) (code : String) :
    Except Error (List Int) :=
  if network.airport_database_.index code = 0 then .error .invalid_argument
  else
    let vertex_number := network.airport_database_.index code
    shortest_path network.airport_graph_.toGraph vertex_number

/-- Modelled from the spec: a database that holds the airports `codes` in index order, for which
`index` returns the position of a known code and the falsy value 0 for an unknown code. -/
def database_of (codes : List String) (routes : List FlightRoute)
    (distance_miles : String → String → Int) : AirportDatabase where
  size := codes.length
  routes := routes
  index := fun code => if code ∈ codes then (codes.indexOf code : Nat) else 0
  code := fun i => codes.getD i ""
  distance_miles := distance_miles

/-- The database of the end-to-end example: airports `A`, `B`, `C` at indices 0, 1, 2 with the
routes `A - B` of 100 miles and `B - C` of 50 miles. -/
def abc_database : AirportDatabase :=
  database_of ["A", "B", "C"] [⟨"A", "B"⟩, ⟨"B", "C"⟩]
    (fun c d => if c = "A" ∨ d = "A" then 100 else 50)

/-- The graph that the constructor builds from `abc_database`. -/
def abc_graph : AdjacencyListGraph := ⟨[[(1, 100)], [(0, 100), (2, 50)], [(1, 50)]]⟩

/-- The network of the end-to-end example. -/
def abc_network : AirportNetwork := ⟨abc_database, abc_graph⟩

/-- A database in which the isolated airport `D` has index 0, before the airports `A` and `B`
that are joined by a route of 100 miles. -/
def isolated_database : AirportDatabase :=
  database_of ["D", "A", "B"] [⟨"A", "B"⟩] (fun _ _ => 100)

/-- The graph that the constructor builds from `isolated_database`. -/
def isolated_graph : AdjacencyListGraph := ⟨[[], [(2, 100)], [(1, 100)]]⟩

/-- The network over `isolated_database`. -/
def isolated_network : AirportNetwork := ⟨isolated_database, isolated_graph⟩

/-! ## Two representations of the same edges -/

/-- Two graph representations have the same vertex count and store the same edges: for every
vertex their `out_edges` enumerate the same set of neighbours, possibly in a different order, and
their `edge_weight` agree on every edge. -/
def SameEdges (g1 g2 : Graph) : Prop :=
  g1.vertex_count = g2.vertex_count ∧
  (∀ u, u < g1.vertex_count → ∀ v, v ∈ g1.out_edges u ↔ v ∈ g2.out_edges u) ∧
  (∀ u, u < g1.vertex_count → ∀ v ∈ g1.out_edges u, g1.edge_weight u v = g2.edge_weight u v)

/-- No vertex is its own out-edge neighbour. -/
def Graph.NoSelfLoops (g : Graph) : Prop :=
  ∀ u, u < g.vertex_count → u ∉ g.out_edges u

instance (g : Graph) : Decidable g.NoSelfLoops := by
  unfold Graph.NoSelfLoops; infer_instance

/-- Three vertices with the edges `0 → 1` of weight 1, `1 → 1` of weight `INT_MAX` and `1 → 2`
of weight 5; the out-edges of vertex 1 are enumerated as `[1, 2]`. -/
def loop_graph_one : Graph where
  vertex_count := 3
  out_edges := fun u => match u with
    | 0 => [1]
    | 1 => [1, 2]
    | _ => []
  edge_weight := fun u v => match u, v with
    | 0, 1 => 1
    | 1, 1 => 2147483647
    | 1, 2 => 5
    | _, _ => 0

/-- The graph `loop_graph_one` with the out-edges of vertex 1 enumerated as `[2, 1]`. -/
def loop_graph_two : Graph where
  vertex_count := 3
  out_edges := fun u => match u with
    | 0 => [1]
    | 1 => [2, 1]
    | _ => []
  edge_weight := loop_graph_one.edge_weight

/-- The line graph `0 - 1 - 2` with the out-edges of vertex 1 enumerated as `[2, 0]`. -/
def line_graph_two : Graph where
  vertex_count := 3
  out_edges := fun u => match u with
    | 0 => [1]
    | 1 => [2, 0]
    | 2 => [1]
    | _ => []
  edge_weight := line_graph.edge_weight

/-! ## The iterations of the main loop -/

/-- The state of `shortest_path` at the start of one execution of the body of its `while` loop:
the vertex selected as current and the vectors `seen` and `shortest` as they stand then. -/
structure Iteration where
  /-- The value of `current_vertex` set by `next_current_for_shortest_path`. -/
  current_vertex : Nat
  /-- The vector `seen` before the body runs. -/
  seen : List Bool
  /-- The vector `shortest` before the body runs. -/
  shortest : List Int
  deriving DecidableEq, Repr

/-- The operand pairs `(edge_weight, shortest[current_vertex])` of the additions
`edge_weight + shortest[current_vertex]` that the relaxation loop evaluates, in order, over the
out-edges `vertices` from the distance vector `shortest`. -/
def relaxation_operands (g : Graph) (current_vertex : Nat) : List Nat → List Int → List (Int × Int)
  | [], _ => []
  | v :: vertices, shortest =>
    (g.edge_weight current_vertex v, shortest.getD current_vertex INT_MAX) ::
      relaxation_operands g current_vertex vertices (relax_edge g current_vertex shortest v)

/-- The operand pairs of the additions evaluated in one iteration of the main loop. -/
def Iteration.operands (g : Graph) (it : Iteration) : List (Int × Int) :=
  relaxation_operands g it.current_vertex (g.out_edges it.current_vertex) it.shortest

/-- The iterations of the body of the `while` loop of `shortest_path`, in order, by the same
recursion as `shortest_path_loop`. -/
def shortest_path_loop_iterations (g : Graph) :
    Nat → List Bool → List Int → Nat → List Iteration
  | 0, _, _, _ => []
  | fuel + 1, seen, shortest, current_vertex =>
    match next_current_for_shortest_path seen shortest current_vertex with
    | .error _ => []
    | .ok (false, _) => []
    | .ok (true, current_vertex) =>
      ⟨current_vertex, seen, shortest⟩ ::
        shortest_path_loop_iterations g fuel (seen.set current_vertex true)
          (relax_out_edges g current_vertex shortest) current_vertex

/-- The iterations of the main loop in the run of `shortest_path(graph, start)`. -/
def shortest_path_iterations (g : Graph) (start : Int) : List Iteration :=
  if start ≥ g.vertex_count ∨ start < 0 then []
  else
    let seen := List.replicate g.vertex_count false
    let shortest := (List.replicate g.vertex_count INT_MAX).set start.toNat 0
    shortest_path_loop_iterations g (g.vertex_count + 1) seen shortest start.toNat

/-- The sum of the weights of the out-edges that `out_edges(u)` enumerates. -/
def out_weight (g : Graph) (u : Nat) : Int :=
  ((g.out_edges u).map (g.edge_weight u)).sum

/-- The total sum of the edge weights: the sum of `edge_weight(u, v)` over every vertex `u` and
every `v` that `out_edges(u)` enumerates. -/
def total_weight (g : Graph) : Int :=
  ((List.range g.vertex_count).map (out_weight g)).sum

/-- The sum of the out-edge weights of the vertices marked in `seen`. -/
def seen_weight (g : Graph) (seen : List Bool) : Int :=
  ((List.range g.vertex_count).map
    (fun u => if seen.getD u false = true then out_weight g u else 0)).sum

/-- The graph is undirected: `v` is an out-edge neighbour of `u` exactly when `u` is an out-edge
neighbour of `v`, with the same weight in both directions. -/
def Graph.Undirected (g : Graph) : Prop :=
  ∀ u, u < g.vertex_count → ∀ v ∈ g.out_edges u,
    u ∈ g.out_edges v ∧ g.edge_weight v u = g.edge_weight u v

instance (g : Graph) : Decidable g.Undirected := by
  unfold Graph.Undirected; infer_instance

/-- The undirected line `0 - 1 - 2` with the weights `INT_MAX` and 1. -/
def lopsided_graph : Graph where
  vertex_count := 3
  out_edges := fun u => match u with
    | 0 => [1]
    | 1 => [0, 2]
    | 2 => [1]
    | _ => []
  edge_weight := fun u v => match u, v with
    | 0, 1 => 2147483647
    | 1, 0 => 2147483647
    | 1, 2 => 1
    | 2, 1 => 1
    | _, _ => 0

/-- Relative to the iteration `it`, the later distance vector `later` has no entry larger than at
the start of `it`, and the entries of the vertices that were visited then, and of the vertex
selected as current in `it`, are unchanged. -/
def Iteration.SettledIn (it : Iteration) (vertex_count : Nat) (later : List Int) : Prop :=
  (∀ v, v < vertex_count → later.getD v INT_MAX ≤ it.shortest.getD v INT_MAX) ∧
  ∀ v, v < vertex_count → (it.seen.getD v false = true ∨ v = it.current_vertex) →
    later.getD v INT_MAX = it.shortest.getD v INT_MAX

/-! ## The graph of an airport network -/

/-- The two routes join the same pair of database indices, in either order. -/
def SamePair (db : AirportDatabase) (r1 r2 : FlightRoute) : Prop :=
  (db.index r1.code_one = db.index r2.code_one ∧ db.index r1.code_two = db.index r2.code_two) ∨
  (db.index r1.code_one = db.index r2.code_two ∧ db.index r1.code_two = db.index r2.code_one)

instance (db : AirportDatabase) (r1 r2 : FlightRoute) : Decidable (SamePair db r1 r2) := by
  unfold SamePair; infer_instance

/-- Modelled from the spec: the contract of the database for its routes. Both codes of every
route record resolve to a database index in `[0, size)`, and the great-circle distance
`distance_miles` of a route depends only on the pair of airports that the route joins. -/
def AirportDatabase.RoutesValid (db : AirportDatabase) : Prop :=
  (∀ route ∈ db.routes,
    0 ≤ db.index route.code_one ∧ db.index route.code_one < db.size ∧
    0 ≤ db.index route.code_two ∧ db.index route.code_two < db.size) ∧
  ∀ r1 ∈ db.routes, ∀ r2 ∈ db.routes, SamePair db r1 r2 →
    db.distance_miles r1.code_one r1.code_two = db.distance_miles r2.code_one r2.code_two

instance (db : AirportDatabase) : Decidable db.RoutesValid := by
  unfold AirportDatabase.RoutesValid; infer_instance

/-- The adjacency lists `g` hold exactly the routes `routes` of the database: every entry comes
from a route and carries its distance, every route has its entry, entries come in both
directions, and no list names a neighbour twice. -/
structure RoutesGraph (db : AirportDatabase) (routes : List FlightRoute)
    (g : AdjacencyListGraph) : Prop where
  count : g.vertex_count = db.size
  sound : ∀ u v w, (v, w) ∈ g.adjacency.getD u [] → u < db.size ∧ v < db.size ∧
    ∃ route ∈ routes,
      ((db.index route.code_one = u ∧ db.index route.code_two = v) ∨
        (db.index route.code_one = v ∧ db.index route.code_two = u)) ∧
      w = db.distance_miles route.code_one route.code_two
  complete : ∀ route ∈ routes, ∃ w,
    ((db.index route.code_two).toNat, w) ∈
      g.adjacency.getD (db.index route.code_one).toNat []
  symm : ∀ u v w, (v, w) ∈ g.adjacency.getD u [] → (u, w) ∈ g.adjacency.getD v []
  nodup : ∀ u, ((g.adjacency.getD u []).map Prod.fst).Nodup

/-- The sum of the edge weights of an undirected graph with every edge counted once: the weight
of the edge between `u` and `v` is counted at its endpoint `u ≤ v` only. -/
def undirected_total_weight (g : Graph) : Int :=
  ((List.range g.vertex_count).map
    (fun u => (((g.out_edges u).filter (fun v => decide (u ≤ v))).map (g.edge_weight u)).sum)).sum

/-- The undirected line `0 - 1 - 2` with the weights `INT_MAX` and 0. -/
def level_graph : Graph where
  vertex_count := 3
  out_edges := fun u => match u with
    | 0 => [1]
    | 1 => [0, 2]
    | 2 => [1]
    | _ => []
  edge_weight := fun u v => match u, v with
    | 0, 1 => 2147483647
    | 1, 0 => 2147483647
    | _, _ => 0

/-! ## Vector access -/

theorem getD_set_eq_ite {α : Type} (l : List α) (i j : Nat) (a d : α) :
    (l.set j a).getD i d = if j = i ∧ j < l.length then a else l.getD i d := by
  simp only [List.getD_eq_getElem?_getD, List.getElem?_set]
  by_cases h : j = i
  · subst h
    by_cases h2 : j < l.length
    · simp [h2]
    · simp [h2, List.getElem?_eq_none (Nat.le_of_not_lt h2)]
  · simp [h]

theorem getD_eq_of_getElem? {α : Type} (l : List α) (i : Nat) (a d : α) (h : l[i]? = some a) :
    l.getD i d = a := by
  simp [List.getD_eq_getElem?_getD, h]

theorem getElem?_eq_some_getD {α : Type} (l : List α) (i : Nat) (d : α) (h : i < l.length) :
    l[i]? = some (l.getD i d) := by
  simp [List.getD_eq_getElem?_getD, List.getElem?_eq_getElem h]

/-! ## Bounded-hop reachability -/

theorem mark_all_length (seen : List Bool) (vs : List Nat) :
    (mark_all seen vs).length = seen.length := by
  induction vs generalizing seen with
  | nil => rfl
  | cons v vs ih => simp [mark_all, List.foldl_cons] at ih ⊢; rw [ih]; simp

theorem mark_all_getD (seen : List Bool) (vs : List Nat) (i : Nat) (hi : i < seen.length) :
    (mark_all seen vs).getD i false = true ↔ seen.getD i false = true ∨ i ∈ vs := by
  induction vs generalizing seen with
  | nil => simp [mark_all]
  | cons v vs ih =>
    have h := ih (seen.set v true) (by simpa using hi)
    simp only [mark_all, List.foldl_cons] at h ⊢
    rw [h, getD_set_eq_ite]
    by_cases hv : v = i
    · subst hv; simp [hi]
    · have hv2 : ¬ i = v := fun e => hv e.symm
      simp [hv, hv2]

theorem mark_neighbour_length (g : Graph) (seen : List Bool) (i : Nat) :
    (mark_neighbour g seen i).length = seen.length := by
  simp [mark_neighbour, mark_all_length]

theorem mark_neighbour_getD (g : Graph) (seen : List Bool) (j i : Nat) (hi : i < seen.length) :
    (mark_neighbour g seen j).getD i false = true ↔
      seen.getD i false = true ∨ i = j ∨ i ∈ g.out_edges j := by
  unfold mark_neighbour
  rw [mark_all_getD _ _ _ (by simpa using hi), getD_set_eq_ite]
  by_cases hv : j = i
  · subst hv; simp [hi]
  · have hv2 : ¬ i = j := fun e => hv e.symm
    simp [hv, hv2]

theorem foldl_mark_neighbour_length (g : Graph) (seen : List Bool) (vs : List Nat) :
    (vs.foldl (mark_neighbour g) seen).length = seen.length := by
  induction vs generalizing seen with
  | nil => rfl
  | cons v vs ih => simp only [List.foldl_cons]; rw [ih, mark_neighbour_length]

theorem foldl_mark_neighbour_getD (g : Graph) (seen : List Bool) (vs : List Nat) (i : Nat)
    (hi : i < seen.length) :
    (vs.foldl (mark_neighbour g) seen).getD i false = true ↔
      seen.getD i false = true ∨ ∃ j ∈ vs, i = j ∨ i ∈ g.out_edges j := by
  induction vs generalizing seen with
  | nil => simp
  | cons v vs ih =>
    simp only [List.foldl_cons]
    rw [ih _ (by rw [mark_neighbour_length]; exact hi), mark_neighbour_getD g seen v i hi]
    simp only [List.mem_cons, exists_eq_or_imp, or_assoc]

theorem range_check_of_valid (g : Graph) (start : Nat) (hs : start < g.vertex_count) :
    ¬ ((start : Int) ≥ g.vertex_count ∨ (start : Int) < 0) := by
  omega

theorem distance_at_most_two_eq (g : Graph) (start : Nat) (hs : start < g.vertex_count) :
    distance_at_most_two g start = .ok ((g.out_edges start).foldl (mark_neighbour g)
      ((List.replicate g.vertex_count false).set start true)) := by
  unfold distance_at_most_two
  rw [if_neg (range_check_of_valid g start hs)]
  simp

/-- A vertex is within two out-edges of `start` exactly when a path of at most two edges leads
to it. -/
theorem two_hops_iff_short_path (g : Graph) (start i : Nat) :
    (i = start ∨ i ∈ g.out_edges start ∨ ∃ j ∈ g.out_edges start, i ∈ g.out_edges j) ↔
      ∃ p, IsPath g start i p ∧ p.length ≤ 2 := by
  constructor
  · rintro (h | h | ⟨j, hj, hij⟩)
    · exact ⟨[], ⟨rfl, h.symm⟩, by simp⟩
    · exact ⟨[i], ⟨by simp [is_path_from, h], rfl⟩, by simp⟩
    · exact ⟨[j, i], ⟨by simp [is_path_from, hj, hij], rfl⟩, by simp⟩
  · rintro ⟨p, ⟨hp, he⟩, hl⟩
    match p, hp, he, hl with
    | [], _, he, _ => exact Or.inl he.symm
    | [a], hp, he, _ =>
      simp [is_path_from] at hp
      simp [path_end] at he
      subst he
      exact Or.inr (Or.inl hp)
    | [a, b], hp, he, _ =>
      simp [is_path_from] at hp
      simp [path_end] at he
      subst he
      exact Or.inr (Or.inr ⟨a, hp.1, hp.2⟩)
    | _ :: _ :: _ :: _, _, _, hl => simp at hl


/-! ## Selection of the next current vertex -/

theorem foldl_range_invariant {β : Type} (f : β → Nat → β) (P : Nat → β → Prop) (n : Nat)
    (b0 : β) (h0 : P 0 b0) (hstep : ∀ k b, k < n → P k b → P (k + 1) (f b k)) :
    P n ((List.range n).foldl f b0) := by
  induction n with
  | zero => simpa using h0
  | succ n ih =>
    rw [List.range_succ, List.foldl_append]
    simp only [List.foldl_cons, List.foldl_nil]
    exact hstep n _ (Nat.lt_succ_self n)
      (ih (fun k b hk hp => hstep k b (Nat.lt_succ_of_lt hk) hp))

theorem is_candidate_iff (visited : List Bool) (distance : List Int) (v : Nat) :
    is_candidate visited distance v = true ↔
      visited.getD v false = false ∧ distance.getD v INT_MAX < INT_MAX := by
  simp [is_candidate]

/-- When no unvisited vertex has a finite distance the function returns false and leaves
`next_current` as it was. -/
theorem next_current_false (visited : List Bool) (distance : List Int) (next_current : Nat)
    (hlen : visited.length = distance.length)
    (hnone : ∀ v, v < visited.length → is_candidate visited distance v = false) :
    next_current_for_shortest_path visited distance next_current = .ok (false, next_current) := by
  have hfind : (List.range visited.length).find? (is_candidate visited distance) = none := by
    rw [List.find?_eq_none]
    intro x hx
    rw [hnone x (List.mem_range.mp hx)]
    simp
  unfold next_current_for_shortest_path
  rw [if_neg (not_not.mpr hlen)]
  simp only [hfind, if_true]

/-- When some unvisited vertex has a finite distance the function returns true and sets
`next_current` to an unvisited vertex of minimum distance, the one of smallest index. -/
theorem next_current_true (visited : List Bool) (distance : List Int) (next_current : Nat)
    (hlen : visited.length = distance.length)
    (hsome : ∃ v, v < visited.length ∧ is_candidate visited distance v = true) :
    ∃ c, next_current_for_shortest_path visited distance next_current = .ok (true, c) ∧
      c < visited.length ∧ visited.getD c false = false ∧ distance.getD c INT_MAX < INT_MAX ∧
      (∀ v, v < visited.length → visited.getD v false = false →
        distance.getD c INT_MAX ≤ distance.getD v INT_MAX) ∧
      (∀ v, v < c → visited.getD v false = false →
        distance.getD c INT_MAX < distance.getD v INT_MAX) := by
  obtain ⟨w, hw, hcw⟩ := hsome
  -- the first scan finds a candidate
  have hfind : ∃ v0, (List.range visited.length).find? (is_candidate visited distance) = some v0 := by
    cases h : (List.range visited.length).find? (is_candidate visited distance) with
    | some v0 => exact ⟨v0, rfl⟩
    | none =>
      rw [List.find?_eq_none] at h
      exact absurd hcw (h w (List.mem_range.mpr hw))
  obtain ⟨v0, hv0⟩ := hfind
  obtain ⟨hc0, hm0, hbefore⟩ := List.find?_range_eq_some.mp hv0
  have hv0n : v0 < visited.length := List.mem_range.mp hm0
  obtain ⟨hu0, hd0⟩ := (is_candidate_iff visited distance v0).mp hc0
  -- invariant of the second scan
  have hinv := foldl_range_invariant (improve visited distance)
    (fun k (b : Nat × Int) => b.2 = distance.getD b.1 INT_MAX ∧ b.1 < visited.length ∧
      visited.getD b.1 false = false ∧ b.2 < INT_MAX ∧
      (∀ v, v < k → visited.getD v false = false → b.2 ≤ distance.getD v INT_MAX) ∧
      (∀ v, v < b.1 → visited.getD v false = false → b.2 < distance.getD v INT_MAX))
    visited.length (v0, distance.getD v0 INT_MAX)
    ⟨rfl, hv0n, hu0, hd0, fun v hv => absurd hv (Nat.not_lt_zero v), by
      intro v hv huv
      have hnc := hbefore v hv
      simp only [Bool.not_eq_true', is_candidate, Bool.and_eq_false_iff, Bool.not_eq_false',
        decide_eq_false_iff_not] at hnc
      rcases hnc with hnc | hnc
      · rw [huv] at hnc; exact absurd hnc (by simp)
      · exact lt_of_lt_of_le hd0 (not_lt.mp hnc)⟩
    (by
      rintro k ⟨b, d⟩ hk ⟨h1, h2, h3, h4, h5, h6⟩
      simp only at h1 h2 h3 h4 h5 h6
      unfold improve
      by_cases hc : visited.getD k false = false ∧ distance.getD k INT_MAX < d
      · have hif : (!(visited.getD k false) && decide (distance.getD k INT_MAX < d)) = true := by
          rw [hc.1, decide_eq_true hc.2]; rfl
        simp only [hif, if_true]
        refine ⟨trivial, hk, hc.1, lt_trans hc.2 h4, ?_, ?_⟩
        · intro v hv huv
          rcases Nat.lt_succ_iff_lt_or_eq.mp hv with hlt | heq
          · exact le_trans (le_of_lt hc.2) (h5 v hlt huv)
          · rw [heq]
        · intro v hv huv
          exact lt_of_lt_of_le hc.2 (h5 v hv huv)
      · have hif : (!(visited.getD k false) && decide (distance.getD k INT_MAX < d)) = false := by
          by_cases hvk : visited.getD k false = false
          · have : ¬ distance.getD k INT_MAX < d := fun h => hc ⟨hvk, h⟩
            rw [hvk, decide_eq_false this]; rfl
          · rw [Bool.not_eq_false] at hvk
            rw [hvk]; rfl
        simp only [hif]
        refine ⟨h1, h2, h3, h4, ?_, h6⟩
        intro v hv huv
        rcases Nat.lt_succ_iff_lt_or_eq.mp hv with hlt | heq
        · exact h5 v hlt huv
        · subst heq
          exact not_lt.mp (fun h => hc ⟨huv, h⟩))
  obtain ⟨h1, h2, h3, h4, h5, h6⟩ := hinv
  refine ⟨((List.range visited.length).foldl (improve visited distance)
    (v0, distance.getD v0 INT_MAX)).1, ?_, h2, h3, ?_, ?_, ?_⟩
  · unfold next_current_for_shortest_path
    rw [if_neg (not_not.mpr hlen)]
    simp only [hv0]
    rw [if_neg (ne_of_lt hd0)]
  · rw [← h1]; exact h4
  · rw [← h1]; exact h5
  · rw [← h1]; exact h6

/-! ## The main loop of `shortest_path` -/

theorem relax_edge_length (g : Graph) (c : Nat) (shortest : List Int) (v : Nat) :
    (relax_edge g c shortest v).length = shortest.length := by
  unfold relax_edge
  dsimp only
  split <;> simp

theorem foldl_relax_edge_length (g : Graph) (c : Nat) (vs : List Nat) (shortest : List Int) :
    (vs.foldl (relax_edge g c) shortest).length = shortest.length := by
  induction vs generalizing shortest with
  | nil => rfl
  | cons v vs ih => simp only [List.foldl_cons]; rw [ih, relax_edge_length]

theorem relax_out_edges_length (g : Graph) (c : Nat) (shortest : List Int) :
    (relax_out_edges g c shortest).length = shortest.length :=
  foldl_relax_edge_length g c _ shortest

theorem count_false_set_true (l : List Bool) (c : Nat) (hc : c < l.length)
    (hu : l.getD c false = false) : (l.set c true).count false + 1 = l.count false := by
  induction l generalizing c with
  | nil => simp at hc
  | cons a l ih =>
    cases c with
    | zero =>
      have ha : a = false := by simpa using hu
      subst ha
      simp
    | succ c =>
      have hc2 : c < l.length := by simpa using hc
      have hu2 : l.getD c false = false := by simpa using hu
      have h := ih c hc2 hu2
      cases a <;> simp [List.count_cons] <;> omega

/-- The rule for the `while` loop: an invariant of the visited and distance vectors that every
iteration preserves holds of the result, together with the exit condition; given a budget larger
than the number of unvisited vertices the loop returns. -/
theorem shortest_path_loop_rule (g : Graph) (Inv : List Bool → List Int → Prop)
    (hlen : ∀ seen shortest, Inv seen shortest → seen.length = shortest.length)
    (hstep : ∀ seen shortest c, Inv seen shortest → c < seen.length →
      seen.getD c false = false → shortest.getD c INT_MAX < INT_MAX →
      (∀ v, v < seen.length → seen.getD v false = false →
        shortest.getD c INT_MAX ≤ shortest.getD v INT_MAX) →
      Inv (seen.set c true) (relax_out_edges g c shortest)) :
    ∀ (fuel : Nat) (seen : List Bool) (shortest : List Int) (current : Nat),
      Inv seen shortest → seen.count false < fuel →
      ∃ seen2 r, shortest_path_loop g fuel seen shortest current = .ok r ∧ Inv seen2 r ∧
        ∀ v, v < seen2.length → is_candidate seen2 r v = false := by
  intro fuel
  induction fuel with
  | zero => intro seen shortest current _ h; exact absurd h (Nat.not_lt_zero _)
  | succ fuel ih =>
    intro seen shortest current hinv hfuel
    have hl := hlen seen shortest hinv
    by_cases hex : ∃ v, v < seen.length ∧ is_candidate seen shortest v = true
    · obtain ⟨c, hnc, hc, hu, hd, hmin, _⟩ := next_current_true seen shortest current hl hex
      have hcount := count_false_set_true seen c hc hu
      obtain ⟨seen2, r, hr, hinv2, hexit⟩ := ih (seen.set c true) (relax_out_edges g c shortest) c
        (hstep seen shortest c hinv hc hu hd hmin) (by omega)
      refine ⟨seen2, r, ?_, hinv2, hexit⟩
      simp only [shortest_path_loop, hnc]
      exact hr
    · have hnone : ∀ v, v < seen.length → is_candidate seen shortest v = false := by
        intro v hv
        by_contra hcv
        exact hex ⟨v, hv, by simpa using hcv⟩
      refine ⟨seen, shortest, ?_, hinv, hnone⟩
      simp only [shortest_path_loop, next_current_false seen shortest current hl hnone]

theorem shortest_path_eq_loop (g : Graph) (start : Nat) (hs : start < g.vertex_count) :
    shortest_path g start = shortest_path_loop g (g.vertex_count + 1)
      (List.replicate g.vertex_count false)
      ((List.replicate g.vertex_count INT_MAX).set start 0) start := by
  unfold shortest_path
  rw [if_neg (range_check_of_valid g start hs)]
  simp

/-- The rule for `shortest_path`: an invariant that holds of the initial vectors and is
preserved by every iteration holds of the returned vector. -/
theorem shortest_path_rule (g : Graph) (start : Nat) (hs : start < g.vertex_count)
    (Inv : List Bool → List Int → Prop)
    (hlen : ∀ seen shortest, Inv seen shortest → seen.length = shortest.length)
    (hinit : Inv (List.replicate g.vertex_count false)
      ((List.replicate g.vertex_count INT_MAX).set start 0))
    (hstep : ∀ seen shortest c, Inv seen shortest → c < seen.length →
      seen.getD c false = false → shortest.getD c INT_MAX < INT_MAX →
      (∀ v, v < seen.length → seen.getD v false = false →
        shortest.getD c INT_MAX ≤ shortest.getD v INT_MAX) →
      Inv (seen.set c true) (relax_out_edges g c shortest)) :
    ∃ seen r, shortest_path g start = .ok r ∧ Inv seen r ∧
      ∀ v, v < seen.length → is_candidate seen r v = false := by
  rw [shortest_path_eq_loop g start hs]
  exact shortest_path_loop_rule g Inv hlen hstep _ _ _ _ hinit (by simp)

/-- The loop of `shortest_path` returns within `vertex_count + 1` evaluations of its condition
and the result has one entry per vertex. -/
theorem shortest_path_returns (g : Graph) (start : Nat) (hs : start < g.vertex_count) :
    ∃ r, shortest_path g start = .ok r ∧ r.length = g.vertex_count := by
  obtain ⟨seen, r, hr, ⟨h1, h2⟩, _⟩ := shortest_path_rule g start hs
    (fun seen shortest => seen.length = g.vertex_count ∧ shortest.length = g.vertex_count)
    (fun seen shortest h => h.1.trans h.2.symm)
    (by simp)
    (fun seen shortest c h _ _ _ _ => by
      refine ⟨by simpa using h.1, ?_⟩
      rw [relax_out_edges_length]; exact h.2)
  exact ⟨r, hr, h2⟩

/-! ## The logged functions compute the same results -/

theorem foldl_mark_neighbour_traced_fst (g : Graph) (vs : List Nat)
    (state : List Bool × List Query) :
    (vs.foldl (mark_neighbour_traced g) state).1 = vs.foldl (mark_neighbour g) state.1 := by
  induction vs generalizing state with
  | nil => rfl
  | cons v vs ih => simp only [List.foldl_cons]; rw [ih]; rfl

theorem distance_at_most_two_traced_fst (g : Graph) (start : Int) :
    (distance_at_most_two_traced g start).1 = distance_at_most_two g start := by
  unfold distance_at_most_two_traced distance_at_most_two
  split
  · rfl
  · simp only [foldl_mark_neighbour_traced_fst]

theorem foldl_relax_edge_traced_fst (g : Graph) (c : Nat) (vs : List Nat)
    (state : List Int × List Query) :
    (vs.foldl (relax_edge_traced g c) state).1 = vs.foldl (relax_edge g c) state.1 := by
  induction vs generalizing state with
  | nil => rfl
  | cons v vs ih => simp only [List.foldl_cons]; rw [ih]; rfl

theorem relax_out_edges_traced_fst (g : Graph) (c : Nat) (state : List Int × List Query) :
    (relax_out_edges_traced g c state).1 = relax_out_edges g c state.1 := by
  unfold relax_out_edges_traced relax_out_edges
  rw [foldl_relax_edge_traced_fst]

theorem shortest_path_loop_traced_fst (g : Graph) (fuel : Nat) (seen : List Bool)
    (shortest : List Int) (current : Nat) (log : List Query) :
    (shortest_path_loop_traced g fuel seen shortest current log).1 =
      shortest_path_loop g fuel seen shortest current := by
  induction fuel generalizing seen shortest current log with
  | zero => rfl
  | succ fuel ih =>
    simp only [shortest_path_loop_traced, shortest_path_loop]
    cases next_current_for_shortest_path seen shortest current with
    | error e => rfl
    | ok res =>
      obtain ⟨b, c⟩ := res
      cases b with
      | false => rfl
      | true =>
        simp only
        rw [ih, relax_out_edges_traced_fst]

theorem shortest_path_traced_fst (g : Graph) (start : Int) :
    (shortest_path_traced g start).1 = shortest_path g start := by
  unfold shortest_path_traced shortest_path
  split
  · rfl
  · simp only [shortest_path_loop_traced_fst]

/-! ## Machine addition -/

theorem add_int_eq (a b : Int) (h1 : INT_MIN ≤ a + b) (h2 : a + b ≤ INT_MAX) :
    add_int a b = a + b := by
  unfold add_int wrap_int
  unfold INT_MIN at h1
  unfold INT_MAX at h2
  omega

theorem add_int_range (a b : Int) : INT_MIN ≤ add_int a b ∧ add_int a b ≤ INT_MAX := by
  unfold add_int wrap_int INT_MIN INT_MAX
  omega

/-! ## Paths -/

theorem is_path_from_snoc (g : Graph) (s : Nat) (p : List Nat) (a : Nat) :
    is_path_from g s (p ++ [a]) =
      (is_path_from g s p && decide (a ∈ g.out_edges (path_end s p))) := by
  induction p generalizing s with
  | nil => simp [is_path_from, path_end]
  | cons b p ih => simp [is_path_from, path_end, ih, Bool.and_assoc]

theorem path_end_snoc (s : Nat) (p : List Nat) (a : Nat) : path_end s (p ++ [a]) = a := by
  induction p generalizing s with
  | nil => rfl
  | cons b p ih => simp [path_end, ih]

theorem path_weight_snoc (g : Graph) (s : Nat) (p : List Nat) (a : Nat) :
    path_weight g s (p ++ [a]) = path_weight g s p + g.edge_weight (path_end s p) a := by
  induction p generalizing s with
  | nil => simp [path_weight, path_end]
  | cons b p ih => simp [path_weight, path_end, ih, add_assoc]

theorem isPath_nil (g : Graph) (s : Nat) : IsPath g s s [] := ⟨rfl, rfl⟩

theorem isPath_snoc (g : Graph) (s u v : Nat) (p : List Nat) (hp : IsPath g s u p)
    (hv : v ∈ g.out_edges u) : IsPath g s v (p ++ [v]) := by
  refine ⟨?_, path_end_snoc s p v⟩
  rw [is_path_from_snoc, hp.1, hp.2]
  simpa using hv

theorem isPath_snoc_iff (g : Graph) (s v : Nat) (p : List Nat) (a : Nat) :
    IsPath g s v (p ++ [a]) ↔
      IsPath g s (path_end s p) p ∧ a ∈ g.out_edges (path_end s p) ∧ v = a := by
  unfold IsPath
  rw [is_path_from_snoc, path_end_snoc]
  simp only [Bool.and_eq_true, decide_eq_true_eq, and_true]
  constructor
  · rintro ⟨⟨h1, h2⟩, h3⟩; exact ⟨h1, h2, h3.symm⟩
  · rintro ⟨h1, h2, h3⟩; exact ⟨⟨h1, h2⟩, h3.symm⟩

/-- Every vertex on a path from a valid vertex of a well-formed graph is valid. -/
theorem isPath_valid (g : Graph) (hwf : g.WellFormed) (s : Nat) (hs : s < g.vertex_count) :
    ∀ (p : List Nat) (v : Nat), IsPath g s v p → v < g.vertex_count := by
  intro p
  induction p using List.reverseRecOn with
  | nil => intro v hp; rw [← hp.2]; exact hs
  | append_singleton p a ih =>
    intro v hp
    obtain ⟨h1, h2, h3⟩ := (isPath_snoc_iff g s v p a).mp hp
    rw [h3]
    exact (hwf _ (ih _ h1) a h2).1

/-- A function that is at most 0 at the start vertex and grows along every edge by at most the
weight of the edge is a lower bound of the weight of every path. -/
theorem path_weight_lower_bound (g : Graph) (hwf : g.WellFormed) (s : Nat)
    (hs : s < g.vertex_count) (L : Nat → Int) (h0 : L s ≤ 0)
    (hedge : ∀ u, u < g.vertex_count → ∀ v ∈ g.out_edges u, L v ≤ L u + g.edge_weight u v) :
    ∀ (p : List Nat) (v : Nat), IsPath g s v p → L v ≤ path_weight g s p := by
  intro p
  induction p using List.reverseRecOn with
  | nil => intro v hp; rw [← hp.2]; simpa [path_weight, path_end] using h0
  | append_singleton p a ih =>
    intro v hp
    obtain ⟨h1, h2, h3⟩ := (isPath_snoc_iff g s v p a).mp hp
    rw [h3, path_weight_snoc]
    have hu := isPath_valid g hwf s hs p _ h1
    have := hedge _ hu a h2
    have := ih _ h1
    linarith

/-- In a well-formed graph with non-negative weights every path from a valid vertex has a
non-negative weight. -/
theorem path_weight_nonneg (g : Graph) (hwf : g.WellFormed) (hnn : g.NonNegative) (s : Nat)
    (hs : s < g.vertex_count) (p : List Nat) (v : Nat) (hp : IsPath g s v p) :
    0 ≤ path_weight g s p :=
  path_weight_lower_bound g hwf s hs (fun _ => 0) (le_refl 0)
    (fun u hu v hv => by simpa using hnn u hu v hv) p v hp

/-- Among the paths from `s` to a reachable vertex there is one of minimum weight. -/
theorem exists_min_path (g : Graph) (hwf : g.WellFormed) (hnn : g.NonNegative) (s : Nat)
    (hs : s < g.vertex_count) (v : Nat) (hr : Reachable g s v) :
    ∃ p, IsPath g s v p ∧ ∀ q, IsPath g s v q → path_weight g s p ≤ path_weight g s q := by
  classical
  obtain ⟨p0, hp0⟩ := hr
  have hex : ∃ n, ∃ p, IsPath g s v p ∧ (path_weight g s p).toNat = n := ⟨_, p0, hp0, rfl⟩
  obtain ⟨p, hp, hn⟩ := Nat.find_spec hex
  refine ⟨p, hp, fun q hq => ?_⟩
  have hle := Nat.find_min' hex ⟨q, hq, rfl⟩
  rw [← hn] at hle
  have h1 := path_weight_nonneg g hwf hnn s hs p v hp
  have h2 := path_weight_nonneg g hwf hnn s hs q v hq
  omega

theorem relaxationsFit_of_paths (g : Graph) (start : Nat) (bound : Int)
    (h : ∀ u, ∀ v ∈ g.out_edges u, Reachable g start u →
      ∃ q, IsPath g start u q ∧ path_weight g start q + g.edge_weight u v ≤ bound) :
    RelaxationsFit g start bound := by
  intro u p hp hmin v hv
  obtain ⟨q, hq, hb⟩ := h u v hv ⟨p, hp⟩
  have := hmin q hq
  linarith

/-- When relaxations fit below `bound`, every reachable vertex has a path of weight at most
`bound` (for a non-negative `bound`). -/
theorem exists_path_le_bound (g : Graph) (hwf : g.WellFormed) (hnn : g.NonNegative) (s : Nat)
    (hs : s < g.vertex_count) (bound : Int) (hb : 0 ≤ bound) (hfit : RelaxationsFit g s bound) :
    ∀ (p : List Nat) (v : Nat), IsPath g s v p →
      ∃ q, IsPath g s v q ∧ path_weight g s q ≤ bound := by
  intro p
  induction p using List.reverseRecOn with
  | nil => intro v hp; exact ⟨[], hp, by simpa [path_weight] using hb⟩
  | append_singleton p a ih =>
    intro v hp
    obtain ⟨h1, h2, h3⟩ := (isPath_snoc_iff g s v p a).mp hp
    obtain ⟨q, hq, hmin⟩ := exists_min_path g hwf hnn s hs _ ⟨p, h1⟩
    refine ⟨q ++ [a], ?_, ?_⟩
    · rw [h3]; exact isPath_snoc g s _ a q hq h2
    · rw [path_weight_snoc, hq.2]
      exact hfit _ q hq hmin a h2

/-! ## Relaxation of the out-edges of the current vertex -/

theorem relax_edge_getD (g : Graph) (c : Nat) (D : List Int) (v i : Nat) (hi : i < D.length) :
    (relax_edge g c D v).getD i INT_MAX =
      if v = i ∧ add_int (g.edge_weight c i) (D.getD c INT_MAX) < D.getD i INT_MAX then
        add_int (g.edge_weight c i) (D.getD c INT_MAX)
      else D.getD i INT_MAX := by
  unfold relax_edge
  dsimp only
  by_cases hv : v = i
  · subst hv
    by_cases hlt : add_int (g.edge_weight c v) (D.getD c INT_MAX) < D.getD v INT_MAX
    · simp only [hlt, if_true, and_self, getD_set_eq_ite, hi]
    · simp only [hlt, if_false, and_false]
  · simp only [hv, false_and, if_false]
    split
    · simp only [getD_set_eq_ite, hv, false_and, if_false]
    · rfl

theorem relax_edge_getD_current (g : Graph) (c : Nat) (D : List Int) (v : Nat)
    (hself : v = c →
      ¬ add_int (g.edge_weight c c) (D.getD c INT_MAX) < D.getD c INT_MAX) :
    (relax_edge g c D v).getD c INT_MAX = D.getD c INT_MAX := by
  unfold relax_edge
  dsimp only
  by_cases hv : v = c
  · subst hv
    simp only [hself rfl, if_false]
  · split
    · simp only [getD_set_eq_ite, hv, false_and, if_false]
    · rfl

/-- The effect of the relaxation loop on entry `i`, when relaxing an edge from the current vertex
to itself would not lower the distance of the current vertex: the entry becomes the relaxation sum
if `i` is an out-edge neighbour and the sum is smaller, and is unchanged otherwise. -/
theorem foldl_relax_edge_getD (g : Graph) (c : Nat) (vs : List Nat) (D : List Int)
    (hself : c ∈ vs →
      ¬ add_int (g.edge_weight c c) (D.getD c INT_MAX) < D.getD c INT_MAX)
    (i : Nat) (hi : i < D.length) :
    (vs.foldl (relax_edge g c) D).getD i INT_MAX =
      if i ∈ vs ∧ add_int (g.edge_weight c i) (D.getD c INT_MAX) < D.getD i INT_MAX then
        add_int (g.edge_weight c i) (D.getD c INT_MAX)
      else D.getD i INT_MAX := by
  induction vs generalizing D with
  | nil => simp
  | cons v vs ih =>
    have hcur : (relax_edge g c D v).getD c INT_MAX = D.getD c INT_MAX :=
      relax_edge_getD_current g c D v (fun h => hself (by simp [h]))
    have h := ih (relax_edge g c D v)
      (by rw [hcur]; intro hm; exact hself (List.mem_cons_of_mem _ hm))
      (by rw [relax_edge_length]; exact hi)
    simp only [List.foldl_cons]
    rw [h, hcur, relax_edge_getD g c D v i hi]
    by_cases hv : v = i
    · subst hv
      by_cases hlt : add_int (g.edge_weight c v) (D.getD c INT_MAX) < D.getD v INT_MAX
      · simp only [hlt, and_self, if_true, lt_irrefl, and_false, if_false, List.mem_cons,
          true_or]
      · simp only [hlt, and_false, if_false]
    · have hmem : i ∈ v :: vs ↔ i ∈ vs := by
        simp only [List.mem_cons]
        constructor
        · rintro (h | h)
          · exact absurd h.symm hv
          · exact h
        · exact Or.inr
      simp only [hv, false_and, if_false, hmem]

theorem relax_out_edges_getD (g : Graph) (c : Nat) (D : List Int)
    (hself : c ∈ g.out_edges c →
      ¬ add_int (g.edge_weight c c) (D.getD c INT_MAX) < D.getD c INT_MAX)
    (i : Nat) (hi : i < D.length) :
    (relax_out_edges g c D).getD i INT_MAX =
      if i ∈ g.out_edges c ∧
          add_int (g.edge_weight c i) (D.getD c INT_MAX) < D.getD i INT_MAX then
        add_int (g.edge_weight c i) (D.getD c INT_MAX)
      else D.getD i INT_MAX :=
  foldl_relax_edge_getD g c _ D hself i hi

theorem getD_set_true (seen : List Bool) (c i : Nat) (hi : i < seen.length) :
    (seen.set c true).getD i false = true ↔ seen.getD i false = true ∨ i = c := by
  rw [getD_set_eq_ite]
  by_cases h : c = i
  · subst h; simp [hi]
  · have h2 : ¬ i = c := fun e => h e.symm
    simp [h, h2]

theorem getD_set_true_eq_false (seen : List Bool) (c i : Nat) (hi : i < seen.length) :
    (seen.set c true).getD i false = false ↔ seen.getD i false = false ∧ i ≠ c := by
  have h := getD_set_true seen c i hi
  constructor
  · intro hf
    constructor
    · by_contra hne
      rw [Bool.not_eq_false] at hne
      rw [h.mpr (Or.inl hne)] at hf
      exact absurd hf (by simp)
    · intro e
      rw [h.mpr (Or.inr e)] at hf
      exact absurd hf (by simp)
  · rintro ⟨h1, h2⟩
    by_contra hne
    rw [Bool.not_eq_false] at hne
    rcases h.mp hne with h3 | h3
    · rw [h1] at h3; exact absurd h3 (by simp)
    · exact h2 h3

/-! ## Correctness of the main loop -/

/-- Under the loop invariant, a number `m` between the distances of the visited and of the
unvisited vertices bounds the weight of every path to an unvisited vertex from below, and the
distance of a visited vertex bounds the weight of every path to it. -/
theorem dijkstra_lower_bound (g : Graph) (hwf : g.WellFormed) (hnn : g.NonNegative)
    (start : Nat) (hs : start < g.vertex_count) (seen : List Bool) (D : List Int)
    (inv : DijkstraInv g start seen D) (m : Int)
    (hm1 : ∀ v, v < g.vertex_count → seen.getD v false = false → m ≤ D.getD v INT_MAX)
    (hm2 : ∀ u, u < g.vertex_count → seen.getD u false = true → D.getD u INT_MAX ≤ m)
    (hm3 : seen.getD start false = false → m ≤ 0)
    (p : List Nat) (v : Nat) (hp : IsPath g start v p) :
    (if seen.getD v false = true then D.getD v INT_MAX else m) ≤ path_weight g start p := by
  refine path_weight_lower_bound g hwf start hs
    (fun v => if seen.getD v false = true then D.getD v INT_MAX else m) ?_ ?_ p v hp
  · dsimp only
    by_cases h : seen.getD start false = true
    · rw [if_pos h, inv.start_zero]
    · rw [if_neg h]
      exact hm3 (by simpa using h)
  · intro u hu v hv
    dsimp only
    have hvn := (hwf u hu v hv).1
    have hw := hnn u hu v hv
    by_cases h1 : seen.getD u false = true
    · rw [if_pos h1]
      have hrel := inv.relaxed u hu h1 v hv
      by_cases h2 : seen.getD v false = true
      · rw [if_pos h2]; exact hrel
      · rw [if_neg h2]
        exact le_trans (hm1 v hvn (by simpa using h2)) hrel
    · rw [if_neg h1]
      by_cases h2 : seen.getD v false = true
      · rw [if_pos h2]
        have := hm2 v hvn h2
        linarith
      · rw [if_neg h2]
        linarith

/-- Under the invariant the distance of the vertex selected as current is the minimum path
weight to it, and therefore no relaxation sum over its out-edges leaves the `int` range. -/
theorem dijkstra_current_fits (g : Graph) (hwf : g.WellFormed) (hnn : g.NonNegative)
    (start : Nat) (hs : start < g.vertex_count) (hfit : RelaxationsFit g start INT_MAX)
    (seen : List Bool) (D : List Int) (c : Nat) (inv : DijkstraInv g start seen D)
    (hc : c < seen.length) (hu : seen.getD c false = false) (hd : D.getD c INT_MAX < INT_MAX)
    (hsel : ∀ v, v < seen.length → seen.getD v false = false →
      D.getD c INT_MAX ≤ D.getD v INT_MAX) :
    (∀ p, IsPath g start c p → D.getD c INT_MAX ≤ path_weight g start p) ∧
    ∀ v ∈ g.out_edges c, v < g.vertex_count ∧ 0 ≤ g.edge_weight c v ∧
      add_int (g.edge_weight c v) (D.getD c INT_MAX) = g.edge_weight c v + D.getD c INT_MAX ∧
      g.edge_weight c v + D.getD c INT_MAX ≤ INT_MAX := by
  have hsl := inv.seen_length
  have hcn : c < g.vertex_count := hsl ▸ hc
  have hs0 : 0 ≤ D.getD c INT_MAX := (inv.range c hcn).1
  have hmin : ∀ p, IsPath g start c p → D.getD c INT_MAX ≤ path_weight g start p := by
    intro p hp
    have h := dijkstra_lower_bound g hwf hnn start hs seen D inv (D.getD c INT_MAX)
      (fun v hv huv => hsel v (hsl ▸ hv) huv)
      (fun u hun hsu => inv.ordered u c hun hcn hsu hu)
      (fun hst => by
        have := hsel start (hsl ▸ hs) hst
        rwa [inv.start_zero] at this)
      p c hp
    rwa [if_neg (by rw [hu]; simp)] at h
  obtain ⟨pc, hpc, hwc⟩ := inv.realised c hcn hd
  refine ⟨hmin, ?_⟩
  intro v hv
  have hw := hnn c hcn v hv
  have hf := hfit c pc hpc (fun q hq => by rw [hwc]; exact hmin q hq) v hv
  rw [hwc] at hf
  have hf2 : g.edge_weight c v + D.getD c INT_MAX ≤ INT_MAX := by linarith
  refine ⟨(hwf c hcn v hv).1, hw, add_int_eq _ _ ?_ hf2, hf2⟩
  have : INT_MIN ≤ 0 := by decide
  linarith

/-- Under the invariant a relaxation of an edge from the current vertex to itself does not change
the distance of the current vertex. -/
theorem dijkstra_self_loop_idle (g : Graph) (hwf : g.WellFormed) (hnn : g.NonNegative)
    (start : Nat) (hs : start < g.vertex_count) (hfit : RelaxationsFit g start INT_MAX)
    (seen : List Bool) (D : List Int) (c : Nat) (inv : DijkstraInv g start seen D)
    (hc : c < seen.length) (hu : seen.getD c false = false) (hd : D.getD c INT_MAX < INT_MAX)
    (hsel : ∀ v, v < seen.length → seen.getD v false = false →
      D.getD c INT_MAX ≤ D.getD v INT_MAX) :
    c ∈ g.out_edges c →
      ¬ add_int (g.edge_weight c c) (D.getD c INT_MAX) < D.getD c INT_MAX := by
  intro hm
  obtain ⟨_, hw, hadd, _⟩ :=
    (dijkstra_current_fits g hwf hnn start hs hfit seen D c inv hc hu hd hsel).2 c hm
  rw [hadd]
  linarith

/-- One iteration of the main loop preserves the invariant. -/
theorem dijkstra_step (g : Graph) (hwf : g.WellFormed) (hnn : g.NonNegative)
    (start : Nat) (hs : start < g.vertex_count) (hfit : RelaxationsFit g start INT_MAX)
    (seen : List Bool) (D : List Int) (c : Nat) (inv : DijkstraInv g start seen D)
    (hc : c < seen.length) (hu : seen.getD c false = false) (hd : D.getD c INT_MAX < INT_MAX)
    (hsel : ∀ v, v < seen.length → seen.getD v false = false →
      D.getD c INT_MAX ≤ D.getD v INT_MAX) :
    DijkstraInv g start (seen.set c true) (relax_out_edges g c D) := by
  have hsl := inv.seen_length
  have hdl := inv.dist_length
  have hcn : c < g.vertex_count := hsl ▸ hc
  have hs0 : 0 ≤ D.getD c INT_MAX := (inv.range c hcn).1
  obtain ⟨hmin, hedge⟩ :=
    dijkstra_current_fits g hwf hnn start hs hfit seen D c inv hc hu hd hsel
  obtain ⟨pc, hpc, hwc⟩ := inv.realised c hcn hd
  have hself : c ∈ g.out_edges c →
      ¬ add_int (g.edge_weight c c) (D.getD c INT_MAX) < D.getD c INT_MAX := by
    intro hm
    obtain ⟨_, hw, hadd, _⟩ := hedge c hm
    rw [hadd]
    linarith
  -- the new distances
  have hnew : ∀ i, i < g.vertex_count →
      (relax_out_edges g c D).getD i INT_MAX = D.getD i INT_MAX ∨
      (i ∈ g.out_edges c ∧
        (relax_out_edges g c D).getD i INT_MAX = g.edge_weight c i + D.getD c INT_MAX ∧
        g.edge_weight c i + D.getD c INT_MAX < D.getD i INT_MAX) := by
    intro i hi
    rw [relax_out_edges_getD g c D hself i (hdl ▸ hi)]
    by_cases hcond : i ∈ g.out_edges c ∧
        add_int (g.edge_weight c i) (D.getD c INT_MAX) < D.getD i INT_MAX
    · rw [if_pos hcond]
      obtain ⟨_, _, hadd, _⟩ := hedge i hcond.1
      right
      refine ⟨hcond.1, hadd, ?_⟩
      rw [← hadd]; exact hcond.2
    · rw [if_neg hcond]
      exact Or.inl rfl
  have hrelax : ∀ v ∈ g.out_edges c,
      (relax_out_edges g c D).getD v INT_MAX ≤ D.getD c INT_MAX + g.edge_weight c v := by
    intro v hv
    obtain ⟨hvn, _, hadd, _⟩ := hedge v hv
    rw [relax_out_edges_getD g c D hself v (hdl ▸ hvn)]
    by_cases hcond : v ∈ g.out_edges c ∧
        add_int (g.edge_weight c v) (D.getD c INT_MAX) < D.getD v INT_MAX
    · rw [if_pos hcond, hadd]; linarith
    · rw [if_neg hcond]
      have : ¬ add_int (g.edge_weight c v) (D.getD c INT_MAX) < D.getD v INT_MAX :=
        fun h => hcond ⟨hv, h⟩
      rw [hadd] at this
      linarith
  have hle : ∀ i, i < g.vertex_count →
      (relax_out_edges g c D).getD i INT_MAX ≤ D.getD i INT_MAX := by
    intro i hi
    rcases hnew i hi with h | ⟨_, h1, h2⟩
    · rw [h]
    · rw [h1]; exact le_of_lt h2
  have hge : ∀ i, i < g.vertex_count → D.getD c INT_MAX ≤ D.getD i INT_MAX →
      D.getD c INT_MAX ≤ (relax_out_edges g c D).getD i INT_MAX := by
    intro i hi hci
    rcases hnew i hi with h | ⟨hm, h1, _⟩
    · rw [h]; exact hci
    · rw [h1]
      have := (hedge i hm).2.1
      linarith
  have hkeep : ∀ i, i < g.vertex_count → D.getD i INT_MAX ≤ D.getD c INT_MAX →
      (relax_out_edges g c D).getD i INT_MAX = D.getD i INT_MAX := by
    intro i hi hic
    rcases hnew i hi with h | ⟨hm, _, h2⟩
    · exact h
    · have := (hedge i hm).2.1
      linarith
  have hseen : ∀ i, i < g.vertex_count →
      ((seen.set c true).getD i false = true ↔ seen.getD i false = true ∨ i = c) :=
    fun i hi => getD_set_true seen c i (hsl ▸ hi)
  have hunseen : ∀ i, i < g.vertex_count →
      ((seen.set c true).getD i false = false ↔ seen.getD i false = false ∧ i ≠ c) :=
    fun i hi => getD_set_true_eq_false seen c i (hsl ▸ hi)
  refine ⟨by simpa using hsl, by rw [relax_out_edges_length]; exact hdl, ?_, ?_, ?_, ?_, ?_, ?_⟩
  · -- range
    intro v hv
    rcases hnew v hv with h | ⟨hm, h1, _⟩
    · rw [h]; exact inv.range v hv
    · rw [h1]
      obtain ⟨_, hw, _, hf⟩ := hedge v hm
      exact ⟨by linarith, hf⟩
  · -- start_zero
    have h1 := hle start hs
    have h2 := hkeep start hs (by rw [inv.start_zero]; exact hs0)
    rw [h2, inv.start_zero]
  · -- realised
    intro v hv hfin
    rcases hnew v hv with h | ⟨hm, h1, _⟩
    · rw [h] at hfin ⊢; exact inv.realised v hv hfin
    · refine ⟨pc ++ [v], isPath_snoc g start c v pc hpc hm, ?_⟩
      rw [path_weight_snoc, hpc.2, hwc, h1]; ring
  · -- settled
    intro u hun hsu
    rcases (hseen u hun).mp hsu with h | h
    · have hk := hkeep u hun (inv.ordered u c hun hcn h hu)
      rw [hk]
      exact inv.settled u hun h
    · subst h
      rw [hkeep u hun (le_refl _)]
      exact ⟨hd, hmin⟩
  · -- relaxed
    intro u hun hsu v hv
    rcases (hseen u hun).mp hsu with h | h
    · rw [hkeep u hun (inv.ordered u c hun hcn h hu)]
      exact le_trans (hle v (hwf u hun v hv).1) (inv.relaxed u hun h v hv)
    · subst h
      rw [hkeep u hun (le_refl _)]
      exact hrelax v hv
  · -- ordered
    intro u v hun hvn hsu huv
    obtain ⟨huv1, hvc⟩ := (hunseen v hvn).mp huv
    have hcv : D.getD c INT_MAX ≤ D.getD v INT_MAX := hsel v (hsl ▸ hvn) huv1
    rcases (hseen u hun).mp hsu with h | h
    · have huc := inv.ordered u c hun hcn h hu
      rw [hkeep u hun huc]
      exact le_trans huc (hge v hvn hcv)
    · subst h
      rw [hkeep u hun (le_refl _)]
      exact hge v hvn hcv

/-- The invariant holds when the loop is entered. -/
theorem dijkstra_init (g : Graph) (start : Nat) (hs : start < g.vertex_count) :
    DijkstraInv g start (List.replicate g.vertex_count false)
      ((List.replicate g.vertex_count INT_MAX).set start 0) := by
  have hseen : ∀ u, (List.replicate g.vertex_count false).getD u false = false := by
    intro u
    simp only [List.getD_eq_getElem?_getD, List.getElem?_replicate]
    split <;> rfl
  have hD : ∀ v, ((List.replicate g.vertex_count INT_MAX).set start 0).getD v INT_MAX =
      if start = v then 0 else INT_MAX := by
    intro v
    rw [getD_set_eq_ite]
    by_cases h : start = v
    · subst h
      rw [if_pos ⟨rfl, by simpa using hs⟩, if_pos rfl]
    · simp only [h, false_and, if_false, List.getD_eq_getElem?_getD, List.getElem?_replicate]
      split <;> rfl
  refine ⟨by simp, by simp, ?_, ?_, ?_, ?_, ?_, ?_⟩
  · intro v _
    rw [hD]
    split
    · exact ⟨le_refl _, by decide⟩
    · exact ⟨by decide, le_refl _⟩
  · rw [hD, if_pos rfl]
  · intro v _ hfin
    rw [hD] at hfin ⊢
    by_cases h : start = v
    · rw [if_pos h]
      exact ⟨[], ⟨rfl, h⟩, rfl⟩
    · rw [if_neg h] at hfin
      exact absurd hfin (lt_irrefl _)
  · intro u _ hsu
    rw [hseen u] at hsu
    exact absurd hsu (by simp)
  · intro u _ hsu
    rw [hseen u] at hsu
    exact absurd hsu (by simp)
  · intro u v _ _ hsu
    rw [hseen u] at hsu
    exact absurd hsu (by simp)

/-- The result of `shortest_path` on a graph with non-negative weights whose relaxations fit:
every entry is a lower bound of the weights of the paths to its vertex, a finite entry is the
weight of a path, and the entry of the start vertex is 0. -/
theorem shortest_path_final (g : Graph) (hwf : g.WellFormed) (hnn : g.NonNegative)
    (start : Nat) (hs : start < g.vertex_count) (hfit : RelaxationsFit g start INT_MAX) :
    ∃ r, shortest_path g start = .ok r ∧ r.length = g.vertex_count ∧
      r.getD start INT_MAX = 0 ∧
      ∀ v, v < g.vertex_count →
        (0 ≤ r.getD v INT_MAX ∧ r.getD v INT_MAX ≤ INT_MAX) ∧
        (∀ p, IsPath g start v p → r.getD v INT_MAX ≤ path_weight g start p) ∧
        (r.getD v INT_MAX < INT_MAX →
          ∃ p, IsPath g start v p ∧ path_weight g start p = r.getD v INT_MAX) := by
  obtain ⟨seen, r, hr, inv, hexit⟩ := shortest_path_rule g start hs (DijkstraInv g start)
    (fun seen D h => h.seen_length.trans h.dist_length.symm)
    (dijkstra_init g start hs)
    (fun seen D c h hc hu hd hsel => dijkstra_step g hwf hnn start hs hfit seen D c h hc hu hd hsel)
  have hsl := inv.seen_length
  -- at the exit an unvisited vertex has the sentinel as its distance
  have hinf : ∀ v, v < g.vertex_count → seen.getD v false = false →
      r.getD v INT_MAX = INT_MAX := by
    intro v hv huv
    have hnc := hexit v (hsl ▸ hv)
    have hge : ¬ r.getD v INT_MAX < INT_MAX := by
      intro hlt
      have := (is_candidate_iff seen r v).mpr ⟨huv, hlt⟩
      rw [hnc] at this
      exact absurd this (by simp)
    exact le_antisymm (inv.range v hv).2 (not_lt.mp hge)
  refine ⟨r, hr, inv.dist_length, inv.start_zero, fun v hv => ⟨inv.range v hv, ?_, inv.realised v hv⟩⟩
  intro p hp
  have h := dijkstra_lower_bound g hwf hnn start hs seen r inv INT_MAX
    (fun u hu huu => le_of_eq (hinf u hu huu).symm)
    (fun u hu _ => (inv.range u hu).2)
    (fun hst => by
      have h1 := hinf start hs hst
      rw [inv.start_zero] at h1
      exact absurd h1 (by decide))
    p v hp
  by_cases hsv : seen.getD v false = true
  · rwa [if_pos hsv] at h
  · rw [if_neg hsv] at h
    rw [hinf v hv (by simpa using hsv)]
    exact h

theorem relaxationsFit_mono (g : Graph) (start : Nat) (b1 b2 : Int) (hb : b1 ≤ b2)
    (h : RelaxationsFit g start b1) : RelaxationsFit g start b2 :=
  fun u p hp hmin v hv => le_trans (h u p hp hmin v hv) hb

/-- Without any assumption on the weights, a finite entry of the distance vector belongs to a
vertex that is reachable from the start vertex. -/
theorem shortest_path_finite_reachable (g : Graph) (start : Nat) (hs : start < g.vertex_count) :
    ∃ r, shortest_path g start = .ok r ∧ r.length = g.vertex_count ∧
      ∀ v, v < g.vertex_count → r.getD v INT_MAX = INT_MAX ∨ Reachable g start v := by
  obtain ⟨seen, r, hr, ⟨h1, h2, h3⟩, _⟩ := shortest_path_rule g start hs
    (fun seen D => seen.length = g.vertex_count ∧ D.length = g.vertex_count ∧
      ∀ v, v < g.vertex_count → D.getD v INT_MAX = INT_MAX ∨ Reachable g start v)
    (fun seen D h => h.1.trans h.2.1.symm)
    ⟨by simp, by simp, by
      intro v hv
      rw [getD_set_eq_ite]
      by_cases h : start = v
      · exact Or.inr ⟨[], ⟨rfl, h⟩⟩
      · left
        simp only [h, false_and, if_false, List.getD_eq_getElem?_getD, List.getElem?_replicate]
        split <;> rfl⟩
    (by
      intro seen D c ⟨h1, h2, h3⟩ hc _ hd _
      have hcn : c < g.vertex_count := h1 ▸ hc
      have hrc : Reachable g start c := by
        rcases h3 c hcn with h | h
        · rw [h] at hd; exact absurd hd (lt_irrefl _)
        · exact h
      refine ⟨by simpa using h1, by rw [relax_out_edges_length]; exact h2, ?_⟩
      -- every relaxation writes to an out-edge neighbour of a reachable vertex
      have hfold : ∀ (vs : List Nat) (E : List Int), (∀ v ∈ vs, v ∈ g.out_edges c) →
          E.length = g.vertex_count →
          (∀ v, v < g.vertex_count → E.getD v INT_MAX = INT_MAX ∨ Reachable g start v) →
          ∀ v, v < g.vertex_count →
            (vs.foldl (relax_edge g c) E).getD v INT_MAX = INT_MAX ∨ Reachable g start v := by
        intro vs
        induction vs with
        | nil => intro E _ _ hE; exact hE
        | cons a vs ih =>
          intro E hsub hlen hE
          simp only [List.foldl_cons]
          refine ih _ (fun v hv => hsub v (List.mem_cons_of_mem _ hv))
            (by rw [relax_edge_length]; exact hlen) ?_
          intro v hv
          rw [relax_edge_getD g c E a v (hlen ▸ hv)]
          by_cases hcond : a = v ∧
              add_int (g.edge_weight c v) (E.getD c INT_MAX) < E.getD v INT_MAX
          · right
            obtain ⟨pc, hpc⟩ := hrc
            have hm : v ∈ g.out_edges c := hcond.1 ▸ hsub a (List.mem_cons_self _ _)
            exact ⟨pc ++ [v], isPath_snoc g start c v pc hpc hm⟩
          · rw [if_neg hcond]
            exact hE v hv
      exact hfold (g.out_edges c) D (fun v hv => hv) h2 h3)
  exact ⟨r, hr, h2, h3⟩

/-! ## The example graphs -/

/-- In the line graph every relaxation fits: every vertex has a path of weight at most 150 from
every start vertex. -/
theorem line_graph_fit (start : Nat) (hs : start < 3) : RelaxationsFit line_graph start INT_MAX := by
  apply relaxationsFit_of_paths
  intro u v hv _
  have hu : u < 3 := by
    by_contra h
    have h3 : ∃ k, u = k + 3 := ⟨u - 3, by omega⟩
    obtain ⟨k, rfl⟩ := h3
    simp [line_graph] at hv
  interval_cases start <;> interval_cases u
  · refine ⟨[], by decide, ?_⟩
    simp [line_graph] at hv; subst hv; decide
  · refine ⟨[1], by decide, ?_⟩
    simp [line_graph] at hv; rcases hv with rfl | rfl <;> decide
  · refine ⟨[1, 2], by decide, ?_⟩
    simp [line_graph] at hv; subst hv; decide
  · refine ⟨[0], by decide, ?_⟩
    simp [line_graph] at hv; subst hv; decide
  · refine ⟨[], by decide, ?_⟩
    simp [line_graph] at hv; rcases hv with rfl | rfl <;> decide
  · refine ⟨[2], by decide, ?_⟩
    simp [line_graph] at hv; subst hv; decide
  · refine ⟨[1, 0], by decide, ?_⟩
    simp [line_graph] at hv; subst hv; decide
  · refine ⟨[1], by decide, ?_⟩
    simp [line_graph] at hv; rcases hv with rfl | rfl <;> decide
  · refine ⟨[], by decide, ?_⟩
    simp [line_graph] at hv; subst hv; decide

/-! ## Independence of the representation -/

theorem list_eq_of_getD {α : Type} (l1 l2 : List α) (d : α) (hlen : l1.length = l2.length)
    (h : ∀ i, i < l1.length → l1.getD i d = l2.getD i d) : l1 = l2 := by
  apply List.ext_getElem? 
  intro i
  by_cases hi : i < l1.length
  · rw [getElem?_eq_some_getD l1 i d hi, getElem?_eq_some_getD l2 i d (hlen ▸ hi), h i hi]
  · rw [List.getElem?_eq_none (Nat.le_of_not_lt hi),
      List.getElem?_eq_none (hlen ▸ Nat.le_of_not_lt hi)]

theorem distance_at_most_two_congr (g1 g2 : Graph) (hsame : SameEdges g1 g2)
    (hwf : g1.WellFormed) (start : Nat) (hs : start < g1.vertex_count) :
    distance_at_most_two g1 start = distance_at_most_two g2 start := by
  obtain ⟨hn, hmem, _⟩ := hsame
  rw [distance_at_most_two_eq g1 start hs, distance_at_most_two_eq g2 start (hn ▸ hs), ← hn]
  congr 1
  have hlen0 : ((List.replicate g1.vertex_count false).set start true).length =
      g1.vertex_count := by simp
  apply list_eq_of_getD _ _ false
  · rw [foldl_mark_neighbour_length, foldl_mark_neighbour_length]
  · intro i hi
    rw [foldl_mark_neighbour_length] at hi
    have h1 := foldl_mark_neighbour_getD g1 _ (g1.out_edges start) i hi
    have h2 := foldl_mark_neighbour_getD g2 _ (g2.out_edges start) i hi
    have hiff : (∃ j ∈ g1.out_edges start, i = j ∨ i ∈ g1.out_edges j) ↔
        (∃ j ∈ g2.out_edges start, i = j ∨ i ∈ g2.out_edges j) := by
      constructor
      · rintro ⟨j, hj, h⟩
        have hjn := (hwf start hs j hj).1
        exact ⟨j, (hmem start hs j).mp hj, h.imp id (fun h => (hmem j hjn i).mp h)⟩
      · rintro ⟨j, hj, h⟩
        have hj1 := (hmem start hs j).mpr hj
        have hjn := (hwf start hs j hj1).1
        exact ⟨j, hj1, h.imp id (fun h => (hmem j hjn i).mpr h)⟩
    rw [hiff, ← h2] at h1
    exact Bool.eq_iff_iff.mpr h1

/-- The relaxation loop computes the same distances on two representations of the same edges,
when relaxing an edge from the current vertex to itself would not lower its distance. -/
theorem relax_out_edges_congr (g1 g2 : Graph) (hsame : SameEdges g1 g2) (c : Nat)
    (hc : c < g1.vertex_count) (D : List Int)
    (hself : c ∈ g1.out_edges c →
      ¬ add_int (g1.edge_weight c c) (D.getD c INT_MAX) < D.getD c INT_MAX) :
    relax_out_edges g1 c D = relax_out_edges g2 c D := by
  obtain ⟨_, hmem, hw⟩ := hsame
  have hself2 : c ∈ g2.out_edges c →
      ¬ add_int (g2.edge_weight c c) (D.getD c INT_MAX) < D.getD c INT_MAX := by
    intro hm
    have hm1 := (hmem c hc c).mpr hm
    rw [← hw c hc c hm1]
    exact hself hm1
  apply list_eq_of_getD _ _ INT_MAX
  · rw [relax_out_edges_length, relax_out_edges_length]
  · intro i hi
    rw [relax_out_edges_length] at hi
    rw [relax_out_edges_getD g1 c D hself i hi, relax_out_edges_getD g2 c D hself2 i hi]
    by_cases him : i ∈ g1.out_edges c
    · have hi2 := (hmem c hc i).mp him
      rw [hw c hc i him]
      simp only [him, hi2, true_and]
    · have hi2 : i ∉ g2.out_edges c := fun h => him ((hmem c hc i).mpr h)
      simp only [him, hi2, false_and, if_false]

/-- The main loop returns the same result on two representations of the same edges, given an
invariant of the run under which relaxing an edge from the current vertex to itself never lowers
its distance. -/
theorem shortest_path_loop_congr (g1 g2 : Graph) (hsame : SameEdges g1 g2)
    (Inv : List Bool → List Int → Prop)
    (hlen : ∀ seen D, Inv seen D → seen.length = g1.vertex_count ∧ D.length = g1.vertex_count)
    (hstep : ∀ seen D c, Inv seen D → c < seen.length →
      seen.getD c false = false → D.getD c INT_MAX < INT_MAX →
      (∀ v, v < seen.length → seen.getD v false = false →
        D.getD c INT_MAX ≤ D.getD v INT_MAX) →
      Inv (seen.set c true) (relax_out_edges g1 c D) ∧
      (c ∈ g1.out_edges c →
        ¬ add_int (g1.edge_weight c c) (D.getD c INT_MAX) < D.getD c INT_MAX)) :
    ∀ (fuel : Nat) (seen : List Bool) (D : List Int) (current : Nat), Inv seen D →
      shortest_path_loop g1 fuel seen D current = shortest_path_loop g2 fuel seen D current := by
  intro fuel
  induction fuel with
  | zero => intro seen D current _; rfl
  | succ fuel ih =>
    intro seen D current hinv
    obtain ⟨hl1, hl2⟩ := hlen seen D hinv
    by_cases hex : ∃ v, v < seen.length ∧ is_candidate seen D v = true
    · obtain ⟨c, hnc, hc, hu, hd, hmin, _⟩ :=
        next_current_true seen D current (hl1.trans hl2.symm) hex
      obtain ⟨hinv2, hself⟩ := hstep seen D c hinv hc hu hd hmin
      simp only [shortest_path_loop, hnc]
      rw [← relax_out_edges_congr g1 g2 hsame c (hl1 ▸ hc) D hself]
      exact ih _ _ _ hinv2
    · have hnone : ∀ v, v < seen.length → is_candidate seen D v = false := by
        intro v hv
        by_contra hcv
        exact hex ⟨v, hv, by simpa using hcv⟩
      simp only [shortest_path_loop,
        next_current_false seen D current (hl1.trans hl2.symm) hnone]

/-! ## A start vertex without out-edges -/

/-- For a valid start vertex without out-edges, `shortest_path` returns 0 at the start vertex and
the sentinel everywhere else, and `distance_at_most_two` returns true at the start vertex and
false everywhere else. -/
theorem no_out_edges_results (g : Graph) (start : Nat) (hs : start < g.vertex_count)
    (hout : g.out_edges start = []) :
    shortest_path g start = .ok ((List.replicate g.vertex_count INT_MAX).set start 0) ∧
    distance_at_most_two g start = .ok ((List.replicate g.vertex_count false).set start true) := by
  constructor
  · rw [shortest_path_eq_loop g start hs]
    have hD : ∀ v, ((List.replicate g.vertex_count INT_MAX).set start 0).getD v INT_MAX =
        if start = v then 0 else INT_MAX := by
      intro v
      rw [getD_set_eq_ite]
      by_cases h : start = v
      · subst h
        rw [if_pos ⟨rfl, by simpa using hs⟩, if_pos rfl]
      · simp only [h, false_and, if_false, List.getD_eq_getElem?_getD, List.getElem?_replicate]
        split <;> rfl
    have hseen : ∀ u, (List.replicate g.vertex_count false).getD u false = false := by
      intro u
      simp only [List.getD_eq_getElem?_getD, List.getElem?_replicate]
      split <;> rfl
    have hl : (List.replicate g.vertex_count false).length =
        ((List.replicate g.vertex_count INT_MAX).set start 0).length := by simp
    -- the first evaluation of the loop condition selects the start vertex
    obtain ⟨c, hnc, hc, _, hd, _, _⟩ := next_current_true (List.replicate g.vertex_count false)
      ((List.replicate g.vertex_count INT_MAX).set start 0) start hl
      ⟨start, by simpa using hs, by
        rw [is_candidate_iff, hseen, hD, if_pos rfl]
        exact ⟨rfl, by decide⟩⟩
    have hcs : c = start := by
      rw [hD] at hd
      by_contra hne
      rw [if_neg (fun e => hne e.symm)] at hd
      exact absurd hd (lt_irrefl _)
    subst hcs
    have hrelax : relax_out_edges g c ((List.replicate g.vertex_count INT_MAX).set c 0) =
        (List.replicate g.vertex_count INT_MAX).set c 0 := by
      unfold relax_out_edges
      rw [hout]
      rfl
    -- the second evaluation finds no unvisited vertex with a finite distance
    have hnone : ∀ v, v < ((List.replicate g.vertex_count false).set c true).length →
        is_candidate ((List.replicate g.vertex_count false).set c true)
          ((List.replicate g.vertex_count INT_MAX).set c 0) v = false := by
      intro v hv
      have hv2 : v < (List.replicate g.vertex_count false).length := by simpa using hv
      by_contra hcv
      rw [Bool.not_eq_false, is_candidate_iff, getD_set_true_eq_false _ _ _ hv2, hD] at hcv
      obtain ⟨⟨_, hne⟩, hlt⟩ := hcv
      rw [if_neg (fun e => hne e.symm)] at hlt
      exact absurd hlt (lt_irrefl _)
    obtain ⟨k, hk⟩ : ∃ k, g.vertex_count = k + 1 := ⟨g.vertex_count - 1, by omega⟩
    rw [show g.vertex_count + 1 = k + 1 + 1 by omega]
    simp only [shortest_path_loop, hnc, hrelax]
    rw [next_current_false _ _ c (by simp) hnone]
  · rw [distance_at_most_two_eq g start hs, hout]
    rfl

/-! ## The run of the main loop -/

/-- The rule for the run of the `while` loop: with an invariant `Inv` of the vectors that every
iteration preserves, a property `Q` of the initial vectors, the result and the list of
iterations holds if it holds when the loop stops at once and is carried backwards over every
iteration. -/
theorem shortest_path_run_rule (g : Graph) (Inv : List Bool → List Int → Prop)
    (Q : List Bool → List Int → List Int → List Iteration → Prop)
    (hlen : ∀ seen D, Inv seen D → seen.length = D.length)
    (hstop : ∀ seen D, Inv seen D →
      (∀ v, v < seen.length → is_candidate seen D v = false) → Q seen D D [])
    (hstep : ∀ seen D c, Inv seen D → c < seen.length →
      seen.getD c false = false → D.getD c INT_MAX < INT_MAX →
      (∀ v, v < seen.length → seen.getD v false = false →
        D.getD c INT_MAX ≤ D.getD v INT_MAX) →
      Inv (seen.set c true) (relax_out_edges g c D) ∧
      ∀ r its, Q (seen.set c true) (relax_out_edges g c D) r its →
        Q seen D r (⟨c, seen, D⟩ :: its)) :
    ∀ (fuel : Nat) (seen : List Bool) (D : List Int) (current : Nat),
      Inv seen D → seen.count false < fuel →
      ∃ r, shortest_path_loop g fuel seen D current = .ok r ∧
        Q seen D r (shortest_path_loop_iterations g fuel seen D current) := by
  intro fuel
  induction fuel with
  | zero => intro seen D current _ h; exact absurd h (Nat.not_lt_zero _)
  | succ fuel ih =>
    intro seen D current hinv hfuel
    have hl := hlen seen D hinv
    by_cases hex : ∃ v, v < seen.length ∧ is_candidate seen D v = true
    · obtain ⟨c, hnc, hc, hu, hd, hmin, _⟩ := next_current_true seen D current hl hex
      have hcount := count_false_set_true seen c hc hu
      obtain ⟨hinv2, hcarry⟩ := hstep seen D c hinv hc hu hd hmin
      obtain ⟨r, hr, hq⟩ := ih (seen.set c true) (relax_out_edges g c D) c hinv2 (by omega)
      refine ⟨r, ?_, ?_⟩
      · simp only [shortest_path_loop, hnc]
        exact hr
      · simp only [shortest_path_loop_iterations, hnc]
        exact hcarry r _ hq
    · have hnone : ∀ v, v < seen.length → is_candidate seen D v = false := by
        intro v hv
        by_contra hcv
        exact hex ⟨v, hv, by simpa using hcv⟩
      refine ⟨D, ?_, ?_⟩
      · simp only [shortest_path_loop, next_current_false seen D current hl hnone]
      · simp only [shortest_path_loop_iterations,
          next_current_false seen D current hl hnone]
        exact hstop seen D hinv hnone

theorem shortest_path_iterations_eq_loop (g : Graph) (start : Nat) (hs : start < g.vertex_count) :
    shortest_path_iterations g start = shortest_path_loop_iterations g (g.vertex_count + 1)
      (List.replicate g.vertex_count false)
      ((List.replicate g.vertex_count INT_MAX).set start 0) start := by
  unfold shortest_path_iterations
  rw [if_neg (range_check_of_valid g start hs)]
  simp

/-- The rule for the run of `shortest_path`. -/
theorem shortest_path_iterations_rule (g : Graph) (start : Nat) (hs : start < g.vertex_count)
    (Inv : List Bool → List Int → Prop)
    (Q : List Bool → List Int → List Int → List Iteration → Prop)
    (hlen : ∀ seen D, Inv seen D → seen.length = D.length)
    (hinit : Inv (List.replicate g.vertex_count false)
      ((List.replicate g.vertex_count INT_MAX).set start 0))
    (hstop : ∀ seen D, Inv seen D →
      (∀ v, v < seen.length → is_candidate seen D v = false) → Q seen D D [])
    (hstep : ∀ seen D c, Inv seen D → c < seen.length →
      seen.getD c false = false → D.getD c INT_MAX < INT_MAX →
      (∀ v, v < seen.length → seen.getD v false = false →
        D.getD c INT_MAX ≤ D.getD v INT_MAX) →
      Inv (seen.set c true) (relax_out_edges g c D) ∧
      ∀ r its, Q (seen.set c true) (relax_out_edges g c D) r its →
        Q seen D r (⟨c, seen, D⟩ :: its)) :
    ∃ r, shortest_path g start = .ok r ∧
      Q (List.replicate g.vertex_count false)
        ((List.replicate g.vertex_count INT_MAX).set start 0) r
        (shortest_path_iterations g start) := by
  rw [shortest_path_eq_loop g start hs, shortest_path_iterations_eq_loop g start hs]
  exact shortest_path_run_rule g Inv Q hlen hstop hstep _ _ _ _ hinit (by simp)

/-- A larger budget does not change the result or the iterations of a loop that returns. -/
theorem shortest_path_loop_fuel (g : Graph) (fuel : Nat) :
    ∀ (seen : List Bool) (D : List Int) (current : Nat) (r : List Int),
      shortest_path_loop g fuel seen D current = .ok r →
      ∀ extra, shortest_path_loop g (fuel + extra) seen D current = .ok r ∧
        shortest_path_loop_iterations g (fuel + extra) seen D current =
          shortest_path_loop_iterations g fuel seen D current := by
  induction fuel with
  | zero =>
    intro seen D current r h
    simp [shortest_path_loop] at h
  | succ fuel ih =>
    intro seen D current r h extra
    rw [show fuel + 1 + extra = (fuel + extra) + 1 by omega]
    simp only [shortest_path_loop, shortest_path_loop_iterations] at h ⊢
    cases hn : next_current_for_shortest_path seen D current with
    | error e => rw [hn] at h; simp at h
    | ok res =>
      obtain ⟨b, c⟩ := res
      rw [hn] at h
      cases b with
      | false => exact ⟨h, rfl⟩
      | true =>
        simp only at h ⊢
        obtain ⟨h1, h2⟩ := ih _ _ _ r h extra
        exact ⟨h1, by rw [h2]⟩

/-! ## The operands of the relaxation sums -/

theorem relax_edge_getD_le (g : Graph) (c : Nat) (D : List Int) (v i : Nat) :
    (relax_edge g c D v).getD i INT_MAX ≤ D.getD i INT_MAX := by
  unfold relax_edge
  dsimp only
  split
  · rename_i hlt
    rw [getD_set_eq_ite]
    split
    · rename_i hvi
      rw [← hvi.1]
      exact le_of_lt hlt
    · exact le_refl _
  · exact le_refl _

theorem foldl_relax_edge_getD_le (g : Graph) (c : Nat) (vs : List Nat) (D : List Int) (i : Nat) :
    (vs.foldl (relax_edge g c) D).getD i INT_MAX ≤ D.getD i INT_MAX := by
  induction vs generalizing D with
  | nil => exact le_refl _
  | cons v vs ih =>
    simp only [List.foldl_cons]
    exact le_trans (ih _) (relax_edge_getD_le g c D v i)

/-- A relaxation never raises a tentative distance. -/
theorem relax_out_edges_getD_le (g : Graph) (c : Nat) (D : List Int) (i : Nat) :
    (relax_out_edges g c D).getD i INT_MAX ≤ D.getD i INT_MAX :=
  foldl_relax_edge_getD_le g c _ D i

/-- When the distance of the current vertex is below the sentinel, so is the second operand of
every relaxation sum of the iteration. -/
theorem relaxation_operands_below_sentinel (g : Graph) (c : Nat) (vs : List Nat) (D : List Int)
    (hd : D.getD c INT_MAX < INT_MAX) :
    ∀ op ∈ relaxation_operands g c vs D, op.2 < INT_MAX := by
  induction vs generalizing D with
  | nil => intro op hop; simp [relaxation_operands] at hop
  | cons v vs ih =>
    intro op hop
    simp only [relaxation_operands, List.mem_cons] at hop
    rcases hop with rfl | hop
    · exact hd
    · exact ih _ (lt_of_le_of_lt (relax_edge_getD_le g c D v c) hd) op hop

/-- When relaxing an edge from the current vertex to itself does not lower its distance, the
operands of the iteration are the weights of the out-edges paired with the distance the current
vertex had when it was selected. -/
theorem relaxation_operands_eq_map (g : Graph) (c : Nat) (vs : List Nat) (D : List Int)
    (hself : c ∈ vs →
      ¬ add_int (g.edge_weight c c) (D.getD c INT_MAX) < D.getD c INT_MAX) :
    relaxation_operands g c vs D = vs.map (fun v => (g.edge_weight c v, D.getD c INT_MAX)) := by
  induction vs generalizing D with
  | nil => rfl
  | cons v vs ih =>
    have hcur : (relax_edge g c D v).getD c INT_MAX = D.getD c INT_MAX :=
      relax_edge_getD_current g c D v (fun h => hself (by simp [h]))
    simp only [relaxation_operands, List.map_cons]
    rw [ih (relax_edge g c D v)
      (by rw [hcur]; intro hm; exact hself (List.mem_cons_of_mem _ hm)), hcur]

/-- When the weights of the out-edges are non-negative, the distance of the current vertex is
non-negative and no relaxation sum of the iteration exceeds `INT_MAX`, every out-edge weight
added to the distance the current vertex had when selected is at most `INT_MAX`. -/
theorem relaxation_operands_fit (g : Graph) (c : Nat) (vs : List Nat) (D : List Int)
    (hw : ∀ v ∈ vs, 0 ≤ g.edge_weight c v) (h0 : 0 ≤ D.getD c INT_MAX)
    (hfit : ∀ op ∈ relaxation_operands g c vs D, op.1 + op.2 ≤ INT_MAX) :
    ∀ v ∈ vs, g.edge_weight c v + D.getD c INT_MAX ≤ INT_MAX := by
  induction vs generalizing D with
  | nil => intro v hv; simp at hv
  | cons a vs ih =>
    have hhead : g.edge_weight c a + D.getD c INT_MAX ≤ INT_MAX :=
      hfit (g.edge_weight c a, D.getD c INT_MAX) (by simp [relaxation_operands])
    have hcur : (relax_edge g c D a).getD c INT_MAX = D.getD c INT_MAX := by
      apply relax_edge_getD_current
      intro hac
      subst hac
      have hwa := hw a (List.mem_cons_self _ _)
      rw [add_int_eq _ _ (by have : INT_MIN ≤ 0 := by decide
                             linarith) hhead]
      linarith
    intro v hv
    rcases List.mem_cons.mp hv with rfl | hv
    · exact hhead
    · have := ih (relax_edge g c D a) (fun v hv => hw v (List.mem_cons_of_mem _ hv))
        (by rw [hcur]; exact h0)
        (fun op hop => hfit op (by simp [relaxation_operands, hop])) v hv
      rwa [hcur] at this

/-! ## Distances settle -/

/-- The effect of the relaxation loop on the entries when the out-edge weights are non-negative
and no relaxation sum exceeds `INT_MAX`: an entry keeps its value or becomes the smaller
relaxation sum. -/
theorem relax_out_edges_cases (g : Graph) (c : Nat) (D : List Int)
    (h0 : 0 ≤ D.getD c INT_MAX)
    (hedge : ∀ v ∈ g.out_edges c,
      0 ≤ g.edge_weight c v ∧ g.edge_weight c v + D.getD c INT_MAX ≤ INT_MAX)
    (i : Nat) (hi : i < D.length) :
    (relax_out_edges g c D).getD i INT_MAX = D.getD i INT_MAX ∨
    (i ∈ g.out_edges c ∧
      (relax_out_edges g c D).getD i INT_MAX = g.edge_weight c i + D.getD c INT_MAX ∧
      g.edge_weight c i + D.getD c INT_MAX < D.getD i INT_MAX) := by
  have hadd : ∀ v ∈ g.out_edges c,
      add_int (g.edge_weight c v) (D.getD c INT_MAX) = g.edge_weight c v + D.getD c INT_MAX := by
    intro v hv
    obtain ⟨hw, hf⟩ := hedge v hv
    apply add_int_eq _ _ _ hf
    have : INT_MIN ≤ 0 := by decide
    linarith
  have hself : c ∈ g.out_edges c →
      ¬ add_int (g.edge_weight c c) (D.getD c INT_MAX) < D.getD c INT_MAX := by
    intro hm
    rw [hadd c hm]
    have := (hedge c hm).1
    linarith
  rw [relax_out_edges_getD g c D hself i hi]
  by_cases hcond : i ∈ g.out_edges c ∧
      add_int (g.edge_weight c i) (D.getD c INT_MAX) < D.getD i INT_MAX
  · rw [if_pos hcond]
    right
    refine ⟨hcond.1, hadd i hcond.1, ?_⟩
    rw [← hadd i hcond.1]
    exact hcond.2
  · rw [if_neg hcond]
    exact Or.inl rfl

/-- One iteration without overflow on non-negative weights: no distance grows, the distances of
the visited vertices and of the current vertex stay as they are, distances stay non-negative, and
visited vertices stay no farther than unvisited ones. -/
theorem settle_step (g : Graph) (hnn : g.NonNegative) (seen : List Bool) (D : List Int) (c : Nat)
    (hsl : seen.length = g.vertex_count) (hdl : D.length = g.vertex_count)
    (hpos : ∀ v, v < g.vertex_count → 0 ≤ D.getD v INT_MAX)
    (hord : ∀ u v, u < g.vertex_count → v < g.vertex_count → seen.getD u false = true →
      seen.getD v false = false → D.getD u INT_MAX ≤ D.getD v INT_MAX)
    (hc : c < g.vertex_count) (hu : seen.getD c false = false)
    (hsel : ∀ v, v < g.vertex_count → seen.getD v false = false →
      D.getD c INT_MAX ≤ D.getD v INT_MAX)
    (hfit : ∀ v ∈ g.out_edges c, g.edge_weight c v + D.getD c INT_MAX ≤ INT_MAX) :
    (∀ v, v < g.vertex_count → 0 ≤ (relax_out_edges g c D).getD v INT_MAX) ∧
    (∀ u v, u < g.vertex_count → v < g.vertex_count →
      (seen.set c true).getD u false = true → (seen.set c true).getD v false = false →
      (relax_out_edges g c D).getD u INT_MAX ≤ (relax_out_edges g c D).getD v INT_MAX) ∧
    (∀ v, v < g.vertex_count → (seen.getD v false = true ∨ v = c) →
      (relax_out_edges g c D).getD v INT_MAX = D.getD v INT_MAX) := by
  have h0 := hpos c hc
  have hedge : ∀ v ∈ g.out_edges c,
      0 ≤ g.edge_weight c v ∧ g.edge_weight c v + D.getD c INT_MAX ≤ INT_MAX :=
    fun v hv => ⟨hnn c hc v hv, hfit v hv⟩
  have hnew := fun i (hi : i < g.vertex_count) =>
    relax_out_edges_cases g c D h0 hedge i (hdl ▸ hi)
  have hkeep : ∀ i, i < g.vertex_count → D.getD i INT_MAX ≤ D.getD c INT_MAX →
      (relax_out_edges g c D).getD i INT_MAX = D.getD i INT_MAX := by
    intro i hi hic
    rcases hnew i hi with h | ⟨hm, _, h2⟩
    · exact h
    · have := (hedge i hm).1
      linarith
  have hge : ∀ i, i < g.vertex_count → D.getD c INT_MAX ≤ D.getD i INT_MAX →
      D.getD c INT_MAX ≤ (relax_out_edges g c D).getD i INT_MAX := by
    intro i hi hci
    rcases hnew i hi with h | ⟨hm, h1, _⟩
    · rw [h]; exact hci
    · rw [h1]
      have := (hedge i hm).1
      linarith
  have hfix : ∀ v, v < g.vertex_count → (seen.getD v false = true ∨ v = c) →
      (relax_out_edges g c D).getD v INT_MAX = D.getD v INT_MAX := by
    intro v hv hsv
    rcases hsv with h | h
    · exact hkeep v hv (hord v c hv hc h hu)
    · subst h; exact hkeep v hv (le_refl _)
  refine ⟨?_, ?_, hfix⟩
  · intro v hv
    rcases hnew v hv with h | ⟨hm, h1, _⟩
    · rw [h]; exact hpos v hv
    · rw [h1]
      have := (hedge v hm).1
      linarith
  · intro u v hun hvn hsu huv
    obtain ⟨huv1, _⟩ := (getD_set_true_eq_false seen c v (hsl ▸ hvn)).mp huv
    have hsu2 := (getD_set_true seen c u (hsl ▸ hun)).mp hsu
    rw [hfix u hun hsu2]
    have huc : D.getD u INT_MAX ≤ D.getD c INT_MAX := by
      rcases hsu2 with h | h
      · exact hord u c hun hc h hu
      · rw [h]
    exact le_trans huc (hge v hvn (hsel v hvn huv1))

/-! ## The total weight bounds the distances -/

theorem out_weight_nonneg (g : Graph) (hnn : g.NonNegative) (u : Nat) (hu : u < g.vertex_count) :
    0 ≤ out_weight g u := by
  apply List.sum_nonneg
  intro x hx
  obtain ⟨v, hv, rfl⟩ := List.mem_map.mp hx
  exact hnn u hu v hv

theorem edge_weight_le_out_weight (g : Graph) (hnn : g.NonNegative) (u : Nat)
    (hu : u < g.vertex_count) (v : Nat) (hv : v ∈ g.out_edges u) :
    g.edge_weight u v ≤ out_weight g u := by
  apply List.single_le_sum
  · intro x hx
    obtain ⟨v, hv, rfl⟩ := List.mem_map.mp hx
    exact hnn u hu v hv
  · exact List.mem_map.mpr ⟨v, hv, rfl⟩

theorem seen_weight_le_total (g : Graph) (hnn : g.NonNegative) (seen : List Bool) :
    seen_weight g seen ≤ total_weight g := by
  apply List.sum_le_sum
  intro u hu
  split
  · exact le_refl _
  · exact out_weight_nonneg g hnn u (List.mem_range.mp hu)

theorem sum_range_add_at (F : Nat → Int) (c : Nat) (m : Int) (n : Nat) :
    ((List.range n).map (fun u => if u = c then F u + m else F u)).sum =
      ((List.range n).map F).sum + (if c < n then m else 0) := by
  induction n with
  | zero => simp
  | succ n ih =>
    rw [List.sum_range_succ, List.sum_range_succ, ih]
    by_cases h1 : n = c
    · subst h1
      simp
      ring
    · by_cases h2 : c < n
      · have h3 : c < n + 1 := Nat.lt_succ_of_lt h2
        simp [h1, h2, h3]
        ring
      · have h3 : ¬ c < n + 1 := by omega
        simp [h1, h2, h3]

/-- Marking an unvisited vertex adds the weight of its out-edges to the weight of the visited
vertices. -/
theorem seen_weight_set (g : Graph) (seen : List Bool) (c : Nat) (hsl : seen.length = g.vertex_count)
    (hc : c < g.vertex_count) (hu : seen.getD c false = false) :
    seen_weight g (seen.set c true) = seen_weight g seen + out_weight g c := by
  have h := sum_range_add_at
    (fun u => if seen.getD u false = true then out_weight g u else 0) c (out_weight g c)
    g.vertex_count
  rw [if_pos hc] at h
  unfold seen_weight
  rw [← h]
  congr 1
  apply List.map_congr_left
  intro u _
  rw [getD_set_eq_ite]
  by_cases huc : u = c
  · subst huc
    simp only [hu, if_true, true_and, hsl ▸ hc]
    simp
  · have hcu : ¬ c = u := fun e => huc e.symm
    simp only [huc, hcu, false_and, if_false]

theorem seen_weight_replicate (g : Graph) :
    seen_weight g (List.replicate g.vertex_count false) = 0 := by
  unfold seen_weight
  have : ∀ u, (List.replicate g.vertex_count false).getD u false = false := by
    intro u
    simp only [List.getD_eq_getElem?_getD, List.getElem?_replicate]
    split <;> rfl
  simp [this]

/-! ## Undirected graphs -/

/-- In an undirected graph every path can be walked backwards, with the same weight. -/
theorem isPath_reverse (g : Graph) (hwf : g.WellFormed) (hund : g.Undirected) (u : Nat)
    (hu : u < g.vertex_count) :
    ∀ (p : List Nat) (v : Nat), IsPath g u v p →
      ∃ q, IsPath g v u q ∧ path_weight g v q = path_weight g u p := by
  intro p
  induction p using List.reverseRecOn with
  | nil =>
    intro v hp
    refine ⟨[], ⟨rfl, ?_⟩, rfl⟩
    simpa [path_end] using hp.2.symm
  | append_singleton p a ih =>
    intro v hp
    obtain ⟨h1, h2, h3⟩ := (isPath_snoc_iff g u v p a).mp hp
    subst h3
    obtain ⟨q, hq, hw⟩ := ih _ h1
    have hx := isPath_valid g hwf u hu p _ h1
    obtain ⟨hback, hwback⟩ := hund _ hx v h2
    refine ⟨path_end u p :: q, ⟨?_, ?_⟩, ?_⟩
    · simp only [is_path_from, Bool.and_eq_true, decide_eq_true_eq]
      exact ⟨hback, hq.1⟩
    · simp only [path_end]
      exact hq.2
    · simp only [path_weight]
      rw [path_weight_snoc, hw, hwback]
      ring

/-- The entry of vertex `i` in the result of `distance_at_most_two`. -/
theorem distance_at_most_two_getD (g : Graph) (start i : Nat) (hs : start < g.vertex_count)
    (hi : i < g.vertex_count) :
    ∃ seen, distance_at_most_two g start = .ok seen ∧ seen.length = g.vertex_count ∧
      (seen.getD i false = true ↔
        (i = start ∨ i ∈ g.out_edges start ∨ ∃ j ∈ g.out_edges start, i ∈ g.out_edges j)) := by
  refine ⟨_, distance_at_most_two_eq g start hs, by simp [foldl_mark_neighbour_length], ?_⟩
  have hlen : i < ((List.replicate g.vertex_count false).set start true).length := by
    simpa using hi
  rw [foldl_mark_neighbour_getD g _ _ i hlen, getD_set_eq_ite]
  have hrep : (List.replicate g.vertex_count false).getD i false = false := by
    simp [List.getD_eq_getElem?_getD, List.getElem?_replicate, hi]
  rw [hrep]
  constructor
  · rintro (h | ⟨j, hj, h | h⟩)
    · by_cases e : start = i
      · exact Or.inl e.symm
      · simp [e] at h
    · exact Or.inr (Or.inl (h ▸ hj))
    · exact Or.inr (Or.inr ⟨j, hj, h⟩)
  · rintro (h | h | ⟨j, hj, h⟩)
    · left; simp [h, hs]
    · exact Or.inr ⟨i, h, Or.inl rfl⟩
    · exact Or.inr ⟨j, hj, Or.inr h⟩

/-- In an undirected graph being within two out-edges is a symmetric relation. -/
theorem two_hops_symm (g : Graph) (hwf : g.WellFormed) (hund : g.Undirected) (u v : Nat)
    (hu : u < g.vertex_count)
    (h : v = u ∨ v ∈ g.out_edges u ∨ ∃ j ∈ g.out_edges u, v ∈ g.out_edges j) :
    u = v ∨ u ∈ g.out_edges v ∨ ∃ j ∈ g.out_edges v, u ∈ g.out_edges j := by
  rcases h with h | h | ⟨j, hj, hvj⟩
  · exact Or.inl h.symm
  · exact Or.inr (Or.inl (hund u hu v h).1)
  · have hjn := (hwf u hu j hj).1
    exact Or.inr (Or.inr ⟨j, (hund j hjn v hvj).1, (hund u hu j hj).1⟩)

/-- In an undirected graph with non-negative weights whose relaxations fit from `u`, the entry
of `v` in the result from `u` is at most the weight of every path from `v` to `u`. -/
theorem shortest_path_le_reverse (g : Graph) (hwf : g.WellFormed) (hnn : g.NonNegative)
    (hund : g.Undirected) (u v : Nat) (hu : u < g.vertex_count) (hv : v < g.vertex_count)
    (hfu : RelaxationsFit g u INT_MAX) :
    ∃ r, shortest_path g u = .ok r ∧ r.length = g.vertex_count ∧
      r.getD v INT_MAX ≤ INT_MAX ∧
      (∀ q, IsPath g v u q → r.getD v INT_MAX ≤ path_weight g v q) ∧
      (r.getD v INT_MAX < INT_MAX →
        ∃ p, IsPath g u v p ∧ path_weight g u p = r.getD v INT_MAX) := by
  obtain ⟨r, hr, hlen, _, hall⟩ := shortest_path_final g hwf hnn u hu hfu
  obtain ⟨⟨_, hmax⟩, hlow, hreal⟩ := hall v hv
  refine ⟨r, hr, hlen, hmax, ?_, hreal⟩
  intro q hq
  obtain ⟨p, hp, hw⟩ := isPath_reverse g hwf hund v hv q u hq
  rw [← hw]
  exact hlow p hp

/-! ## The adjacency-list representation -/

theorem insert_vertex_count (g : AdjacencyListGraph) (u v : Nat) (w : Int) :
    (g.insert u v w).vertex_count = g.vertex_count := by
  simp [AdjacencyListGraph.insert, AdjacencyListGraph.vertex_count]

theorem insert_entries (g : AdjacencyListGraph) (u v : Nat) (w : Int) (x : Nat)
    (hu : u < g.vertex_count) :
    (g.insert u v w).adjacency.getD x [] =
      if u = x then g.adjacency.getD u [] ++ [(v, w)] else g.adjacency.getD x [] := by
  unfold AdjacencyListGraph.insert
  simp only
  rw [getD_set_eq_ite]
  by_cases h : u = x
  · rw [if_pos ⟨h, hu⟩, if_pos h]
  · rw [if_neg (fun e => h e.1), if_neg h]

theorem mem_insert_entries (g : AdjacencyListGraph) (u v : Nat) (w : Int)
    (hu : u < g.vertex_count) (x : Nat) (e : Nat × Int) :
    e ∈ (g.insert u v w).adjacency.getD x [] ↔
      e ∈ g.adjacency.getD x [] ∨ (x = u ∧ e = (v, w)) := by
  rw [insert_entries g u v w x hu]
  by_cases h : u = x
  · subst h
    simp
  · have h2 : ¬ x = u := fun e => h e.symm
    simp [h, h2]

theorem has_edge_iff (g : AdjacencyListGraph) (u v : Nat) :
    g.has_edge u v = true ↔ ∃ w, (v, w) ∈ g.adjacency.getD u [] := by
  unfold AdjacencyListGraph.has_edge
  rw [List.any_eq_true]
  constructor
  · rintro ⟨⟨a, w⟩, hm, he⟩
    have : a = v := by simpa using he
    subst this
    exact ⟨w, hm⟩
  · rintro ⟨w, hm⟩
    exact ⟨(v, w), hm, by simp⟩

theorem mem_out_edges_iff (g : AdjacencyListGraph) (u v : Nat) :
    v ∈ g.out_edges u ↔ ∃ w, (v, w) ∈ g.adjacency.getD u [] := by
  unfold AdjacencyListGraph.out_edges
  rw [List.mem_map]
  constructor
  · rintro ⟨⟨a, w⟩, hm, he⟩
    have : a = v := he
    subst this
    exact ⟨w, hm⟩
  · rintro ⟨w, hm⟩
    exact ⟨(v, w), hm, rfl⟩

theorem find_entry_of_mem (l : List (Nat × Int)) (v : Nat) (w : Int)
    (hnd : (l.map Prod.fst).Nodup) (h : (v, w) ∈ l) :
    l.find? (fun e => e.1 == v) = some (v, w) := by
  induction l with
  | nil => simp at h
  | cons e l ih =>
    rw [List.map_cons, List.nodup_cons] at hnd
    by_cases he : e.1 = v
    · have hev : e = (v, w) := by
        rcases List.mem_cons.mp h with h1 | h1
        · exact h1.symm
        · exfalso
          apply hnd.1
          rw [he]
          exact List.mem_map.mpr ⟨(v, w), h1, rfl⟩
      subst hev
      simp
    · have hne : (v, w) ≠ e := fun e2 => he (by rw [← e2])
      have hm : (v, w) ∈ l := by
        rcases List.mem_cons.mp h with h1 | h1
        · exact absurd h1 hne
        · exact h1
      rw [List.find?_cons_of_neg _ (by simpa using he)]
      exact ih hnd.2 hm

/-- When no list names a neighbour twice, `edge_weight` is the weight stored with the entry. -/
theorem edge_weight_of_mem (g : AdjacencyListGraph) (u v : Nat) (w : Int)
    (hnd : ((g.adjacency.getD u []).map Prod.fst).Nodup)
    (h : (v, w) ∈ g.adjacency.getD u []) : g.edge_weight u v = w := by
  unfold AdjacencyListGraph.edge_weight
  rw [find_entry_of_mem _ v w hnd h]

theorem add_edge_eq (g : AdjacencyListGraph) (u v : Nat) (w : Int) (hu : u < g.vertex_count)
    (hv : v < g.vertex_count) :
    g.add_edge u v w =
      if g.has_edge u v = true then .ok g
      else if u ≠ v then .ok ((g.insert u v w).insert v u w)
      else .ok (g.insert u v w) := by
  unfold AdjacencyListGraph.add_edge
  have hr : ¬ ((u : Int) < 0 ∨ (u : Int) ≥ g.vertex_count ∨ (v : Int) < 0 ∨
      (v : Int) ≥ g.vertex_count) := by omega
  rw [if_neg hr]
  simp only [Int.toNat_ofNat, ne_eq, Nat.cast_inj]

/-! ## The constructor of `AirportNetwork` -/

theorem nodup_keys_append (l : List (Nat × Int)) (k : Nat) (w : Int)
    (hnd : (l.map Prod.fst).Nodup) (hk : ∀ w2, (k, w2) ∉ l) :
    ((l ++ [(k, w)]).map Prod.fst).Nodup := by
  rw [List.map_append, List.nodup_append]
  refine ⟨hnd, by simp, ?_⟩
  intro a ha hb
  have hak : a = k := by simpa using hb
  subst hak
  obtain ⟨⟨a2, w2⟩, hm, he⟩ := List.mem_map.mp ha
  have : a2 = a := he
  subst this
  exact hk w2 hm

/-- Adding the entries of one more route, in both directions, keeps the adjacency lists those
of the routes. -/
theorem routesGraph_extend (db : AirportDatabase) (processed : List FlightRoute)
    (g g2 : AdjacencyListGraph) (route : FlightRoute) (h : RoutesGraph db processed g)
    (u v : Nat) (hu : db.index route.code_one = u) (hv : db.index route.code_two = v)
    (hun : u < db.size) (hvn : v < db.size)
    (hcount : g2.vertex_count = db.size)
    (hmem : ∀ x e, e ∈ g2.adjacency.getD x [] ↔
      e ∈ g.adjacency.getD x [] ∨
        (x = u ∧ e = (v, db.distance_miles route.code_one route.code_two)) ∨
        (x = v ∧ e = (u, db.distance_miles route.code_one route.code_two)))
    (hnd : ∀ x, ((g2.adjacency.getD x []).map Prod.fst).Nodup) :
    RoutesGraph db (processed ++ [route]) g2 := by
  refine ⟨hcount, ?_, ?_, ?_, hnd⟩
  · intro x y w hm
    rcases (hmem x (y, w)).mp hm with h1 | ⟨hx, he⟩ | ⟨hx, he⟩
    · obtain ⟨h2, h3, r, hr, h4⟩ := h.sound x y w h1
      exact ⟨h2, h3, r, List.mem_append_left _ hr, h4⟩
    · injection he with hy hw
      subst hx; subst hy
      exact ⟨hun, hvn, route, by simp, Or.inl ⟨hu, hv⟩, hw⟩
    · injection he with hy hw
      subst hx; subst hy
      exact ⟨hvn, hun, route, by simp, Or.inr ⟨hu, hv⟩, hw⟩
  · intro r hr
    rcases List.mem_append.mp hr with h1 | h1
    · obtain ⟨w, hw⟩ := h.complete r h1
      exact ⟨w, (hmem _ _).mpr (Or.inl hw)⟩
    · have hrr : r = route := by simpa using h1
      subst hrr
      refine ⟨db.distance_miles r.code_one r.code_two, (hmem _ _).mpr (Or.inr (Or.inl ?_))⟩
      rw [hu, hv]
      simp
  · intro x y w hm
    rcases (hmem x (y, w)).mp hm with h1 | ⟨hx, he⟩ | ⟨hx, he⟩
    · exact (hmem _ _).mpr (Or.inl (h.symm x y w h1))
    · injection he with hy hw
      subst hx; subst hy; subst hw
      exact (hmem _ _).mpr (Or.inr (Or.inr ⟨rfl, rfl⟩))
    · injection he with hy hw
      subst hx; subst hy; subst hw
      exact (hmem _ _).mpr (Or.inr (Or.inl ⟨rfl, rfl⟩))

/-- The call `add_edge(from, to, great_circle)` for one more route succeeds and keeps the
adjacency lists those of the routes. -/
theorem routesGraph_add_edge (db : AirportDatabase) (processed : List FlightRoute)
    (g : AdjacencyListGraph) (route : FlightRoute) (h : RoutesGraph db processed g)
    (u v : Nat) (hu : db.index route.code_one = u) (hv : db.index route.code_two = v)
    (hun : u < db.size) (hvn : v < db.size) :
    ∃ g2, g.add_edge u v (db.distance_miles route.code_one route.code_two) = .ok g2 ∧
      RoutesGraph db (processed ++ [route]) g2 := by
  have hug : u < g.vertex_count := by rw [h.count]; exact hun
  have hvg : v < g.vertex_count := by rw [h.count]; exact hvn
  rw [add_edge_eq g u v _ hug hvg]
  by_cases hhe : g.has_edge u v = true
  · rw [if_pos hhe]
    refine ⟨g, rfl, h.count, ?_, ?_, h.symm, h.nodup⟩
    · intro x y w hm
      obtain ⟨h2, h3, r, hr, h4⟩ := h.sound x y w hm
      exact ⟨h2, h3, r, List.mem_append_left _ hr, h4⟩
    · intro r hr
      rcases List.mem_append.mp hr with h1 | h1
      · exact h.complete r h1
      · have hrr : r = route := by simpa using h1
        subst hrr
        obtain ⟨w, hw⟩ := (has_edge_iff g u v).mp hhe
        refine ⟨w, ?_⟩
        rw [hu, hv]
        simpa using hw
  · rw [if_neg hhe]
    have hnot : ∀ w2, (v, w2) ∉ g.adjacency.getD u [] :=
      fun w2 hm => hhe ((has_edge_iff g u v).mpr ⟨w2, hm⟩)
    have hnot2 : ∀ w2, (u, w2) ∉ g.adjacency.getD v [] :=
      fun w2 hm => hnot w2 (h.symm v u w2 hm)
    by_cases huv : u = v
    · rw [if_neg (not_not.mpr huv)]
      refine ⟨_, rfl, routesGraph_extend db processed g _ route h u v hu hv hun hvn
        (by rw [insert_vertex_count]; exact h.count) ?_ ?_⟩
      · intro x e
        rw [mem_insert_entries g u v _ hug x e]
        subst huv
        constructor
        · rintro (h1 | h1)
          · exact Or.inl h1
          · exact Or.inr (Or.inl h1)
        · rintro (h1 | h1 | h1)
          · exact Or.inl h1
          · exact Or.inr h1
          · exact Or.inr h1
      · intro x
        rw [insert_entries g u v _ x hug]
        split
        · exact nodup_keys_append _ v _ (h.nodup u) hnot
        · exact h.nodup x
    · rw [if_pos huv]
      have hv1 : v < (g.insert u v (db.distance_miles route.code_one route.code_two)).vertex_count := by
        rw [insert_vertex_count]; exact hvg
      refine ⟨_, rfl, routesGraph_extend db processed g _ route h u v hu hv hun hvn
        (by rw [insert_vertex_count, insert_vertex_count]; exact h.count) ?_ ?_⟩
      · intro x e
        rw [mem_insert_entries _ v u _ hv1 x e, mem_insert_entries g u v _ hug x e]
        exact or_assoc
      · intro x
        rw [insert_entries _ v u _ x hv1, insert_entries g u v _ v hug,
          insert_entries g u v _ x hug]
        rw [if_neg huv]
        by_cases hvx : v = x
        · rw [if_pos hvx]
          exact nodup_keys_append _ u _ (h.nodup v) hnot2
        · rw [if_neg hvx]
          split
          · exact nodup_keys_append _ v _ (h.nodup u) hnot
          · exact h.nodup x

/-- The loop of the constructor over routes with valid indices succeeds and yields the
adjacency lists of the routes processed so far together with the new ones. -/
theorem routesGraph_foldl (db : AirportDatabase) (routes : List FlightRoute) :
    ∀ (processed : List FlightRoute) (g : AdjacencyListGraph), RoutesGraph db processed g →
      (∀ route ∈ routes,
        0 ≤ db.index route.code_one ∧ db.index route.code_one < db.size ∧
        0 ≤ db.index route.code_two ∧ db.index route.code_two < db.size) →
      ∃ g2, routes.foldl (add_flight_route db) (.ok g) = .ok g2 ∧
        RoutesGraph db (processed ++ routes) g2 := by
  induction routes with
  | nil =>
    intro processed g h _
    exact ⟨g, rfl, by simpa using h⟩
  | cons route routes ih =>
    intro processed g h hvalid
    obtain ⟨h1, h2, h3, h4⟩ := hvalid route (List.mem_cons_self _ _)
    obtain ⟨u, hu⟩ := Int.eq_ofNat_of_zero_le h1
    obtain ⟨v, hv⟩ := Int.eq_ofNat_of_zero_le h3
    have hun : u < db.size := by rw [hu] at h2; exact_mod_cast h2
    have hvn : v < db.size := by rw [hv] at h4; exact_mod_cast h4
    obtain ⟨g1, hg1, hr1⟩ := routesGraph_add_edge db processed g route h u v hu hv hun hvn
    have hstep : add_flight_route db (.ok g) route = .ok g1 := by
      unfold add_flight_route
      simp only
      rw [hu, hv]
      exact hg1
    obtain ⟨g2, hg2, hr2⟩ := ih (processed ++ [route]) g1 hr1
      (fun r hr => hvalid r (List.mem_cons_of_mem _ hr))
    refine ⟨g2, ?_, ?_⟩
    · rw [List.foldl_cons, hstep]
      exact hg2
    · rw [List.append_assoc] at hr2
      exact hr2

theorem routesGraph_empty (db : AirportDatabase) :
    RoutesGraph db [] (AdjacencyListGraph.empty db.size) := by
  have hent : ∀ u, (AdjacencyListGraph.empty db.size).adjacency.getD u [] = [] := by
    intro u
    simp only [AdjacencyListGraph.empty, List.getD_eq_getElem?_getD, List.getElem?_replicate]
    split <;> rfl
  refine ⟨by simp [AdjacencyListGraph.empty, AdjacencyListGraph.vertex_count], ?_, ?_, ?_, ?_⟩
  · intro u v w hm
    rw [hent] at hm
    simp at hm
  · intro r hr
    simp at hr
  · intro u v w hm
    rw [hent] at hm
    simp at hm
  · intro u
    rw [hent]
    simp

/-- The constructor applied to a database whose routes are valid returns a network over that
database whose adjacency lists are those of the routes. -/
theorem constructor_routesGraph (db : AirportDatabase) (hvalid : db.RoutesValid) :
    ∃ graph, AirportNetwork.new db = .ok ⟨db, graph⟩ ∧ RoutesGraph db db.routes graph := by
  obtain ⟨g2, hg2, hr2⟩ := routesGraph_foldl db db.routes [] _ (routesGraph_empty db) hvalid.1
  refine ⟨g2, ?_, by simpa using hr2⟩
  unfold AirportNetwork.new
  rw [hg2]

/-- The weight of an out-edge of the graph of the routes is the distance of a route that joins
its two vertices. -/
theorem routesGraph_edge_weight (db : AirportDatabase) (routes : List FlightRoute)
    (g : AdjacencyListGraph) (h : RoutesGraph db routes g) (u v : Nat)
    (hv : v ∈ g.toGraph.out_edges u) :
    u < db.size ∧ v < db.size ∧ ∃ route ∈ routes,
      ((db.index route.code_one = u ∧ db.index route.code_two = v) ∨
        (db.index route.code_one = v ∧ db.index route.code_two = u)) ∧
      g.toGraph.edge_weight u v = db.distance_miles route.code_one route.code_two := by
  obtain ⟨w, hw⟩ := (mem_out_edges_iff g u v).mp hv
  obtain ⟨h1, h2, route, hr, h3, h4⟩ := h.sound u v w hw
  refine ⟨h1, h2, route, hr, h3, ?_⟩
  rw [← h4]
  exact edge_weight_of_mem g u v w (h.nodup u) hw

/-- A route of a valid database is an edge of the graph of the routes, in both directions, with
the distance of the route as its weight. -/
theorem routesGraph_route (db : AirportDatabase) (g : AdjacencyListGraph)
    (hvalid : db.RoutesValid) (h : RoutesGraph db db.routes g) (route : FlightRoute)
    (hr : route ∈ db.routes) :
    (db.index route.code_two).toNat ∈ g.toGraph.out_edges (db.index route.code_one).toNat ∧
    (db.index route.code_one).toNat ∈ g.toGraph.out_edges (db.index route.code_two).toNat ∧
    g.toGraph.edge_weight (db.index route.code_one).toNat (db.index route.code_two).toNat =
      db.distance_miles route.code_one route.code_two ∧
    g.toGraph.edge_weight (db.index route.code_two).toNat (db.index route.code_one).toNat =
      db.distance_miles route.code_one route.code_two := by
  obtain ⟨h1, _, h3, _⟩ := hvalid.1 route hr
  have hu : db.index route.code_one = ((db.index route.code_one).toNat : Int) :=
    (Int.toNat_of_nonneg h1).symm
  have hv : db.index route.code_two = ((db.index route.code_two).toNat : Int) :=
    (Int.toNat_of_nonneg h3).symm
  obtain ⟨w, hw⟩ := h.complete route hr
  have hw2 := h.symm _ _ w hw
  have hm1 := (mem_out_edges_iff g _ _).mpr ⟨w, hw⟩
  have hm2 := (mem_out_edges_iff g _ _).mpr ⟨w, hw2⟩
  obtain ⟨_, _, r1, hr1, hp1, he1⟩ := routesGraph_edge_weight db db.routes g h _ _ hm1
  obtain ⟨_, _, r2, hr2, hp2, he2⟩ := routesGraph_edge_weight db db.routes g h _ _ hm2
  refine ⟨hm1, hm2, ?_, ?_⟩
  · rw [he1]
    apply hvalid.2 r1 hr1 route hr
    rw [← hu, ← hv] at hp1
    exact hp1
  · rw [he2]
    apply hvalid.2 r2 hr2 route hr
    rw [← hu, ← hv] at hp2
    rcases hp2 with hp2 | hp2
    · exact Or.inr hp2
    · exact Or.inl hp2

/-- One iteration of the main loop preserves the invariant when no relaxation sum over the
out-edges of the current vertex exceeds `INT_MAX`. -/
theorem dijkstra_step_run (g : Graph) (hwf : g.WellFormed) (hnn : g.NonNegative)
    (start : Nat) (hs : start < g.vertex_count)
    (seen : List Bool) (D : List Int) (c : Nat) (inv : DijkstraInv g start seen D)
    (hc : c < seen.length) (hu : seen.getD c false = false) (hd : D.getD c INT_MAX < INT_MAX)
    (hsel : ∀ v, v < seen.length → seen.getD v false = false →
      D.getD c INT_MAX ≤ D.getD v INT_MAX)
    (hfitc : ∀ v ∈ g.out_edges c, g.edge_weight c v + D.getD c INT_MAX ≤ INT_MAX) :
    DijkstraInv g start (seen.set c true) (relax_out_edges g c D) := by
  have hsl := inv.seen_length
  have hdl := inv.dist_length
  have hcn : c < g.vertex_count := hsl ▸ hc
  have hs0 : 0 ≤ D.getD c INT_MAX := (inv.range c hcn).1
  have hmin : ∀ p, IsPath g start c p → D.getD c INT_MAX ≤ path_weight g start p := by
    intro p hp
    have h := dijkstra_lower_bound g hwf hnn start hs seen D inv (D.getD c INT_MAX)
      (fun v hv huv => hsel v (hsl ▸ hv) huv)
      (fun u hun hsu => inv.ordered u c hun hcn hsu hu)
      (fun hst => by
        have := hsel start (hsl ▸ hs) hst
        rwa [inv.start_zero] at this)
      p c hp
    rwa [if_neg (by rw [hu]; simp)] at h
  have hedge : ∀ v ∈ g.out_edges c, v < g.vertex_count ∧ 0 ≤ g.edge_weight c v ∧
      add_int (g.edge_weight c v) (D.getD c INT_MAX) = g.edge_weight c v + D.getD c INT_MAX ∧
      g.edge_weight c v + D.getD c INT_MAX ≤ INT_MAX := by
    intro v hv
    have hw := hnn c hcn v hv
    have hf2 := hfitc v hv
    refine ⟨(hwf c hcn v hv).1, hw, add_int_eq _ _ ?_ hf2, hf2⟩
    have : INT_MIN ≤ 0 := by decide
    linarith
  obtain ⟨pc, hpc, hwc⟩ := inv.realised c hcn hd
  have hself : c ∈ g.out_edges c →
      ¬ add_int (g.edge_weight c c) (D.getD c INT_MAX) < D.getD c INT_MAX := by
    intro hm
    obtain ⟨_, hw, hadd, _⟩ := hedge c hm
    rw [hadd]
    linarith
  -- the new distances
  have hnew : ∀ i, i < g.vertex_count →
      (relax_out_edges g c D).getD i INT_MAX = D.getD i INT_MAX ∨
      (i ∈ g.out_edges c ∧
        (relax_out_edges g c D).getD i INT_MAX = g.edge_weight c i + D.getD c INT_MAX ∧
        g.edge_weight c i + D.getD c INT_MAX < D.getD i INT_MAX) := by
    intro i hi
    rw [relax_out_edges_getD g c D hself i (hdl ▸ hi)]
    by_cases hcond : i ∈ g.out_edges c ∧
        add_int (g.edge_weight c i) (D.getD c INT_MAX) < D.getD i INT_MAX
    · rw [if_pos hcond]
      obtain ⟨_, _, hadd, _⟩ := hedge i hcond.1
      right
      refine ⟨hcond.1, hadd, ?_⟩
      rw [← hadd]; exact hcond.2
    · rw [if_neg hcond]
      exact Or.inl rfl
  have hrelax : ∀ v ∈ g.out_edges c,
      (relax_out_edges g c D).getD v INT_MAX ≤ D.getD c INT_MAX + g.edge_weight c v := by
    intro v hv
    obtain ⟨hvn, _, hadd, _⟩ := hedge v hv
    rw [relax_out_edges_getD g c D hself v (hdl ▸ hvn)]
    by_cases hcond : v ∈ g.out_edges c ∧
        add_int (g.edge_weight c v) (D.getD c INT_MAX) < D.getD v INT_MAX
    · rw [if_pos hcond, hadd]; linarith
    · rw [if_neg hcond]
      have : ¬ add_int (g.edge_weight c v) (D.getD c INT_MAX) < D.getD v INT_MAX :=
        fun h => hcond ⟨hv, h⟩
      rw [hadd] at this
      linarith
  have hle : ∀ i, i < g.vertex_count →
      (relax_out_edges g c D).getD i INT_MAX ≤ D.getD i INT_MAX := by
    intro i hi
    rcases hnew i hi with h | ⟨_, h1, h2⟩
    · rw [h]
    · rw [h1]; exact le_of_lt h2
  have hge : ∀ i, i < g.vertex_count → D.getD c INT_MAX ≤ D.getD i INT_MAX →
      D.getD c INT_MAX ≤ (relax_out_edges g c D).getD i INT_MAX := by
    intro i hi hci
    rcases hnew i hi with h | ⟨hm, h1, _⟩
    · rw [h]; exact hci
    · rw [h1]
      have := (hedge i hm).2.1
      linarith
  have hkeep : ∀ i, i < g.vertex_count → D.getD i INT_MAX ≤ D.getD c INT_MAX →
      (relax_out_edges g c D).getD i INT_MAX = D.getD i INT_MAX := by
    intro i hi hic
    rcases hnew i hi with h | ⟨hm, _, h2⟩
    · exact h
    · have := (hedge i hm).2.1
      linarith
  have hseen : ∀ i, i < g.vertex_count →
      ((seen.set c true).getD i false = true ↔ seen.getD i false = true ∨ i = c) :=
    fun i hi => getD_set_true seen c i (hsl ▸ hi)
  have hunseen : ∀ i, i < g.vertex_count →
      ((seen.set c true).getD i false = false ↔ seen.getD i false = false ∧ i ≠ c) :=
    fun i hi => getD_set_true_eq_false seen c i (hsl ▸ hi)
  refine ⟨by simpa using hsl, by rw [relax_out_edges_length]; exact hdl, ?_, ?_, ?_, ?_, ?_, ?_⟩
  · -- range
    intro v hv
    rcases hnew v hv with h | ⟨hm, h1, _⟩
    · rw [h]; exact inv.range v hv
    · rw [h1]
      obtain ⟨_, hw, _, hf⟩ := hedge v hm
      exact ⟨by linarith, hf⟩
  · -- start_zero
    have h1 := hle start hs
    have h2 := hkeep start hs (by rw [inv.start_zero]; exact hs0)
    rw [h2, inv.start_zero]
  · -- realised
    intro v hv hfin
    rcases hnew v hv with h | ⟨hm, h1, _⟩
    · rw [h] at hfin ⊢; exact inv.realised v hv hfin
    · refine ⟨pc ++ [v], isPath_snoc g start c v pc hpc hm, ?_⟩
      rw [path_weight_snoc, hpc.2, hwc, h1]; ring
  · -- settled
    intro u hun hsu
    rcases (hseen u hun).mp hsu with h | h
    · have hk := hkeep u hun (inv.ordered u c hun hcn h hu)
      rw [hk]
      exact inv.settled u hun h
    · subst h
      rw [hkeep u hun (le_refl _)]
      exact ⟨hd, hmin⟩
  · -- relaxed
    intro u hun hsu v hv
    rcases (hseen u hun).mp hsu with h | h
    · rw [hkeep u hun (inv.ordered u c hun hcn h hu)]
      exact le_trans (hle v (hwf u hun v hv).1) (inv.relaxed u hun h v hv)
    · subst h
      rw [hkeep u hun (le_refl _)]
      exact hrelax v hv
  · -- ordered
    intro u v hun hvn hsu huv
    obtain ⟨huv1, hvc⟩ := (hunseen v hvn).mp huv
    have hcv : D.getD c INT_MAX ≤ D.getD v INT_MAX := hsel v (hsl ▸ hvn) huv1
    rcases (hseen u hun).mp hsu with h | h
    · have huc := inv.ordered u c hun hcn h hu
      rw [hkeep u hun huc]
      exact le_trans huc (hge v hvn hcv)
    · subst h
      rw [hkeep u hun (le_refl _)]
      exact hge v hvn hcv

/-- The result of `shortest_path` on a graph with non-negative weights, in a run in which no
relaxation sum exceeds `INT_MAX`: every entry is at most `INT_MAX` and a lower bound of the
weights of the paths to its vertex, a finite entry is the weight of a path, and the entry of the
start vertex is 0. -/
theorem shortest_path_final_run (g : Graph) (hwf : g.WellFormed) (hnn : g.NonNegative)
    (start : Nat) (hs : start < g.vertex_count)
    (hno : ∀ it ∈ shortest_path_iterations g start, ∀ op ∈ it.operands g,
      op.1 + op.2 ≤ INT_MAX) :
    ∃ r, shortest_path g start = .ok r ∧ r.length = g.vertex_count ∧
      r.getD start INT_MAX = 0 ∧
      ∀ v, v < g.vertex_count →
        (0 ≤ r.getD v INT_MAX ∧ r.getD v INT_MAX ≤ INT_MAX) ∧
        (∀ p, IsPath g start v p → r.getD v INT_MAX ≤ path_weight g start p) ∧
        (r.getD v INT_MAX < INT_MAX →
          ∃ p, IsPath g start v p ∧ path_weight g start p = r.getD v INT_MAX) := by
  obtain ⟨r, hr, hq⟩ := shortest_path_iterations_rule g start hs
    (fun seen D => seen.length = D.length)
    (fun seen D r its =>
      (∀ it ∈ its, ∀ op ∈ it.operands g, op.1 + op.2 ≤ INT_MAX) →
      DijkstraInv g start seen D →
      r.length = g.vertex_count ∧ r.getD start INT_MAX = 0 ∧
      ∀ v, v < g.vertex_count →
        (0 ≤ r.getD v INT_MAX ∧ r.getD v INT_MAX ≤ INT_MAX) ∧
        (∀ p, IsPath g start v p → r.getD v INT_MAX ≤ path_weight g start p) ∧
        (r.getD v INT_MAX < INT_MAX →
          ∃ p, IsPath g start v p ∧ path_weight g start p = r.getD v INT_MAX))
    (fun seen D h => h) (by simp)
    (by
      intro seen r hl hexit _ inv
      have hsl := inv.seen_length
      have hinf : ∀ v, v < g.vertex_count → seen.getD v false = false →
          r.getD v INT_MAX = INT_MAX := by
        intro v hv huv
        have hnc := hexit v (hsl ▸ hv)
        have hge : ¬ r.getD v INT_MAX < INT_MAX := by
          intro hlt
          have := (is_candidate_iff seen r v).mpr ⟨huv, hlt⟩
          rw [hnc] at this
          exact absurd this (by simp)
        exact le_antisymm (inv.range v hv).2 (not_lt.mp hge)
      refine ⟨inv.dist_length, inv.start_zero,
        fun v hv => ⟨inv.range v hv, ?_, inv.realised v hv⟩⟩
      intro p hp
      have h := dijkstra_lower_bound g hwf hnn start hs seen r inv INT_MAX
        (fun u hu huu => le_of_eq (hinf u hu huu).symm)
        (fun u hu _ => (inv.range u hu).2)
        (fun hst => by
          have h1 := hinf start hs hst
          rw [inv.start_zero] at h1
          exact absurd h1 (by decide))
        p v hp
      by_cases hsv : seen.getD v false = true
      · rwa [if_pos hsv] at h
      · rw [if_neg hsv] at h
        rw [hinf v hv (by simpa using hsv)]
        exact h)
    (by
      intro seen D c hl hc hu hd hsel
      refine ⟨by simp only [relax_out_edges_length, List.length_set]; exact hl, ?_⟩
      intro r its hq hno inv
      have hcn : c < g.vertex_count := inv.seen_length ▸ hc
      have hfitc := relaxation_operands_fit g c (g.out_edges c) D
        (fun v hv => hnn c hcn v hv) (inv.range c hcn).1
        (hno ⟨c, seen, D⟩ (List.mem_cons_self _ _))
      exact hq (fun it hit => hno it (List.mem_cons_of_mem _ hit))
        (dijkstra_step_run g hwf hnn start hs seen D c inv hc hu hd hsel hfitc))
  exact ⟨r, hr, hq hno (dijkstra_init g start hs)⟩

/-- In an undirected graph with non-negative weights, when no relaxation sum of the run from
`u` exceeds `INT_MAX`, the entry of `v` in the result from `u` is at most the weight of every
path from `v` to `u`, and a finite entry is the weight of a path from `u` to `v`. -/
theorem shortest_path_le_reverse_run (g : Graph) (hwf : g.WellFormed) (hnn : g.NonNegative)
    (hund : g.Undirected) (u v : Nat) (hu : u < g.vertex_count) (hv : v < g.vertex_count)
    (hno : ∀ it ∈ shortest_path_iterations g u, ∀ op ∈ it.operands g,
      op.1 + op.2 ≤ INT_MAX) :
    ∃ r, shortest_path g u = .ok r ∧ r.length = g.vertex_count ∧
      r.getD v INT_MAX ≤ INT_MAX ∧
      (∀ q, IsPath g v u q → r.getD v INT_MAX ≤ path_weight g v q) ∧
      (r.getD v INT_MAX < INT_MAX →
        ∃ p, IsPath g u v p ∧ path_weight g u p = r.getD v INT_MAX) := by
  obtain ⟨r, hr, hlen, _, hall⟩ := shortest_path_final_run g hwf hnn u hu hno
  obtain ⟨⟨_, hmax⟩, hlow, hreal⟩ := hall v hv
  refine ⟨r, hr, hlen, hmax, ?_, hreal⟩
  intro q hq
  obtain ⟨p, hp, hw⟩ := isPath_reverse g hwf hund v hv q u hq
  rw [← hw]
  exact hlow p hp

/-- On non-negative weights, when no relaxation sum of the run exceeds `INT_MAX`, the entry of
the start vertex in the result is 0. -/
theorem start_entry_zero_run (g : Graph) (start : Nat) (hnn : g.NonNegative)
    (hs : start < g.vertex_count)
    (hno : ∀ it ∈ shortest_path_iterations g start, ∀ op ∈ it.operands g,
      op.1 + op.2 ≤ INT_MAX) :
    ∃ r, shortest_path g start = .ok r ∧ r.length = g.vertex_count ∧
      r.getD start INT_MAX = 0 := by
  obtain ⟨r, hr, hq⟩ := shortest_path_iterations_rule g start hs
    (fun seen D => seen.length = g.vertex_count ∧ D.length = g.vertex_count)
    (fun _ D r its =>
      (∀ it ∈ its, ∀ op ∈ it.operands g, op.1 + op.2 ≤ INT_MAX) →
      (∀ v, v < g.vertex_count → 0 ≤ D.getD v INT_MAX) → D.getD start INT_MAX = 0 →
      r.length = g.vertex_count ∧ r.getD start INT_MAX = 0)
    (fun seen D h => h.1.trans h.2.symm) ⟨by simp, by simp⟩
    (by
      intro seen D h _ _ _ h0
      exact ⟨h.2, h0⟩)
    (by
      intro seen D c ⟨hsl, hdl⟩ hc _ _ _
      have hcn : c < g.vertex_count := hsl ▸ hc
      refine ⟨⟨by simpa using hsl, by rw [relax_out_edges_length]; exact hdl⟩, ?_⟩
      intro r its hq hno hpos h0
      have hfitc := relaxation_operands_fit g c (g.out_edges c) D
        (fun v hv => hnn c hcn v hv) (hpos c hcn)
        (hno ⟨c, seen, D⟩ (List.mem_cons_self _ _))
      have hedge : ∀ v ∈ g.out_edges c,
          0 ≤ g.edge_weight c v ∧ g.edge_weight c v + D.getD c INT_MAX ≤ INT_MAX :=
        fun v hv => ⟨hnn c hcn v hv, hfitc v hv⟩
      have hnew := fun i (hi : i < g.vertex_count) =>
        relax_out_edges_cases g c D (hpos c hcn) hedge i (hdl ▸ hi)
      apply hq (fun it hit => hno it (List.mem_cons_of_mem _ hit))
      · intro v hv
        rcases hnew v hv with h | ⟨hm, h1, _⟩
        · rw [h]; exact hpos v hv
        · rw [h1]
          have := (hedge v hm).1
          have := hpos c hcn
          linarith
      · rcases hnew start hs with h | ⟨hm, _, h2⟩
        · rw [h]; exact h0
        · have := (hedge start hm).1
          have := hpos c hcn
          rw [h0] at h2
          linarith)
  have hD : ∀ v, ((List.replicate g.vertex_count INT_MAX).set start 0).getD v INT_MAX =
      if start = v then 0 else INT_MAX := by
    intro v
    rw [getD_set_eq_ite]
    by_cases h : start = v
    · subst h
      rw [if_pos ⟨rfl, by simpa using hs⟩, if_pos rfl]
    · simp only [h, false_and, if_false, List.getD_eq_getElem?_getD, List.getElem?_replicate]
      split <;> rfl
  refine ⟨r, hr, hq hno ?_ ?_⟩
  · intro v _
    rw [hD]
    split
    · exact le_refl _
    · decide
  · rw [hD, if_pos rfl]

/-! ## Claims -/

/-- C2: for a valid start vertex, `distance_at_most_two` returns a vector with one entry per
vertex in which entry `i` is true exactly when `i` is `start`, an out-edge neighbour of `start`,
or an out-edge neighbour of such a neighbour; these are exactly the vertices reached by a path of
at most two edges, and the entry of `start` is true. -/
theorem distance_at_most_two_spec (g : Graph) (start : Nat) (hs : start < g.vertex_count) :
    ∃ seen, distance_at_most_two g start = .ok seen ∧ seen.length = g.vertex_count ∧
      seen[start]? = some true ∧
      ∀ i, i < g.vertex_count →
        ((seen[i]? = some true ↔
          (i = start ∨ i ∈ g.out_edges start ∨ ∃ j ∈ g.out_edges start, i ∈ g.out_edges j)) ∧
         (seen[i]? = some true ↔ ∃ p, IsPath g start i p ∧ p.length ≤ 2)) := by
  refine ⟨_, distance_at_most_two_eq g start hs, ?_, ?_, ?_⟩
  · simp [foldl_mark_neighbour_length]
  · have hlen : start < ((List.replicate g.vertex_count false).set start true).length := by
      simpa using hs
    have h := (foldl_mark_neighbour_getD g _ (g.out_edges start) start hlen).mpr
      (Or.inl (by rw [getD_set_eq_ite]; simp [hs]))
    rw [getElem?_eq_some_getD _ start false (by rw [foldl_mark_neighbour_length]; exact hlen), h]
  · intro i hi
    have hlen : i < ((List.replicate g.vertex_count false).set start true).length := by
      simpa using hi
    have key : ((g.out_edges start).foldl (mark_neighbour g)
        ((List.replicate g.vertex_count false).set start true))[i]? = some true ↔
        (i = start ∨ i ∈ g.out_edges start ∨ ∃ j ∈ g.out_edges start, i ∈ g.out_edges j) := by
      rw [getElem?_eq_some_getD _ i false (by rw [foldl_mark_neighbour_length]; exact hlen)]
      simp only [Option.some.injEq]
      rw [foldl_mark_neighbour_getD g _ _ i hlen, getD_set_eq_ite]
      have hrep : (List.replicate g.vertex_count false).getD i false = false := by
        simp [List.getD_eq_getElem?_getD, List.getElem?_replicate, hi]
      rw [hrep]
      constructor
      · rintro (h | ⟨j, hj, h | h⟩)
        · by_cases e : start = i
          · exact Or.inl e.symm
          · simp [e] at h
        · exact Or.inr (Or.inl (h ▸ hj))
        · exact Or.inr (Or.inr ⟨j, hj, h⟩)
      · rintro (h | h | ⟨j, hj, h⟩)
        · left; simp [h, hs]
        · exact Or.inr ⟨i, h, Or.inl rfl⟩
        · exact Or.inr ⟨j, hj, Or.inr h⟩
    exact ⟨key, key.trans (two_hops_iff_short_path g start i)⟩

/-- Witness of C2 on the line graph `0 - 1 - 2` from vertex 0. -/
theorem distance_at_most_two_spec_witness :
    (0 : Nat) < line_graph.vertex_count ∧
    ∃ seen, distance_at_most_two line_graph (0 : Nat) = .ok seen ∧
      seen.length = line_graph.vertex_count ∧ seen[0]? = some true ∧
      ∀ i, i < line_graph.vertex_count →
        ((seen[i]? = some true ↔
          (i = 0 ∨ i ∈ line_graph.out_edges 0 ∨
            ∃ j ∈ line_graph.out_edges 0, i ∈ line_graph.out_edges j)) ∧
         (seen[i]? = some true ↔ ∃ p, IsPath line_graph 0 i p ∧ p.length ≤ 2)) :=
  ⟨by decide, distance_at_most_two_spec line_graph 0 (by decide)⟩

/-- C4: for every integer `start`, `shortest_path` and `distance_at_most_two` throw the range
error exactly when `start` is outside `[0, vertex_count)`; for `start` inside the range both
return a vector; and when the range error is thrown the log of queries made to the graph
(`out_edges`, `edge_weight`) is empty. -/
theorem range_error_iff (g : Graph) (start : Int) :
    (shortest_path g start = .error .range_error ↔ ¬ (0 ≤ start ∧ start < g.vertex_count)) ∧
    (distance_at_most_two g start = .error .range_error ↔
      ¬ (0 ≤ start ∧ start < g.vertex_count)) ∧
    ((0 ≤ start ∧ start < g.vertex_count) →
      (∃ r, shortest_path g start = .ok r) ∧ (∃ r, distance_at_most_two g start = .ok r)) ∧
    ((shortest_path_traced g start).1 = shortest_path g start ∧
      (distance_at_most_two_traced g start).1 = distance_at_most_two g start) ∧
    (¬ (0 ≤ start ∧ start < g.vertex_count) →
      shortest_path_traced g start = (.error .range_error, []) ∧
      distance_at_most_two_traced g start = (.error .range_error, [])) := by
  have hin : (0 ≤ start ∧ start < g.vertex_count) →
      (∃ r, shortest_path g start = .ok r) ∧ (∃ r, distance_at_most_two g start = .ok r) := by
    rintro ⟨h0, h1⟩
    obtain ⟨n, rfl⟩ := Int.eq_ofNat_of_zero_le h0
    have hn : n < g.vertex_count := by exact_mod_cast h1
    obtain ⟨r, hr, _⟩ := shortest_path_returns g n hn
    exact ⟨⟨r, hr⟩, ⟨_, distance_at_most_two_eq g n hn⟩⟩
  have hout : ¬ (0 ≤ start ∧ start < g.vertex_count) →
      (start ≥ g.vertex_count ∨ start < 0) := by
    intro h; omega
  refine ⟨⟨?_, ?_⟩, ⟨?_, ?_⟩, hin, ⟨shortest_path_traced_fst g start,
    distance_at_most_two_traced_fst g start⟩, ?_⟩
  · intro h hr
    obtain ⟨⟨r, hr2⟩, _⟩ := hin hr
    rw [hr2] at h
    exact absurd h (by simp)
  · intro h
    unfold shortest_path
    rw [if_pos (hout h)]
  · intro h hr
    obtain ⟨_, ⟨r, hr2⟩⟩ := hin hr
    rw [hr2] at h
    exact absurd h (by simp)
  · intro h
    unfold distance_at_most_two
    rw [if_pos (hout h)]
  · intro h
    unfold shortest_path_traced distance_at_most_two_traced
    rw [if_pos (hout h), if_pos (hout h)]
    exact ⟨rfl, rfl⟩

/-- Witness of C4 on the line graph: the start vertex 3 is out of range and 1 is in range. -/
theorem range_error_iff_witness :
    ¬ ((0 : Int) ≤ 3 ∧ (3 : Int) < line_graph.vertex_count) ∧
    ((0 : Int) ≤ 1 ∧ (1 : Int) < line_graph.vertex_count) ∧
    shortest_path_traced line_graph 3 = (.error .range_error, []) ∧
    distance_at_most_two_traced line_graph 3 = (.error .range_error, []) ∧
    (∃ r, shortest_path line_graph 1 = .ok r) ∧
    (∃ r, distance_at_most_two line_graph 1 = .ok r) :=
  ⟨by decide, by decide,
    ((range_error_iff line_graph 3).2.2.2.2 (by decide)).1,
    ((range_error_iff line_graph 3).2.2.2.2 (by decide)).2,
    ((range_error_iff line_graph 1).2.2.1 (by decide)).1,
    ((range_error_iff line_graph 1).2.2.1 (by decide)).2⟩

/-- C1 (amended): for a graph that satisfies the graph contract, has non-negative weights and
whose relaxations fit the `int` range (a minimum-weight path extended by one out-edge has weight
at most `INT_MAX`), a valid start vertex and a vertex `v` reachable from it, the entry of `v` in
`shortest_path` is the minimum of the weights of the paths from `start` to `v`. -/
theorem shortest_path_minimum (g : Graph) (start v : Nat) (hwf : g.WellFormed)
    (hnn : g.NonNegative) (hs : start < g.vertex_count)
    (hfit : RelaxationsFit g start INT_MAX) (hreach : Reachable g start v) :
    ∃ r d, shortest_path g start = .ok r ∧ r[v]? = some d ∧ IsMinPathWeight g start v d := by
  obtain ⟨r, hr, hlen, _, hall⟩ := shortest_path_final g hwf hnn start hs hfit
  obtain ⟨p0, hp0⟩ := hreach
  have hv := isPath_valid g hwf start hs p0 v hp0
  obtain ⟨⟨_, hmax⟩, hlow, hreal⟩ := hall v hv
  refine ⟨r, r.getD v INT_MAX, hr, getElem?_eq_some_getD r v INT_MAX (hlen ▸ hv), ?_, hlow⟩
  by_cases hfin : r.getD v INT_MAX < INT_MAX
  · exact hreal hfin
  · obtain ⟨q, hq, hqb⟩ := exists_path_le_bound g hwf hnn start hs INT_MAX (by decide) hfit p0 v hp0
    have h1 := hlow q hq
    exact ⟨q, hq, le_antisymm (le_trans hqb (not_lt.mp hfin)) h1⟩

/-- Witness of C1 on the line graph `0 - 1 - 2` (weights 100 and 50), from 0 to 2. -/
theorem shortest_path_minimum_witness :
    line_graph.WellFormed ∧ line_graph.NonNegative ∧ 0 < line_graph.vertex_count ∧
    RelaxationsFit line_graph 0 INT_MAX ∧ Reachable line_graph 0 2 ∧
    ∃ r d, shortest_path line_graph (0 : Nat) = .ok r ∧ r[2]? = some d ∧
      IsMinPathWeight line_graph 0 2 d :=
  have hfit : RelaxationsFit line_graph 0 INT_MAX := line_graph_fit 0 (by decide)
  ⟨by decide, by decide, by decide, hfit, ⟨[1, 2], by decide⟩,
    shortest_path_minimum line_graph 0 2 (by decide) (by decide) (by decide) hfit
      ⟨[1, 2], by decide⟩⟩

/-- Counterexample to C1 as stated: in `far_graph` (edges `0 → 1` of weight `INT_MAX` and `1 → 2`
of weight 1, a well-formed graph with non-negative weights) vertex 2 is reachable from 0, the
result is `[0, INT_MAX, INT_MAX]`, and its entry for vertex 2 is not the minimum path weight,
which is `INT_MAX + 1`. -/
theorem shortest_path_minimum_counterexample :
    far_graph.WellFormed ∧ far_graph.NonNegative ∧ 0 < far_graph.vertex_count ∧
    Reachable far_graph 0 2 ∧
    shortest_path far_graph (0 : Nat) = .ok [0, 2147483647, 2147483647] ∧
    ¬ ∃ r d, shortest_path far_graph (0 : Nat) = .ok r ∧ r[2]? = some d ∧
      IsMinPathWeight far_graph 0 2 d := by
  have hres : shortest_path far_graph (0 : Nat) = .ok [0, 2147483647, 2147483647] := by decide
  refine ⟨by decide, by decide, by decide, ⟨[1, 2], by decide⟩, hres, ?_⟩
  rintro ⟨r, d, hr, hd, ⟨p, hp, hw⟩, _⟩
  rw [hres] at hr
  injection hr with hr
  subst hr
  have hd2 : d = 2147483647 := by simpa using hd.symm
  -- every path from 0 to 2 weighs at least `INT_MAX + 1`
  have hlow := path_weight_lower_bound far_graph (by decide) 0 (by decide)
    (fun v => match v with
      | 0 => 0
      | 1 => 2147483647
      | 2 => 2147483648
      | _ => 0)
    (le_refl 0)
    (by
      intro u hu v hv
      have hu3 : u < 3 := hu
      interval_cases u
      · simp [far_graph] at hv; subst hv; decide
      · simp [far_graph] at hv; subst hv; decide
      · simp [far_graph] at hv)
    p 2 hp
  simp only at hlow
  omega

/-- C5 (amended): for a graph that satisfies the graph contract and has non-negative weights and a
valid start vertex, the entry of every vertex that is not reachable from `start` is the sentinel
`INT_MAX`; conversely, when every minimum-weight path extended by one out-edge has weight below
`INT_MAX`, an entry equal to the sentinel belongs to an unreachable vertex. -/
theorem shortest_path_sentinel (g : Graph) (start v : Nat) (hwf : g.WellFormed)
    (hnn : g.NonNegative) (hs : start < g.vertex_count) (hv : v < g.vertex_count) :
    ∃ r, shortest_path g start = .ok r ∧
      (¬ Reachable g start v → r[v]? = some INT_MAX) ∧
      (RelaxationsFit g start (INT_MAX - 1) → r[v]? = some INT_MAX → ¬ Reachable g start v) := by
  obtain ⟨r, hr, hlen, hfin⟩ := shortest_path_finite_reachable g start hs
  refine ⟨r, hr, ?_, ?_⟩
  · intro hnr
    rcases hfin v hv with h | h
    · rw [getElem?_eq_some_getD r v INT_MAX (hlen ▸ hv), h]
    · exact absurd h hnr
  · intro hfit hsent ⟨p0, hp0⟩
    have hfit2 := relaxationsFit_mono g start (INT_MAX - 1) INT_MAX (by decide) hfit
    obtain ⟨r2, hr2, _, _, hall⟩ := shortest_path_final g hwf hnn start hs hfit2
    rw [hr] at hr2
    injection hr2 with hr2
    subst hr2
    obtain ⟨_, hlow, _⟩ := hall v hv
    obtain ⟨q, hq, hqb⟩ := exists_path_le_bound g hwf hnn start hs (INT_MAX - 1) (by decide)
      hfit p0 v hp0
    have h1 := hlow q hq
    rw [getD_eq_of_getElem? r v INT_MAX INT_MAX hsent] at h1
    linarith

/-- Counterexample to C5 as stated: in `sentinel_graph` (the single edge `0 → 1` of weight
`INT_MAX`) the entry of vertex 1 is the sentinel although vertex 1 is reachable from 0. -/
theorem shortest_path_sentinel_counterexample :
    sentinel_graph.WellFormed ∧ sentinel_graph.NonNegative ∧ 0 < sentinel_graph.vertex_count ∧
    shortest_path sentinel_graph (0 : Nat) = .ok [0, INT_MAX] ∧
    Reachable sentinel_graph 0 1 :=
  ⟨by decide, by decide, by decide, by decide, ⟨[1], by decide⟩⟩

/-- C6 (amended): for a graph with non-negative edge weights and a valid start vertex, in a run
of `shortest_path` in which no relaxation sum `edge_weight + shortest[current_vertex]` exceeds
`INT_MAX`, the entry of the start vertex in the result is 0. -/
theorem shortest_path_start_zero (g : Graph) (start : Nat) (hnn : g.NonNegative)
    (hs : start < g.vertex_count)
    (hno : ∀ it ∈ shortest_path_iterations g start, ∀ op ∈ it.operands g,
      op.1 + op.2 ≤ INT_MAX) :
    ∃ r, shortest_path g start = .ok r ∧ r[start]? = some 0 := by
  obtain ⟨r, hr, hlen, h0⟩ := start_entry_zero_run g start hnn hs hno
  refine ⟨r, hr, ?_⟩
  rw [getElem?_eq_some_getD r start INT_MAX (hlen ▸ hs), h0]

/-- Witness of C6 on `far_graph` from vertex 0 and on the line graph from vertex 1. -/
theorem shortest_path_start_zero_witness :
    (far_graph.NonNegative ∧ 0 < far_graph.vertex_count ∧
      (∀ it ∈ shortest_path_iterations far_graph (0 : Nat), ∀ op ∈ it.operands far_graph,
        op.1 + op.2 ≤ INT_MAX) ∧
      ∃ r, shortest_path far_graph (0 : Nat) = .ok r ∧ r[0]? = some 0) ∧
    (line_graph.NonNegative ∧ 1 < line_graph.vertex_count ∧
      (∀ it ∈ shortest_path_iterations line_graph (1 : Nat), ∀ op ∈ it.operands line_graph,
        op.1 + op.2 ≤ INT_MAX) ∧
      ∃ r, shortest_path line_graph (1 : Nat) = .ok r ∧ r[1]? = some 0) :=
  ⟨⟨by decide, by decide, by decide,
      shortest_path_start_zero far_graph 0 (by decide) (by decide) (by decide)⟩,
    ⟨by decide, by decide, by decide,
      shortest_path_start_zero line_graph 1 (by decide) (by decide) (by decide)⟩⟩

/-- Counterexample to C6 as stated: in `heavy_graph` (two vertices joined in both directions by
an edge of weight `2^30`) the relaxation of the edge back to the start vertex computes
`2^30 + 2^30`, which leaves the `int` range, and the entry of the start vertex becomes
`INT_MIN`. -/
theorem shortest_path_start_zero_counterexample :
    heavy_graph.WellFormed ∧ heavy_graph.NonNegative ∧ 0 < heavy_graph.vertex_count ∧
    shortest_path heavy_graph (0 : Nat) = .ok [-2147483648, 1073741824] ∧
    ¬ ∃ r, shortest_path heavy_graph (0 : Nat) = .ok r ∧ r[0]? = some 0 := by
  have hres : shortest_path heavy_graph (0 : Nat) = .ok [-2147483648, 1073741824] := by decide
  refine ⟨by decide, by decide, by decide, hres, ?_⟩
  rintro ⟨r, hr, h0⟩
  rw [hres] at hr
  injection hr with hr
  subst hr
  simp at h0

/-- Witness of C5 on `sentinel_graph` from vertex 1, from which vertex 0 is not reachable. -/
theorem shortest_path_sentinel_witness :
    sentinel_graph.WellFormed ∧ sentinel_graph.NonNegative ∧ 1 < sentinel_graph.vertex_count ∧
    0 < sentinel_graph.vertex_count ∧
    ∃ r, shortest_path sentinel_graph (1 : Nat) = .ok r ∧
      (¬ Reachable sentinel_graph 1 0 → r[0]? = some INT_MAX) ∧
      (RelaxationsFit sentinel_graph 1 (INT_MAX - 1) → r[0]? = some INT_MAX →
        ¬ Reachable sentinel_graph 1 0) :=
  ⟨by decide, by decide, by decide, by decide,
    shortest_path_sentinel sentinel_graph 1 0 (by decide) (by decide) (by decide) (by decide)⟩

/-- C3 (failing input): `A` is a known code of the database `abc_database`, the code of the
airport at index 0; the constructor builds the network `abc_network` from that database, and both
`at_most_one_layover("A")` and `least_distance("A")` throw the invalid-argument error, while the
queries for the known code `B` return and those for the unknown code `Z` throw. -/
theorem known_code_rejected :
    abc_database.Known "A" ∧ abc_database.index "A" = 0 ∧ abc_database.code 0 = "A" ∧
    (AirportNetwork.new abc_database).map (fun n => n.airport_graph_) = .ok abc_graph ∧
    abc_network.at_most_one_layover "A" = .error .invalid_argument ∧
    abc_network.least_distance "A" = .error .invalid_argument ∧
    abc_database.Known "B" ∧
    (∃ r, abc_network.at_most_one_layover "B" = .ok r) ∧
    (∃ r, abc_network.least_distance "B" = .ok r) ∧
    ¬ abc_database.Known "Z" ∧
    abc_network.at_most_one_layover "Z" = .error .invalid_argument ∧
    abc_network.least_distance "Z" = .error .invalid_argument := by
  refine ⟨⟨0, by decide, by decide, by decide⟩, by decide, by decide, by decide, by decide,
    by decide, ⟨1, by decide, by decide, by decide⟩,
    ⟨["A", "B", "C"], by decide⟩, ⟨[100, 0, 50], by decide⟩, ?_, by decide, by decide⟩
  rintro ⟨i, hi, hc, _⟩
  have hi3 : i < 3 := hi
  interval_cases i <;> exact absurd hc (by decide)

/-- C7 (failing input): for the airports `A`, `B`, `C` at indices 0, 1, 2 with the routes `A - B`
of weight 100 and `B - C` of weight 50, `least_distance("A")` throws the invalid-argument error,
although `A` is known and `shortest_path` from vertex `index("A")` over the graph of the network
is `[0, 100, 150]`; for `B` and `C` the query returns the shortest-path distance vector. -/
theorem least_distance_example :
    abc_database.Known "A" ∧
    abc_network.least_distance "A" = .error .invalid_argument ∧
    shortest_path abc_network.airport_graph_.toGraph (abc_database.index "A") =
      .ok [0, 100, 150] ∧
    abc_network.least_distance "B" = .ok [100, 0, 50] ∧
    abc_network.least_distance "C" = .ok [150, 50, 0] :=
  ⟨⟨0, by decide, by decide, by decide⟩, by decide, by decide, by decide, by decide⟩

/-- C8 (failing input): for the airports `A`, `B`, `C` with the routes `A - B` and `B - C`,
`at_most_one_layover("A")` throws the invalid-argument error, although `A` is known and the
vertices within distance two of vertex `index("A")` translate to the codes `A`, `B`, `C`; for `B`
and `C` the query returns these codes in index order. -/
theorem at_most_one_layover_example :
    abc_database.Known "A" ∧
    abc_network.at_most_one_layover "A" = .error .invalid_argument ∧
    (distance_at_most_two abc_network.airport_graph_.toGraph (abc_database.index "A")).map
      (collect_codes abc_database) = .ok ["A", "B", "C"] ∧
    abc_network.at_most_one_layover "B" = .ok ["A", "B", "C"] ∧
    abc_network.at_most_one_layover "C" = .ok ["A", "B", "C"] :=
  ⟨⟨0, by decide, by decide, by decide⟩, by decide, by decide, by decide, by decide⟩

/-- C9 (failing input): in `isolated_database` the airport `D` has index 0 and no routes. The
traversal functions from its vertex return `[0, INT_MAX, INT_MAX]` and `[true, false, false]`,
but `least_distance("D")` and `at_most_one_layover("D")` throw the invalid-argument error. -/
theorem isolated_airport_example :
    isolated_database.Known "D" ∧
    (AirportNetwork.new isolated_database).map (fun n => n.airport_graph_) = .ok isolated_graph ∧
    isolated_network.airport_graph_.toGraph.out_edges 0 = [] ∧
    shortest_path isolated_network.airport_graph_.toGraph (isolated_database.index "D") =
      .ok [0, INT_MAX, INT_MAX] ∧
    distance_at_most_two isolated_network.airport_graph_.toGraph (isolated_database.index "D") =
      .ok [true, false, false] ∧
    isolated_network.least_distance "D" = .error .invalid_argument ∧
    isolated_network.at_most_one_layover "D" = .error .invalid_argument :=
  ⟨⟨0, by decide, by decide, by decide⟩, by decide, by decide, by decide, by decide, by decide,
    by decide⟩

/-- C10: two graph representations with the same vertex count that store the same edges give
identical results of `shortest_path` and of `distance_at_most_two` for every valid start vertex.
For `shortest_path` the edges are those of the data model, which join two distinct vertices, so
that no vertex is its own out-edge neighbour; no condition on the weights or on the sums is
needed. -/
theorem representation_independence (g1 g2 : Graph) (start : Nat) (hsame : SameEdges g1 g2)
    (hwf : g1.WellFormed) (hs : start < g1.vertex_count) :
    (g1.NoSelfLoops →
      ∃ r, shortest_path g1 start = .ok r ∧ shortest_path g2 start = .ok r) ∧
    (∃ r, distance_at_most_two g1 start = .ok r ∧ distance_at_most_two g2 start = .ok r) := by
  have hn := hsame.1
  constructor
  · intro hno
    have hsp : shortest_path g1 start = shortest_path g2 start := by
      rw [shortest_path_eq_loop g1 start hs, shortest_path_eq_loop g2 start (hn ▸ hs), ← hn]
      refine shortest_path_loop_congr g1 g2 hsame
        (fun seen D => seen.length = g1.vertex_count ∧ D.length = g1.vertex_count)
        (fun seen D h => h) ?_ _ _ _ _ ⟨by simp, by simp⟩
      intro seen D c h hc _ _ _
      exact ⟨⟨by simpa using h.1, by rw [relax_out_edges_length]; exact h.2⟩,
        fun hm => absurd hm (hno c (h.1 ▸ hc))⟩
    obtain ⟨r, hr, _⟩ := shortest_path_returns g1 start hs
    exact ⟨r, hr, hsp ▸ hr⟩
  · refine ⟨_, distance_at_most_two_eq g1 start hs, ?_⟩
    rw [← distance_at_most_two_congr g1 g2 hsame hwf start hs]
    exact distance_at_most_two_eq g1 start hs

/-- Witness of C10 on the line graph and the same graph with the out-edges of vertex 1
enumerated in the opposite order, from vertex 0. -/
theorem representation_independence_witness :
    SameEdges line_graph line_graph_two ∧ line_graph.WellFormed ∧
    0 < line_graph.vertex_count ∧ line_graph.NoSelfLoops ∧
    (∃ r, shortest_path line_graph (0 : Nat) = .ok r ∧
      shortest_path line_graph_two (0 : Nat) = .ok r) ∧
    (∃ r, distance_at_most_two line_graph (0 : Nat) = .ok r ∧
      distance_at_most_two line_graph_two (0 : Nat) = .ok r) :=
  have hsame : SameEdges line_graph line_graph_two := by
    refine ⟨rfl, ?_, fun _ _ _ _ => rfl⟩
    intro u hu v
    have hu3 : u < 3 := hu
    interval_cases u <;> simp [line_graph, line_graph_two, or_comm]
  ⟨hsame, by decide, by decide, by decide,
    (representation_independence line_graph line_graph_two 0 hsame (by decide)
      (by decide)).1 (by decide),
    (representation_independence line_graph line_graph_two 0 hsame (by decide)
      (by decide)).2⟩

/-- Outside the data model, where a vertex may be its own out-edge neighbour, the enumeration
order can matter: `loop_graph_one` and `loop_graph_two` have the same vertex count, the same
out-edge sets (vertex 1 enumerates `[1, 2]` in one and `[2, 1]` in the other) and the same
non-negative weights, but `shortest_path` from vertex 0 returns different vectors, because the
relaxation of the edge from vertex 1 to itself leaves the `int` range and changes the distance
of the current vertex before or after the edge to vertex 2 is relaxed. -/
theorem self_loop_order_dependence :
    SameEdges loop_graph_one loop_graph_two ∧ loop_graph_one.WellFormed ∧
    loop_graph_two.WellFormed ∧ loop_graph_one.NonNegative ∧ loop_graph_two.NonNegative ∧
    ¬ loop_graph_one.NoSelfLoops ∧
    0 < loop_graph_one.vertex_count ∧
    shortest_path loop_graph_one (0 : Nat) = .ok [0, -2147483648, -2147483643] ∧
    shortest_path loop_graph_two (0 : Nat) = .ok [0, -2147483648, 6] ∧
    shortest_path loop_graph_one (0 : Nat) ≠ shortest_path loop_graph_two (0 : Nat) := by
  refine ⟨⟨rfl, ?_, fun _ _ _ _ => rfl⟩, by decide, by decide, by decide, by decide, by decide,
    by decide, by decide, by decide, by decide⟩
  intro u hu v
  have hu3 : u < 3 := hu
  interval_cases u <;> simp [loop_graph_one, loop_graph_two, or_comm]

/-- C13: for equal-length vectors `visited` and `distance`, whenever
`next_current_for_shortest_path` returns true, `next_current` is an unvisited vertex with a
finite tentative distance, its distance is the minimum over the unvisited vertices with a finite
distance, and among the vertices that attain this minimum it has the smallest index. -/
theorem next_current_selects_minimum (visited : List Bool) (distance : List Int)
    (next_current c : Nat) (hlen : visited.length = distance.length)
    (hret : next_current_for_shortest_path visited distance next_current = .ok (true, c)) :
    c < visited.length ∧ visited.getD c false = false ∧ distance.getD c INT_MAX < INT_MAX ∧
    (∀ v, v < visited.length → visited.getD v false = false →
      distance.getD v INT_MAX < INT_MAX → distance.getD c INT_MAX ≤ distance.getD v INT_MAX) ∧
    (∀ v, v < visited.length → visited.getD v false = false →
      distance.getD v INT_MAX = distance.getD c INT_MAX → c ≤ v) := by
  by_cases hex : ∃ v, v < visited.length ∧ is_candidate visited distance v = true
  · obtain ⟨c2, hnc, hc, hu, hd, hmin, hfirst⟩ :=
      next_current_true visited distance next_current hlen hex
    rw [hnc] at hret
    injection hret with hret
    injection hret with _ hcc
    subst hcc
    refine ⟨hc, hu, hd, fun v hv huv _ => hmin v hv huv, ?_⟩
    intro v _ huv heq
    by_contra hlt
    have := hfirst v (not_le.mp hlt) huv
    rw [heq] at this
    exact lt_irrefl _ this
  · have hnone : ∀ v, v < visited.length → is_candidate visited distance v = false := by
      intro v hv
      by_contra hcv
      exact hex ⟨v, hv, by simpa using hcv⟩
    rw [next_current_false visited distance next_current hlen hnone] at hret
    injection hret with hret
    injection hret with hb _
    exact absurd hb (by decide)

/-- Witness of C13: of the unvisited vertices 1, 2, 3 with distances 7, 5, 5 the function
selects vertex 2. -/
theorem next_current_selects_minimum_witness :
    [true, false, false, false].length = [0, 7, 5, 5].length ∧
    next_current_for_shortest_path [true, false, false, false] [0, 7, 5, 5] 0 = .ok (true, 2) ∧
    (2 < [true, false, false, false].length ∧
      [true, false, false, false].getD 2 false = false ∧
      ([0, 7, 5, 5] : List Int).getD 2 INT_MAX < INT_MAX ∧
      (∀ v, v < [true, false, false, false].length →
        [true, false, false, false].getD v false = false →
        ([0, 7, 5, 5] : List Int).getD v INT_MAX < INT_MAX →
        ([0, 7, 5, 5] : List Int).getD 2 INT_MAX ≤ ([0, 7, 5, 5] : List Int).getD v INT_MAX) ∧
      (∀ v, v < [true, false, false, false].length →
        [true, false, false, false].getD v false = false →
        ([0, 7, 5, 5] : List Int).getD v INT_MAX = ([0, 7, 5, 5] : List Int).getD 2 INT_MAX →
        2 ≤ v)) :=
  ⟨by decide, by decide,
    next_current_selects_minimum [true, false, false, false] [0, 7, 5, 5] 0 2 (by decide)
      (by decide)⟩

/-- C14: for equal-length vectors the function returns, and it returns false exactly when no
unvisited vertex has a tentative distance below the sentinel; when it returns false the value
of `next_current` is the one passed in. Accordingly the loop of `shortest_path` returns the
distance vector as it stands when no such vertex remains, and otherwise runs its body for the
selected vertex. -/
theorem next_current_false_iff (visited : List Bool) (distance : List Int) (next_current : Nat)
    (hlen : visited.length = distance.length) :
    (∃ b c, next_current_for_shortest_path visited distance next_current = .ok (b, c) ∧
      (b = false ↔ ∀ v, v < visited.length →
        ¬ (visited.getD v false = false ∧ distance.getD v INT_MAX < INT_MAX)) ∧
      (b = false → c = next_current)) ∧
    ((∀ v, v < visited.length →
        ¬ (visited.getD v false = false ∧ distance.getD v INT_MAX < INT_MAX)) →
      ∀ (g : Graph) (fuel : Nat),
        shortest_path_loop g (fuel + 1) visited distance next_current = .ok distance) ∧
    ((∃ v, v < visited.length ∧ visited.getD v false = false ∧
        distance.getD v INT_MAX < INT_MAX) →
      ∃ c, next_current_for_shortest_path visited distance next_current = .ok (true, c) ∧
        ∀ (g : Graph) (fuel : Nat),
          shortest_path_loop g (fuel + 1) visited distance next_current =
            shortest_path_loop g fuel (visited.set c true) (relax_out_edges g c distance) c) := by
  have hstop : (∀ v, v < visited.length →
      ¬ (visited.getD v false = false ∧ distance.getD v INT_MAX < INT_MAX)) →
      next_current_for_shortest_path visited distance next_current =
        .ok (false, next_current) := by
    intro hno
    apply next_current_false visited distance next_current hlen
    intro v hv
    by_contra hcv
    rw [Bool.not_eq_false, is_candidate_iff] at hcv
    exact hno v hv hcv
  have hgo : (∃ v, v < visited.length ∧ visited.getD v false = false ∧
      distance.getD v INT_MAX < INT_MAX) →
      ∃ c, next_current_for_shortest_path visited distance next_current = .ok (true, c) := by
    rintro ⟨v, hv, hc⟩
    obtain ⟨c, hnc, _⟩ := next_current_true visited distance next_current hlen
      ⟨v, hv, (is_candidate_iff visited distance v).mpr hc⟩
    exact ⟨c, hnc⟩
  refine ⟨?_, ?_, ?_⟩
  · by_cases hex : ∃ v, v < visited.length ∧ visited.getD v false = false ∧
        distance.getD v INT_MAX < INT_MAX
    · obtain ⟨c, hnc⟩ := hgo hex
      refine ⟨true, c, hnc, ?_, fun h => absurd h (by decide)⟩
      constructor
      · intro h; exact absurd h (by decide)
      · intro hno
        obtain ⟨v, hv, hc⟩ := hex
        exact absurd hc (hno v hv)
    · have hno : ∀ v, v < visited.length →
          ¬ (visited.getD v false = false ∧ distance.getD v INT_MAX < INT_MAX) :=
        fun v hv hc => hex ⟨v, hv, hc⟩
      exact ⟨false, next_current, hstop hno, ⟨fun _ => hno, fun _ => rfl⟩, fun _ => rfl⟩
  · intro hno g fuel
    simp only [shortest_path_loop, hstop hno]
  · intro hex
    obtain ⟨c, hnc⟩ := hgo hex
    refine ⟨c, hnc, fun g fuel => ?_⟩
    simp only [shortest_path_loop, hnc]

/-- Witness of C14: with every unvisited vertex at the sentinel the function returns false and
the loop returns the vector; with an unvisited vertex at distance 4 the loop runs its body. -/
theorem next_current_false_iff_witness :
    [true, false].length = [0, INT_MAX].length ∧
    (∀ v, v < [true, false].length →
      ¬ ([true, false].getD v false = false ∧ [0, INT_MAX].getD v INT_MAX < INT_MAX)) ∧
    shortest_path_loop line_graph (0 + 1) [true, false] [0, INT_MAX] 7 = .ok [0, INT_MAX] ∧
    [true, false].length = ([0, 4] : List Int).length ∧
    (∃ v, v < [true, false].length ∧ [true, false].getD v false = false ∧
      ([0, 4] : List Int).getD v INT_MAX < INT_MAX) ∧
    (∃ c, next_current_for_shortest_path [true, false] [0, 4] 7 = .ok (true, c) ∧
      ∀ (g : Graph) (fuel : Nat),
        shortest_path_loop g (fuel + 1) [true, false] [0, 4] 7 =
          shortest_path_loop g fuel ([true, false].set c true) (relax_out_edges g c [0, 4]) c) :=
  have hno : ∀ v, v < [true, false].length →
      ¬ ([true, false].getD v false = false ∧ [0, INT_MAX].getD v INT_MAX < INT_MAX) := by
    decide
  have hyes : ∃ v, v < [true, false].length ∧ [true, false].getD v false = false ∧
      ([0, 4] : List Int).getD v INT_MAX < INT_MAX := ⟨1, by decide⟩
  ⟨rfl, hno, (next_current_false_iff [true, false] [0, INT_MAX] 7 rfl).2.1 hno line_graph 0,
    rfl, hyes, (next_current_false_iff [true, false] [0, 4] 7 rfl).2.2 hyes⟩

/-- C15: in every iteration of the main loop of `shortest_path` the vertex chosen as current has
a tentative distance strictly below the sentinel `INT_MAX`, and in every relaxation sum
`edge_weight + shortest[current_vertex]` of the iteration the operand `shortest[current_vertex]`
is strictly below the sentinel: no weight is ever added to the sentinel. -/
theorem current_below_sentinel (g : Graph) (start : Nat) (hs : start < g.vertex_count) :
    ∃ r, shortest_path g start = .ok r ∧
      ∀ it ∈ shortest_path_iterations g start,
        it.shortest.getD it.current_vertex INT_MAX < INT_MAX ∧
        ∀ op ∈ it.operands g, op.2 < INT_MAX := by
  refine shortest_path_iterations_rule g start hs
    (fun seen D => seen.length = D.length)
    (fun _ _ _ its => ∀ it ∈ its,
      it.shortest.getD it.current_vertex INT_MAX < INT_MAX ∧
      ∀ op ∈ it.operands g, op.2 < INT_MAX)
    (fun seen D h => h) (by simp) ?_ ?_
  · intro seen D _ _ it hit
    simp at hit
  · intro seen D c hl _ _ hd _
    refine ⟨by simp only [relax_out_edges_length, List.length_set]; exact hl, ?_⟩
    intro r its hq it hit
    rcases List.mem_cons.mp hit with rfl | hit
    · exact ⟨hd, relaxation_operands_below_sentinel g c _ D hd⟩
    · exact hq it hit

/-- Witness of C15 on the line graph from vertex 0. -/
theorem current_below_sentinel_witness :
    0 < line_graph.vertex_count ∧
    ∃ r, shortest_path line_graph (0 : Nat) = .ok r ∧
      ∀ it ∈ shortest_path_iterations line_graph (0 : Nat),
        it.shortest.getD it.current_vertex INT_MAX < INT_MAX ∧
        ∀ op ∈ it.operands line_graph, op.2 < INT_MAX :=
  ⟨by decide, current_below_sentinel line_graph 0 (by decide)⟩

/-- C16: for a valid start vertex `shortest_path` returns, and a larger budget of loop
evaluations changes neither the result nor the iterations. Every iteration of the main loop
selects a valid vertex that is unvisited at that time and that is visited in every later
iteration, so no vertex is selected as current more than once and the body runs at most
`vertex_count` times. -/
theorem shortest_path_terminates (g : Graph) (start : Nat) (hs : start < g.vertex_count) :
    ∃ r, shortest_path g start = .ok r ∧
      (∀ extra, shortest_path_loop g (g.vertex_count + 1 + extra)
          (List.replicate g.vertex_count false)
          ((List.replicate g.vertex_count INT_MAX).set start 0) start = .ok r ∧
        shortest_path_loop_iterations g (g.vertex_count + 1 + extra)
          (List.replicate g.vertex_count false)
          ((List.replicate g.vertex_count INT_MAX).set start 0) start =
          shortest_path_iterations g start) ∧
      (shortest_path_iterations g start).length ≤ g.vertex_count ∧
      ((shortest_path_iterations g start).map (fun it => it.current_vertex)).Nodup ∧
      (∀ it ∈ shortest_path_iterations g start,
        it.current_vertex < g.vertex_count ∧ it.seen.getD it.current_vertex false = false) ∧
      (shortest_path_iterations g start).Pairwise
        (fun earlier later => later.seen.getD earlier.current_vertex false = true) := by
  obtain ⟨r, hr, hlen, hall, hpair, hnodup⟩ := shortest_path_iterations_rule g start hs
    (fun seen D => seen.length = D.length)
    (fun seen _ _ its => its.length ≤ seen.count false ∧
      (∀ it ∈ its, it.current_vertex < seen.length ∧
        it.seen.getD it.current_vertex false = false ∧
        ∀ v, seen.getD v false = true → it.seen.getD v false = true) ∧
      its.Pairwise (fun earlier later => later.seen.getD earlier.current_vertex false = true) ∧
      (its.map (fun it => it.current_vertex)).Nodup)
    (fun seen D h => h) (by simp)
    (by
      intro seen D _ _
      exact ⟨by simp, by simp, List.Pairwise.nil, by simp⟩)
    (by
      intro seen D c hl hc hu _ _
      refine ⟨by simp only [relax_out_edges_length, List.length_set]; exact hl, ?_⟩
      rintro r its ⟨hlen, hall, hpair, hnodup⟩
      have hcount := count_false_set_true seen c hc hu
      have hmono : ∀ v, seen.getD v false = true → (seen.set c true).getD v false = true := by
        intro v hv
        rw [getD_set_eq_ite]
        split
        · rfl
        · exact hv
      have hcset : (seen.set c true).getD c false = true := by
        rw [getD_set_eq_ite, if_pos ⟨rfl, hc⟩]
      refine ⟨by simp only [List.length_cons]; omega, ?_, ?_, ?_⟩
      · intro it hit
        rcases List.mem_cons.mp hit with rfl | hit
        · exact ⟨hc, hu, fun v hv => hv⟩
        · obtain ⟨h1, h2, h3⟩ := hall it hit
          exact ⟨by simpa using h1, h2, fun v hv => h3 v (hmono v hv)⟩
      · rw [List.pairwise_cons]
        exact ⟨fun it hit => (hall it hit).2.2 c hcset, hpair⟩
      · rw [List.map_cons, List.nodup_cons]
        refine ⟨?_, hnodup⟩
        intro hmem
        obtain ⟨it, hit, hitc⟩ := List.mem_map.mp hmem
        obtain ⟨_, h2, h3⟩ := hall it hit
        have h4 := h3 c hcset
        simp only at hitc
        rw [hitc] at h2
        rw [h2] at h4
        exact absurd h4 (by decide))
  refine ⟨r, hr, ?_, by simpa using hlen, hnodup, ?_, hpair⟩
  · intro extra
    rw [shortest_path_eq_loop g start hs] at hr
    obtain ⟨h1, h2⟩ := shortest_path_loop_fuel g (g.vertex_count + 1) _ _ _ r hr extra
    exact ⟨h1, by rw [h2, shortest_path_iterations_eq_loop g start hs]⟩
  · intro it hit
    obtain ⟨h1, h2, _⟩ := hall it hit
    exact ⟨by simpa using h1, h2⟩

/-- Witness of C16 on the line graph from vertex 0. -/
theorem shortest_path_terminates_witness :
    0 < line_graph.vertex_count ∧
    (shortest_path_iterations line_graph (0 : Nat)).map (fun it => it.current_vertex) =
      [0, 1, 2] ∧
    ∃ r, shortest_path line_graph (0 : Nat) = .ok r ∧
      (∀ extra, shortest_path_loop line_graph (line_graph.vertex_count + 1 + extra)
          (List.replicate line_graph.vertex_count false)
          ((List.replicate line_graph.vertex_count INT_MAX).set 0 0) 0 = .ok r ∧
        shortest_path_loop_iterations line_graph (line_graph.vertex_count + 1 + extra)
          (List.replicate line_graph.vertex_count false)
          ((List.replicate line_graph.vertex_count INT_MAX).set 0 0) 0 =
          shortest_path_iterations line_graph (0 : Nat)) ∧
      (shortest_path_iterations line_graph (0 : Nat)).length ≤ line_graph.vertex_count ∧
      ((shortest_path_iterations line_graph (0 : Nat)).map
        (fun it => it.current_vertex)).Nodup ∧
      (∀ it ∈ shortest_path_iterations line_graph (0 : Nat),
        it.current_vertex < line_graph.vertex_count ∧
        it.seen.getD it.current_vertex false = false) ∧
      (shortest_path_iterations line_graph (0 : Nat)).Pairwise
        (fun earlier later => later.seen.getD earlier.current_vertex false = true) :=
  ⟨by decide, by decide, shortest_path_terminates line_graph 0 (by decide)⟩

/-- C17: on a graph with non-negative edge weights, in a run of `shortest_path` in which no
relaxation sum exceeds `INT_MAX`, tentative distances never increase and the distance of a
vertex that is visited, or selected as current, is never changed again: this holds between
every iteration and every later iteration and between every iteration and the result, so the
distance a vertex holds when it is selected as current is its entry in the result. -/
theorem distances_settle (g : Graph) (start : Nat) (hnn : g.NonNegative)
    (hs : start < g.vertex_count)
    (hno : ∀ it ∈ shortest_path_iterations g start, ∀ op ∈ it.operands g,
      op.1 + op.2 ≤ INT_MAX) :
    ∃ r, shortest_path g start = .ok r ∧
      (∀ it ∈ shortest_path_iterations g start,
        it.SettledIn g.vertex_count r ∧
        r.getD it.current_vertex INT_MAX = it.shortest.getD it.current_vertex INT_MAX) ∧
      (shortest_path_iterations g start).Pairwise
        (fun earlier later => earlier.SettledIn g.vertex_count later.shortest) := by
  obtain ⟨r, hr, hq⟩ := shortest_path_iterations_rule g start hs
    (fun seen D => seen.length = g.vertex_count ∧ D.length = g.vertex_count)
    (fun seen D r its =>
      (∀ it ∈ its, ∀ op ∈ it.operands g, op.1 + op.2 ≤ INT_MAX) →
      (∀ v, v < g.vertex_count → 0 ≤ D.getD v INT_MAX) →
      (∀ u v, u < g.vertex_count → v < g.vertex_count → seen.getD u false = true →
        seen.getD v false = false → D.getD u INT_MAX ≤ D.getD v INT_MAX) →
      (∀ v, v < g.vertex_count → r.getD v INT_MAX ≤ D.getD v INT_MAX) ∧
      (∀ v, v < g.vertex_count → seen.getD v false = true →
        r.getD v INT_MAX = D.getD v INT_MAX) ∧
      (∀ it ∈ its,
        (∀ v, v < g.vertex_count → it.shortest.getD v INT_MAX ≤ D.getD v INT_MAX) ∧
        (∀ v, v < g.vertex_count → seen.getD v false = true →
          it.shortest.getD v INT_MAX = D.getD v INT_MAX) ∧
        it.current_vertex < g.vertex_count ∧
        it.SettledIn g.vertex_count r) ∧
      its.Pairwise (fun earlier later => earlier.SettledIn g.vertex_count later.shortest))
    (fun seen D h => h.1.trans h.2.symm) ⟨by simp, by simp⟩
    (by
      intro seen D _ _ _ _ _
      exact ⟨fun v _ => le_refl _, fun v _ _ => rfl, by simp, List.Pairwise.nil⟩)
    (by
      intro seen D c ⟨hsl, hdl⟩ hc hu _ hsel
      have hcn : c < g.vertex_count := hsl ▸ hc
      refine ⟨⟨by simpa using hsl, by rw [relax_out_edges_length]; exact hdl⟩, ?_⟩
      intro r its hq hno hpos hord
      have hfit := relaxation_operands_fit g c (g.out_edges c) D
        (fun v hv => hnn c hcn v hv) (hpos c hcn)
        (hno ⟨c, seen, D⟩ (List.mem_cons_self _ _))
      obtain ⟨hpos2, hord2, hfix⟩ := settle_step g hnn seen D c hsl hdl hpos hord hcn hu
        (fun v hv huv => hsel v (hsl ▸ hv) huv) hfit
      obtain ⟨hrle, hreq, hall, hpair⟩ :=
        hq (fun it hit => hno it (List.mem_cons_of_mem _ hit)) hpos2 hord2
      have hle : ∀ v, v < g.vertex_count →
          (relax_out_edges g c D).getD v INT_MAX ≤ D.getD v INT_MAX :=
        fun v _ => relax_out_edges_getD_le g c D v
      have hseen2 : ∀ v, v < g.vertex_count → (seen.getD v false = true ∨ v = c) →
          (seen.set c true).getD v false = true :=
        fun v hv h => (getD_set_true seen c v (hsl ▸ hv)).mpr h
      have hhead : ∀ later : List Int,
          (∀ v, v < g.vertex_count →
            later.getD v INT_MAX ≤ (relax_out_edges g c D).getD v INT_MAX) →
          (∀ v, v < g.vertex_count → (seen.set c true).getD v false = true →
            later.getD v INT_MAX = (relax_out_edges g c D).getD v INT_MAX) →
          Iteration.SettledIn ⟨c, seen, D⟩ g.vertex_count later := by
        intro later h1 h2
        refine ⟨fun v hv => le_trans (h1 v hv) (hle v hv), ?_⟩
        intro v hv hsv
        rw [h2 v hv (hseen2 v hv hsv), hfix v hv hsv]
      refine ⟨fun v hv => le_trans (hrle v hv) (hle v hv), ?_, ?_, ?_⟩
      · intro v hv hsv
        rw [hreq v hv (hseen2 v hv (Or.inl hsv)), hfix v hv (Or.inl hsv)]
      · intro it hit
        rcases List.mem_cons.mp hit with rfl | hit
        · exact ⟨fun v _ => le_refl _, fun v _ _ => rfl, hcn, hhead r hrle hreq⟩
        · obtain ⟨h1, h2, h3, h4⟩ := hall it hit
          refine ⟨fun v hv => le_trans (h1 v hv) (hle v hv), ?_, h3, h4⟩
          intro v hv hsv
          rw [h2 v hv (hseen2 v hv (Or.inl hsv)), hfix v hv (Or.inl hsv)]
      · rw [List.pairwise_cons]
        refine ⟨?_, hpair⟩
        intro it hit
        obtain ⟨h1, h2, _, _⟩ := hall it hit
        exact hhead it.shortest h1 h2)
  have hD : ∀ v, ((List.replicate g.vertex_count INT_MAX).set start 0).getD v INT_MAX =
      if start = v then 0 else INT_MAX := by
    intro v
    rw [getD_set_eq_ite]
    by_cases h : start = v
    · subst h
      rw [if_pos ⟨rfl, by simpa using hs⟩, if_pos rfl]
    · simp only [h, false_and, if_false, List.getD_eq_getElem?_getD, List.getElem?_replicate]
      split <;> rfl
  have hseen : ∀ u, (List.replicate g.vertex_count false).getD u false = false := by
    intro u
    simp only [List.getD_eq_getElem?_getD, List.getElem?_replicate]
    split <;> rfl
  obtain ⟨_, _, hall, hpair⟩ := hq hno
    (by
      intro v _
      rw [hD]
      split
      · exact le_refl _
      · decide)
    (by
      intro u v _ _ hsu
      rw [hseen u] at hsu
      exact absurd hsu (by decide))
  refine ⟨r, hr, ?_, hpair⟩
  intro it hit
  obtain ⟨_, _, hc, hset⟩ := hall it hit
  exact ⟨hset, hset.2 _ hc (Or.inr rfl)⟩

/-- Witness of C17 on the line graph from vertex 0. -/
theorem distances_settle_witness :
    line_graph.NonNegative ∧ 0 < line_graph.vertex_count ∧
    (∀ it ∈ shortest_path_iterations line_graph (0 : Nat), ∀ op ∈ it.operands line_graph,
      op.1 + op.2 ≤ INT_MAX) ∧
    ∃ r, shortest_path line_graph (0 : Nat) = .ok r ∧
      (∀ it ∈ shortest_path_iterations line_graph (0 : Nat),
        it.SettledIn line_graph.vertex_count r ∧
        r.getD it.current_vertex INT_MAX = it.shortest.getD it.current_vertex INT_MAX) ∧
      (shortest_path_iterations line_graph (0 : Nat)).Pairwise
        (fun earlier later => earlier.SettledIn line_graph.vertex_count later.shortest) :=
  ⟨by decide, by decide, by decide,
    distances_settle line_graph 0 (by decide) (by decide) (by decide)⟩

/-- C18 (amended): for a graph with non-negative edge weights whose total sum of edge weights
over the out-edge enumeration (the sum of `edge_weight(u, v)` over every vertex `u` and every
`v` enumerated by `out_edges(u)`, so that an undirected edge counts in both directions) is less
than `INT_MAX`, and a valid start vertex, every addition `edge_weight + shortest[current_vertex]`
performed by `shortest_path` has a sum between 0 and the total weight, hence within the `int`
range, and every entry of the result is the sentinel or a value between 0 and the total
weight. -/
theorem total_weight_bounds (g : Graph) (start : Nat) (hnn : g.NonNegative)
    (hs : start < g.vertex_count) (htot : total_weight g < INT_MAX) :
    ∃ r, shortest_path g start = .ok r ∧
      (∀ it ∈ shortest_path_iterations g start, ∀ op ∈ it.operands g,
        0 ≤ op.1 + op.2 ∧ op.1 + op.2 ≤ total_weight g ∧ op.1 + op.2 ≤ INT_MAX ∧
        add_int op.1 op.2 = op.1 + op.2) ∧
      ∀ v, v < g.vertex_count → ∃ d, r[v]? = some d ∧
        (d = INT_MAX ∨ (0 ≤ d ∧ d ≤ total_weight g)) := by
  obtain ⟨r, hr, hops, hres⟩ := shortest_path_iterations_rule g start hs
    (fun seen D => seen.length = g.vertex_count ∧ D.length = g.vertex_count ∧
      ∀ v, v < g.vertex_count → D.getD v INT_MAX = INT_MAX ∨
        (0 ≤ D.getD v INT_MAX ∧ D.getD v INT_MAX ≤ seen_weight g seen))
    (fun _ _ r its =>
      (∀ it ∈ its, ∀ op ∈ it.operands g,
        0 ≤ op.1 + op.2 ∧ op.1 + op.2 ≤ total_weight g) ∧
      r.length = g.vertex_count ∧
      ∀ v, v < g.vertex_count → r.getD v INT_MAX = INT_MAX ∨
        (0 ≤ r.getD v INT_MAX ∧ r.getD v INT_MAX ≤ total_weight g))
    (fun seen D h => h.1.trans h.2.1.symm)
    ⟨by simp, by simp, by
      intro v _
      rw [getD_set_eq_ite, seen_weight_replicate]
      split
      · exact Or.inr ⟨le_refl _, le_refl _⟩
      · left
        simp only [List.getD_eq_getElem?_getD, List.getElem?_replicate]
        split <;> rfl⟩
    (by
      intro seen D ⟨_, hdl, hb⟩ _
      refine ⟨by simp, hdl, fun v hv => ?_⟩
      rcases hb v hv with h | ⟨h1, h2⟩
      · exact Or.inl h
      · exact Or.inr ⟨h1, le_trans h2 (seen_weight_le_total g hnn seen)⟩)
    (by
      intro seen D c ⟨hsl, hdl, hb⟩ hc hu hd _
      have hcn : c < g.vertex_count := hsl ▸ hc
      obtain ⟨h0, hcb⟩ : 0 ≤ D.getD c INT_MAX ∧ D.getD c INT_MAX ≤ seen_weight g seen := by
        rcases hb c hcn with h | h
        · rw [h] at hd; exact absurd hd (lt_irrefl _)
        · exact h
      have hset := seen_weight_set g seen c hsl hcn hu
      have htop := seen_weight_le_total g hnn (seen.set c true)
      have hedge : ∀ v ∈ g.out_edges c, 0 ≤ g.edge_weight c v ∧
          g.edge_weight c v + D.getD c INT_MAX ≤ seen_weight g (seen.set c true) := by
        intro v hv
        have := edge_weight_le_out_weight g hnn c hcn v hv
        exact ⟨hnn c hcn v hv, by rw [hset]; linarith⟩
      have hedge2 : ∀ v ∈ g.out_edges c, 0 ≤ g.edge_weight c v ∧
          g.edge_weight c v + D.getD c INT_MAX ≤ INT_MAX := by
        intro v hv
        obtain ⟨h1, h2⟩ := hedge v hv
        exact ⟨h1, by linarith⟩
      refine ⟨⟨by simpa using hsl, by rw [relax_out_edges_length]; exact hdl, ?_⟩, ?_⟩
      · intro v hv
        rcases relax_out_edges_cases g c D h0 hedge2 v (hdl ▸ hv) with h | ⟨hm, h1, _⟩
        · rw [h]
          rcases hb v hv with h2 | ⟨h2, h3⟩
          · exact Or.inl h2
          · right
            refine ⟨h2, ?_⟩
            rw [hset]
            have := out_weight_nonneg g hnn c hcn
            linarith
        · rw [h1]
          obtain ⟨h2, h3⟩ := hedge v hm
          exact Or.inr ⟨by linarith, h3⟩
      · rintro r its ⟨hops, hres⟩
        refine ⟨?_, hres⟩
        intro it hit
        rcases List.mem_cons.mp hit with rfl | hit
        · intro op hop
          have hself : c ∈ g.out_edges c →
              ¬ add_int (g.edge_weight c c) (D.getD c INT_MAX) < D.getD c INT_MAX := by
            intro hm
            obtain ⟨h1, h2⟩ := hedge2 c hm
            rw [add_int_eq _ _ (by have : INT_MIN ≤ 0 := by decide
                                   linarith) h2]
            linarith
          unfold Iteration.operands at hop
          rw [relaxation_operands_eq_map g c _ D hself] at hop
          obtain ⟨v, hv, rfl⟩ := List.mem_map.mp hop
          obtain ⟨h1, h2⟩ := hedge v hv
          exact ⟨by simp only; linarith, by simp only; linarith⟩
        · exact hops it hit)
  refine ⟨r, hr, ?_, ?_⟩
  · intro it hit op hop
    obtain ⟨h1, h2⟩ := hops it hit op hop
    have h3 : op.1 + op.2 ≤ INT_MAX := by linarith
    refine ⟨h1, h2, h3, add_int_eq _ _ ?_ h3⟩
    have : INT_MIN ≤ 0 := by decide
    linarith
  · intro v hv
    exact ⟨r.getD v INT_MAX, getElem?_eq_some_getD r v INT_MAX (hres.1 ▸ hv), hres.2 v hv⟩

/-- Witness of C18 on the line graph, whose total weight is 300, from vertex 0. -/
theorem total_weight_bounds_witness :
    line_graph.NonNegative ∧ 0 < line_graph.vertex_count ∧ total_weight line_graph = 300 ∧
    total_weight line_graph < INT_MAX ∧
    ∃ r, shortest_path line_graph (0 : Nat) = .ok r ∧
      (∀ it ∈ shortest_path_iterations line_graph (0 : Nat), ∀ op ∈ it.operands line_graph,
        0 ≤ op.1 + op.2 ∧ op.1 + op.2 ≤ total_weight line_graph ∧ op.1 + op.2 ≤ INT_MAX ∧
        add_int op.1 op.2 = op.1 + op.2) ∧
      ∀ v, v < line_graph.vertex_count → ∃ d, r[v]? = some d ∧
        (d = INT_MAX ∨ (0 ≤ d ∧ d ≤ total_weight line_graph)) :=
  ⟨by decide, by decide, by decide, by decide,
    total_weight_bounds line_graph 0 (by decide) (by decide) (by decide)⟩

/-- C19 (amended): for an undirected graph that satisfies the graph contract and valid vertices
`u` and `v`, the entry of `v` in `distance_at_most_two(graph, u)` equals the entry of `u` in
`distance_at_most_two(graph, v)`; and when the weights are non-negative and no relaxation sum
`edge_weight + shortest[current_vertex]` exceeds `INT_MAX` in the run of `shortest_path` from
`u` nor in the run from `v`, the entry of `v` in `shortest_path(graph, u)` equals the entry of
`u` in `shortest_path(graph, v)`. -/
theorem undirected_symmetry (g : Graph) (u v : Nat) (hwf : g.WellFormed)
    (hund : g.Undirected) (hu : u < g.vertex_count) (hv : v < g.vertex_count) :
    (g.NonNegative →
      (∀ it ∈ shortest_path_iterations g u, ∀ op ∈ it.operands g, op.1 + op.2 ≤ INT_MAX) →
      (∀ it ∈ shortest_path_iterations g v, ∀ op ∈ it.operands g, op.1 + op.2 ≤ INT_MAX) →
      ∃ ru rv d, shortest_path g u = .ok ru ∧ shortest_path g v = .ok rv ∧
        ru[v]? = some d ∧ rv[u]? = some d) ∧
    (∃ su sv b, distance_at_most_two g u = .ok su ∧ distance_at_most_two g v = .ok sv ∧
      su[v]? = some b ∧ sv[u]? = some b) := by
  constructor
  · intro hnn hnou hnov
    obtain ⟨ru, hru, hlu, hmu, hlowu, hrealu⟩ :=
      shortest_path_le_reverse_run g hwf hnn hund u v hu hv hnou
    obtain ⟨rv, hrv, hlv, hmv, hlowv, hrealv⟩ :=
      shortest_path_le_reverse_run g hwf hnn hund v u hv hu hnov
    refine ⟨ru, rv, ru.getD v INT_MAX, hru, hrv,
      getElem?_eq_some_getD ru v INT_MAX (hlu ▸ hv), ?_⟩
    rw [getElem?_eq_some_getD rv u INT_MAX (hlv ▸ hu)]
    congr 1
    by_cases h1 : ru.getD v INT_MAX < INT_MAX
    · obtain ⟨p, hp, hw⟩ := hrealu h1
      have h2 : rv.getD u INT_MAX ≤ ru.getD v INT_MAX := hw ▸ hlowv p hp
      obtain ⟨q, hq, hw2⟩ := hrealv (lt_of_le_of_lt h2 h1)
      have h3 : ru.getD v INT_MAX ≤ rv.getD u INT_MAX := hw2 ▸ hlowu q hq
      exact le_antisymm h2 h3
    · have h2 : ru.getD v INT_MAX = INT_MAX := le_antisymm hmu (not_lt.mp h1)
      by_cases h3 : rv.getD u INT_MAX < INT_MAX
      · obtain ⟨q, hq, hw2⟩ := hrealv h3
        have h4 : ru.getD v INT_MAX ≤ rv.getD u INT_MAX := hw2 ▸ hlowu q hq
        linarith
      · rw [h2]
        exact le_antisymm hmv (not_lt.mp h3)
  · obtain ⟨su, hsu, hlu, hiffu⟩ := distance_at_most_two_getD g u v hu hv
    obtain ⟨sv, hsv, hlv, hiffv⟩ := distance_at_most_two_getD g v u hv hu
    refine ⟨su, sv, su.getD v false, hsu, hsv,
      getElem?_eq_some_getD su v false (hlu ▸ hv), ?_⟩
    rw [getElem?_eq_some_getD sv u false (hlv ▸ hu)]
    congr 1
    apply Bool.eq_iff_iff.mpr
    rw [hiffu, hiffv]
    exact ⟨fun h => two_hops_symm g hwf hund v u hv h,
      fun h => two_hops_symm g hwf hund u v hu h⟩

/-- Witness of C19 on `level_graph`, the undirected line `0 - 1 - 2` with the weights `INT_MAX`
and 0, between the vertices 0 and 2: no relaxation sum exceeds `INT_MAX` from either end and
both entries are the sentinel. -/
theorem undirected_symmetry_witness :
    level_graph.WellFormed ∧ level_graph.Undirected ∧
    0 < level_graph.vertex_count ∧ 2 < level_graph.vertex_count ∧
    level_graph.NonNegative ∧
    (∀ it ∈ shortest_path_iterations level_graph (0 : Nat), ∀ op ∈ it.operands level_graph,
      op.1 + op.2 ≤ INT_MAX) ∧
    (∀ it ∈ shortest_path_iterations level_graph (2 : Nat), ∀ op ∈ it.operands level_graph,
      op.1 + op.2 ≤ INT_MAX) ∧
    shortest_path level_graph (0 : Nat) = .ok [0, INT_MAX, INT_MAX] ∧
    shortest_path level_graph (2 : Nat) = .ok [INT_MAX, 0, 0] ∧
    (∃ ru rv d, shortest_path level_graph (0 : Nat) = .ok ru ∧
      shortest_path level_graph (2 : Nat) = .ok rv ∧ ru[2]? = some d ∧ rv[0]? = some d) ∧
    (∃ su sv b, distance_at_most_two level_graph (0 : Nat) = .ok su ∧
      distance_at_most_two level_graph (2 : Nat) = .ok sv ∧
      su[2]? = some b ∧ sv[0]? = some b) :=
  ⟨by decide, by decide, by decide, by decide, by decide, by decide, by decide, by decide,
    by decide,
    (undirected_symmetry level_graph 0 2 (by decide) (by decide) (by decide) (by decide)).1
      (by decide) (by decide) (by decide),
    (undirected_symmetry level_graph 0 2 (by decide) (by decide) (by decide) (by decide)).2⟩

/-- Counterexample to C19 as stated: `lopsided_graph` is the undirected line `0 - 1 - 2` with
the non-negative weights `INT_MAX` and 1. From vertex 0 the entry of vertex 2 is the sentinel
`INT_MAX`; from vertex 2 the relaxation of the edge `1 - 0` computes `INT_MAX + 1`, which leaves
the `int` range, and the entry of vertex 0 is `INT_MIN`. -/
theorem undirected_symmetry_counterexample :
    lopsided_graph.WellFormed ∧ lopsided_graph.NonNegative ∧ lopsided_graph.Undirected ∧
    0 < lopsided_graph.vertex_count ∧ 2 < lopsided_graph.vertex_count ∧
    shortest_path lopsided_graph (0 : Nat) = .ok [0, 2147483647, 2147483647] ∧
    shortest_path lopsided_graph (2 : Nat) = .ok [-2147483648, -1, 0] ∧
    ¬ ∃ ru rv d, shortest_path lopsided_graph (0 : Nat) = .ok ru ∧
      shortest_path lopsided_graph (2 : Nat) = .ok rv ∧ ru[2]? = some d ∧ rv[0]? = some d := by
  have h0 : shortest_path lopsided_graph (0 : Nat) = .ok [0, 2147483647, 2147483647] := by
    decide
  have h2 : shortest_path lopsided_graph (2 : Nat) = .ok [-2147483648, -1, 0] := by decide
  refine ⟨by decide, by decide, by decide, by decide, by decide, h0, h2, ?_⟩
  rintro ⟨ru, rv, d, hru, hrv, hd1, hd2⟩
  rw [h0] at hru
  rw [h2] at hrv
  injection hru with hru
  injection hrv with hrv
  subst hru
  subst hrv
  simp at hd1 hd2
  omega

/-- C12: the constructor applied to a database whose routes are valid (their codes resolve to
database indices and the distance of a route depends only on the pair of airports it joins)
returns a network whose graph has `size()` vertices; every route record is an edge between the
indices of its two codes, present in both directions, with the great-circle distance of the
route as its weight in both directions; every edge of the graph comes from a route record; and
no vertex has the same neighbour twice, so there is exactly one edge per pair of airports joined
by a route. -/
theorem constructor_graph (db : AirportDatabase) (hvalid : db.RoutesValid) :
    ∃ graph, AirportNetwork.new db = .ok ⟨db, graph⟩ ∧
      graph.toGraph.vertex_count = db.size ∧
      (∀ route ∈ db.routes,
        (db.index route.code_two).toNat ∈
          graph.toGraph.out_edges (db.index route.code_one).toNat ∧
        (db.index route.code_one).toNat ∈
          graph.toGraph.out_edges (db.index route.code_two).toNat ∧
        graph.toGraph.edge_weight (db.index route.code_one).toNat
          (db.index route.code_two).toNat =
            db.distance_miles route.code_one route.code_two ∧
        graph.toGraph.edge_weight (db.index route.code_two).toNat
          (db.index route.code_one).toNat =
            db.distance_miles route.code_one route.code_two) ∧
      (∀ u v, v ∈ graph.toGraph.out_edges u → u < db.size ∧ v < db.size ∧
        ∃ route ∈ db.routes,
          (db.index route.code_one = u ∧ db.index route.code_two = v) ∨
          (db.index route.code_one = v ∧ db.index route.code_two = u)) ∧
      (∀ u, (graph.toGraph.out_edges u).Nodup) := by
  obtain ⟨graph, hg, hrg⟩ := constructor_routesGraph db hvalid
  refine ⟨graph, hg, hrg.count, ?_, ?_, hrg.nodup⟩
  · intro route hr
    exact routesGraph_route db graph hvalid hrg route hr
  · intro u v hv
    obtain ⟨h1, h2, route, hr, h3, _⟩ := routesGraph_edge_weight db db.routes graph hrg u v hv
    exact ⟨h1, h2, route, hr, h3⟩

/-- Witness of C12 on the database of the end-to-end example. -/
theorem constructor_graph_witness :
    abc_database.RoutesValid ∧
    AirportNetwork.new abc_database = .ok ⟨abc_database, abc_graph⟩ ∧
    ∃ graph, AirportNetwork.new abc_database = .ok ⟨abc_database, graph⟩ ∧
      graph.toGraph.vertex_count = abc_database.size ∧
      (∀ route ∈ abc_database.routes,
        (abc_database.index route.code_two).toNat ∈
          graph.toGraph.out_edges (abc_database.index route.code_one).toNat ∧
        (abc_database.index route.code_one).toNat ∈
          graph.toGraph.out_edges (abc_database.index route.code_two).toNat ∧
        graph.toGraph.edge_weight (abc_database.index route.code_one).toNat
          (abc_database.index route.code_two).toNat =
            abc_database.distance_miles route.code_one route.code_two ∧
        graph.toGraph.edge_weight (abc_database.index route.code_two).toNat
          (abc_database.index route.code_one).toNat =
            abc_database.distance_miles route.code_one route.code_two) ∧
      (∀ u v, v ∈ graph.toGraph.out_edges u → u < abc_database.size ∧ v < abc_database.size ∧
        ∃ route ∈ abc_database.routes,
          (abc_database.index route.code_one = u ∧ abc_database.index route.code_two = v) ∨
          (abc_database.index route.code_one = v ∧ abc_database.index route.code_two = u)) ∧
      (∀ u, (graph.toGraph.out_edges u).Nodup) :=
  ⟨by decide, rfl, constructor_graph abc_database (by decide)⟩

/-- Counterexample to C18 as stated, with every undirected edge counted once: `heavy_graph` has
the single undirected edge `0 - 1` of weight `2^30`, so its total edge weight `2^30` is below
`INT_MAX`, but in the iteration for vertex 1 the relaxation of the edge back to vertex 0 adds
`2^30` to `shortest[1] = 2^30`, a sum above `INT_MAX`, and the entry of vertex 0 in the result is
`INT_MIN`, which is neither the sentinel nor between 0 and the total. -/
theorem total_weight_bounds_counterexample :
    heavy_graph.WellFormed ∧ heavy_graph.NonNegative ∧ heavy_graph.Undirected ∧
    0 < heavy_graph.vertex_count ∧
    undirected_total_weight heavy_graph = 1073741824 ∧
    undirected_total_weight heavy_graph < INT_MAX ∧
    (∃ it ∈ shortest_path_iterations heavy_graph (0 : Nat), ∃ op ∈ it.operands heavy_graph,
      it.current_vertex = 1 ∧ op = (1073741824, 1073741824) ∧ INT_MAX < op.1 + op.2) ∧
    shortest_path heavy_graph (0 : Nat) = .ok [-2147483648, 1073741824] ∧
    total_weight heavy_graph = 2147483648 := by
  refine ⟨by decide, by decide, by decide, by decide, by decide, by decide, ?_, by decide,
    by decide⟩
  refine ⟨⟨1, [true, false], [0, 1073741824]⟩, by decide, (1073741824, 1073741824), by decide,
    rfl, rfl, by decide⟩

end Project04
